import Mathlib

/-!
ColumnTuple over the IColumn capability interface, and the logical expressions optimizer.

A shallow embedding of `dbms/src/Columns/ColumnTuple.h`, of
`dbms/src/Interpreters/LogicalExpressionsOptimizer.cpp` and of
`IParserColumnDeclaration::parseImpl` of `dbms/src/Parsers/ParserCreateQuery.h`.

* The AST is a heap of nodes addressed by pointer (`ASTHeap`); `std::make_shared` stores a
  node at the next free address, and the library calls (`std::sort`, `std::binary_search`,
  `std::remove_if`, the iteration of an `unordered_map`) are the fields of `OptimizerEnv`.

* A child column is a value of a type `Col`; the virtual methods of `IColumn` that the
  composite calls on its children are the fields of `IColumn Col Field`.
* `PaddedPODArray<size_t>` and `PaddedPODArray<char *>` are lists of naturals (sizes,
  addresses); the bytes the cursors point into are a `Memory`.
* `size_t` arithmetic is taken modulo `2 ^ 64` where the header computes with it.
* Child operations are embedded on their normal return; the checks the composite itself
  performs return `Except ColumnError`.
-/

namespace DB

/-- Failures raised by the composite column itself. -/
inductive ColumnError where
  /-- The `std::out_of_range` of `columns.at(0)` on a composite without children. -/
  | outOfRange
  /-- A `RUNTIME_CHECK(cond)` whose condition is false. -/
  | runtimeCheck
  /-- A source composite whose number of children differs. -/
  | tupleSizeMismatch
  /-- Children of unequal size handed to the constructor. -/
  | childSizeMismatch
  deriving DecidableEq, Repr

/-- The number of values of `size_t`. -/
def sizeModulus : Nat := 2 ^ 64

/-- The byte store that `char *` cursors point into: address to byte. -/
abbrev Memory := Nat → Nat

/-- A null map, `PaddedPODArray<UInt8>`. -/
abbrev NullMap := List Nat

/-- A collator handle, `TiDB::TiDBCollatorPtr`; `none` is the null pointer. -/
abbrev TiDBCollatorPtr := Option Nat

/-- The result of a positional write: the store and the advanced cursors. -/
structure PosState where
  /-- The bytes behind the cursors. -/
  mem : Memory
  /-- The cursors, `PaddedPODArray<char *> & pos`. -/
  pos : List Nat

/-- The result of a comparison-encoding write: store, cursors and the scratch sort key. -/
structure CmpState where
  /-- The bytes behind the cursors. -/
  mem : Memory
  /-- The cursors, `PaddedPODArray<char *> & pos`. -/
  pos : List Nat
  /-- The scratch buffer, `String * sort_key_container`. -/
  sort_key_container : Option String

/-- The virtual methods of `IColumn` that `ColumnTuple` calls on its children.
Mutating methods return the mutated column. -/
structure IColumn (Col : Type) (Field : Type) where
  /-- Number of rows. -/
  size : Col → Nat
  /-- The boxed value of a row, `operator[]`. -/
  get : Col → Nat → Field
  /-- Appends row `n` of `src`: `insertFrom c src n`. -/
  insertFrom : Col → Col → Nat → Col
  /-- Appends the default value of the column's type. -/
  insertDefault : Col → Col
  /-- Three-way comparison: `compareAt c n m rhs nan_direction_hint`. -/
  compareAt : Col → Nat → Nat → Col → Int → Int
  /-- Appends the arena encoding of row `n` to the arena block and returns the block. -/
  serializeValueIntoArena : Col → Nat → List Nat → TiDBCollatorPtr → List Nat
  /-- Reads one row at address `pos`, appends it, and returns the advanced address. -/
  deserializeAndInsertFromArena : Col → Memory → Nat → TiDBCollatorPtr → Col × Nat
  /-- Arena-form byte count of the whole column. -/
  serializeByteSize : Col → Nat
  /-- Adds the value-encoding size of every row onto `byte_size`. -/
  countSerializeByteSize : Col → List Nat → List Nat
  /-- Adds the comparison-encoding size of every row onto `byte_size`. -/
  countSerializeByteSizeForCmp : Col → List Nat → Option NullMap → TiDBCollatorPtr → List Nat
  /-- Value encoding: `serializeToPos c mem pos start length has_null`. -/
  serializeToPos : Col → Memory → List Nat → Nat → Nat → Bool → PosState
  /-- Comparison encoding:
  `serializeToPosForCmp c mem pos start length has_null nullmap collator sort_key_container`. -/
  serializeToPosForCmp :
    Col → Memory → List Nat → Nat → Nat → Bool → Option NullMap → TiDBCollatorPtr →
      Option String → CmpState
  /-- Value decoding: `deserializeAndInsertFromPos c mem pos use_nt_align_buffer`. -/
  deserializeAndInsertFromPos : Col → Memory → List Nat → Bool → Col × List Nat
  /-- Advance-only decoding: `deserializeAndAdvancePos c mem pos`. -/
  deserializeAndAdvancePos : Col → Memory → List Nat → List Nat
  /-- The rows kept by a mask: `filter c filt result_size_hint`. -/
  filter : Col → List Nat → Int → Col

/-- The composite column: `Columns columns`. -/
structure ColumnTuple (Col : Type) where
  /-- The children, in declared order. -/
  columns : List Col
  deriving DecidableEq, Repr

namespace ColumnTuple

variable {Col Field : Type}

/-- The header's `size_t tupleSize() const { return columns.size(); }` -/
def tupleSize (t : ColumnTuple Col) : Nat := t.columns.length

/-- The header's `size_t size() const override { return columns.at(0)->size(); }` -/
def size (I : IColumn Col Field) (t : ColumnTuple Col) : Except ColumnError Nat :=
  match t.columns with
  | [] => .error .outOfRange
  | c :: _ => .ok (I.size c)

/-- The logical row `i` of the composite: `(c0[i], ..., c(K-1)[i])`. -/
def row (I : IColumn Col Field) (t : ColumnTuple Col) (i : Nat) : List Field :=
  t.columns.map (fun c => I.get c i)

/-- The loop `for (size_t i = first; i < last; ++i) body(i)` with a body that may throw:
the body runs for `i = first, first + 1, ..., last - 1`, and not at all when
`last ≤ first`. -/
def forRangeM {σ : Type} (first last : Nat) (body : Nat → σ → Except ColumnError σ) (s : σ) :
    Except ColumnError σ :=
  (List.range' first (last - first)).foldlM (fun acc i => body i acc) s

/-- The loop `for (size_t i = first; i < last; ++i) body(i)` with a body that cannot throw. -/
def forRange {σ : Type} (first last : Nat) (body : Nat → σ → σ) (s : σ) : σ :=
  (List.range' first (last - first)).foldl (fun acc i => body i acc) s

/-- Modelled from the spec: the constructor and `create`, whose bodies are in
ColumnTuple.cpp. "Constructing a composite from children of unequal size fails": every
child is checked against the first one. -/
def create (I : IColumn Col Field) (columns : List Col) : Except ColumnError (ColumnTuple Col) :=
  match columns with
  | [] => .ok ⟨[]⟩
  | c :: cs =>
    if cs.all (fun d => I.size d == I.size c) then .ok ⟨c :: cs⟩
    else .error .childSizeMismatch

/-- Modelled from the spec: `insertFrom`, whose body is in ColumnTuple.cpp. "Append row i
of another column of the same shape": every child appends row `n` of the matching child
of the source; a source with a different number of children is rejected. -/
def insertFrom (I : IColumn Col Field) (t src : ColumnTuple Col) (n : Nat) :
    Except ColumnError (ColumnTuple Col) :=
  if src.columns.length = t.columns.length then
    .ok ⟨List.zipWith (fun c s => I.insertFrom c s n) t.columns src.columns⟩
  else .error .tupleSizeMismatch

/-- The header's `insertManyFrom`:
`for (size_t i = 0; i < length; ++i) insertFrom(src_, n);` -/
def insertManyFrom (I : IColumn Col Field) (t src : ColumnTuple Col) (n length : Nat) :
    Except ColumnError (ColumnTuple Col) :=
  forRangeM 0 length (fun _ acc => insertFrom I acc src n) t

/-- The header's `insertSelectiveRangeFrom`:
`RUNTIME_CHECK(selective_offsets.size() >= start + length);`
`for (size_t i = start; i < start + length; ++i) insertFrom(src_, selective_offsets[i]);`
with `start + length` computed in `size_t`. -/
def insertSelectiveRangeFrom (I : IColumn Col Field) (t src : ColumnTuple Col)
    (selective_offsets : List Nat) (start length : Nat) : Except ColumnError (ColumnTuple Col) :=
  if selective_offsets.length ≥ (start + length) % sizeModulus then
    forRangeM start ((start + length) % sizeModulus)
      (fun i acc => insertFrom I acc src (selective_offsets.getD i 0)) t
  else .error .runtimeCheck

/-- Modelled from the spec: `insertDefault`, whose body is in ColumnTuple.cpp. "Append
type-default value", fanned out to every child. -/
def insertDefault (I : IColumn Col Field) (t : ColumnTuple Col) : ColumnTuple Col :=
  ⟨t.columns.map I.insertDefault⟩

/-- The header's `insertManyDefaults`:
`for (size_t i = 0; i < length; ++i) insertDefault();` -/
def insertManyDefaults (I : IColumn Col Field) (t : ColumnTuple Col) (length : Nat) :
    ColumnTuple Col :=
  forRange 0 length (fun _ acc => insertDefault I acc) t

/-- Modelled from the spec: `serializeValueIntoArena`, whose body is in ColumnTuple.cpp.
"Each child's own arena-serialized bytes, in child order, back to back", appended to the
arena block; the result is the grown block and the view of the written bytes. -/
def serializeValueIntoArena (I : IColumn Col Field) (t : ColumnTuple Col) (n : Nat)
    (arena : List Nat) (collator : TiDBCollatorPtr) : List Nat × List Nat :=
  let grown := t.columns.foldl (fun a c => I.serializeValueIntoArena c n a collator) arena
  (grown, grown.drop arena.length)

/-- Modelled from the spec: the child loop of `deserializeAndInsertFromArena` (body in
ColumnTuple.cpp), the children read one after the other. -/
def deserializeColumnsFromArena (I : IColumn Col Field) (m : Memory)
    (collator : TiDBCollatorPtr) : List Col → Nat → List Col × Nat
  | [], pos => ([], pos)
  | c :: cs, pos =>
    let r := I.deserializeAndInsertFromArena c m pos collator
    let rest := deserializeColumnsFromArena I m collator cs r.2
    (r.1 :: rest.1, rest.2)

/-- Modelled from the spec: `deserializeAndInsertFromArena`, whose body is in
ColumnTuple.cpp. "Reads one row back and appends it, returning the advanced read cursor":
every child, in order, reads its part at the cursor the previous child returned. -/
def deserializeAndInsertFromArena (I : IColumn Col Field) (t : ColumnTuple Col) (m : Memory)
    (pos : Nat) (collator : TiDBCollatorPtr) : ColumnTuple Col × Nat :=
  let r := deserializeColumnsFromArena I m collator t.columns pos
  (⟨r.1⟩, r.2)

/-- The header's `countSerializeByteSizeForCmp`:
`for (const auto & column : columns) column->countSerializeByteSizeForCmp(byte_size, nullmap, collator);` -/
def countSerializeByteSizeForCmp (I : IColumn Col Field) (t : ColumnTuple Col)
    (byte_size : List Nat) (nullmap : Option NullMap) (collator : TiDBCollatorPtr) : List Nat :=
  t.columns.foldl (fun bs c => I.countSerializeByteSizeForCmp c bs nullmap collator) byte_size

/-- The header's `serializeToPos`:
`for (const auto & column : columns) column->serializeToPos(pos, start, length, has_null);` -/
def serializeToPos (I : IColumn Col Field) (t : ColumnTuple Col) (mem : Memory) (pos : List Nat)
    (start length : Nat) (has_null : Bool) : PosState :=
  t.columns.foldl (fun st c => I.serializeToPos c st.mem st.pos start length has_null) ⟨mem, pos⟩

/-- The header's `serializeToPosForCmp`: every child, in order, writes through the same
cursors, with the same null map, collator and scratch buffer. -/
def serializeToPosForCmp (I : IColumn Col Field) (t : ColumnTuple Col) (mem : Memory)
    (pos : List Nat) (start length : Nat) (has_null : Bool) (nullmap : Option NullMap)
    (collator : TiDBCollatorPtr) (sort_key_container : Option String) : CmpState :=
  t.columns.foldl
    (fun st c =>
      I.serializeToPosForCmp c st.mem st.pos start length has_null nullmap collator
        st.sort_key_container)
    ⟨mem, pos, sort_key_container⟩

/-- The children of `deserializeAndInsertFromPos`, decoded one after the other through the
same cursors. -/
def deserializeColumnsFromPos (I : IColumn Col Field) (m : Memory) (use_nt_align_buffer : Bool) :
    List Col → List Nat → List Col × List Nat
  | [], pos => ([], pos)
  | c :: cs, pos =>
    let r := I.deserializeAndInsertFromPos c m pos use_nt_align_buffer
    let rest := deserializeColumnsFromPos I m use_nt_align_buffer cs r.2
    (r.1 :: rest.1, rest.2)

/-- The header's `deserializeAndInsertFromPos`:
`for (auto & column : columns) column->assumeMutableRef().deserializeAndInsertFromPos(pos, use_nt_align_buffer);` -/
def deserializeAndInsertFromPos (I : IColumn Col Field) (t : ColumnTuple Col) (m : Memory)
    (pos : List Nat) (use_nt_align_buffer : Bool) : ColumnTuple Col × List Nat :=
  let r := deserializeColumnsFromPos I m use_nt_align_buffer t.columns pos
  (⟨r.1⟩, r.2)

/-- The header's `serializeByteSize`:
`size_t res = 0; for (const auto & column : columns) res += column->serializeByteSize(); return res;`
with the additions in `size_t`. -/
def serializeByteSize (I : IColumn Col Field) (t : ColumnTuple Col) : Nat :=
  t.columns.foldl (fun res c => (res + I.serializeByteSize c) % sizeModulus) 0

/-- The header's `countSerializeByteSize`:
`for (const auto & column : columns) column->countSerializeByteSize(byte_size);` -/
def countSerializeByteSize (I : IColumn Col Field) (t : ColumnTuple Col)
    (byte_size : List Nat) : List Nat :=
  t.columns.foldl (fun bs c => I.countSerializeByteSize c bs) byte_size

/-- The header's `deserializeAndAdvancePos`, a `const` member:
`for (const auto & column : columns) column->deserializeAndAdvancePos(pos);`
The result is the composite after the call, which a `const` member leaves as it is, and
the advanced cursors. -/
def deserializeAndAdvancePos (I : IColumn Col Field) (t : ColumnTuple Col) (m : Memory)
    (pos : List Nat) : ColumnTuple Col × List Nat :=
  (t, t.columns.foldl (fun p c => I.deserializeAndAdvancePos c m p) pos)

/-- Modelled from the spec: `filter`, whose body is in ColumnTuple.cpp. "Returns a new
column containing only rows where `mask[i]` is true", fanned out to every child with the
same mask and size hint. -/
def filter (I : IColumn Col Field) (t : ColumnTuple Col) (filt : List Nat)
    (result_size_hint : Int) : ColumnTuple Col :=
  ⟨t.columns.map (fun c => I.filter c filt result_size_hint)⟩

/-- The receiver after a call that may have thrown: its state, the exception if one left
the call, and the number of `insertFrom` calls the call has started. -/
structure Outcome (σ : Type) where
  /-- The receiver when the call is left. -/
  state : σ
  /-- The exception that left the call, if any. -/
  thrown : Option ColumnError
  /-- The number of `insertFrom` calls started. -/
  calls : Nat

/-- Modelled from the spec: `insertFrom` (body in ColumnTuple.cpp) with the receiver's
state after the call; the shape is checked before any child is touched, so a rejected
call leaves the receiver as it was. -/
def insertFromState (I : IColumn Col Field) (t src : ColumnTuple Col) (n : Nat) :
    ColumnTuple Col × Option ColumnError :=
  match insertFrom I t src n with
  | .ok t1 => (t1, none)
  | .error e => (t, some e)

/-- The loop `for (i = first; ...) insertFrom(src_, selective_offsets[i]);` over the row
numbers `rows`, with the receiver's state: an exception leaves the loop at once, with the
rows appended so far in place. -/
def insertRowsState (I : IColumn Col Field) (src : ColumnTuple Col) :
    List Nat → ColumnTuple Col → Nat → Outcome (ColumnTuple Col)
  | [], t, calls => ⟨t, none, calls⟩
  | n :: rows, t, calls =>
    match insertFromState I t src n with
    | (t1, none) => insertRowsState I src rows t1 (calls + 1)
    | (t1, some e) => ⟨t1, some e, calls + 1⟩

/-- The header's `insertSelectiveRangeFrom` with the receiver's state after the call:
a failed `RUNTIME_CHECK` throws before the loop is entered. -/
def insertSelectiveRangeFromState (I : IColumn Col Field) (t src : ColumnTuple Col)
    (selective_offsets : List Nat) (start length : Nat) : Outcome (ColumnTuple Col) :=
  if selective_offsets.length ≥ (start + length) % sizeModulus then
    insertRowsState I src
      ((List.range' start ((start + length) % sizeModulus - start)).map
        (fun i => selective_offsets.getD i 0)) t 0
  else ⟨t, some .runtimeCheck, 0⟩

/-- Modelled from the spec: the child loop of `compareAt` (body in ColumnTuple.cpp), the
children compared in declared order until one differs. -/
def compareColumnsAt (I : IColumn Col Field) (n m : Nat) (nan_direction_hint : Int) :
    List Col → List Col → Int
  | c :: cs, r :: rs =>
    let res := I.compareAt c n m r nan_direction_hint
    if res ≠ 0 then res else compareColumnsAt I n m nan_direction_hint cs rs
  | _, _ => 0

/-- Modelled from the spec: `compareAt`, whose body is in ColumnTuple.cpp. "Lexicographic
over children in declared order: the first child with a nonzero result determines the
outcome." -/
def compareAt (I : IColumn Col Field) (t : ColumnTuple Col) (n m : Nat) (rhs : ColumnTuple Col)
    (nan_direction_hint : Int) : Int :=
  compareColumnsAt I n m nan_direction_hint t.columns rhs.columns

/-! ## Contracts of the children -/

/-- Count/write consistency of one child for the comparison encoding, for a given
`has_null`, null map and collator: on in-range arguments `serializeToPosForCmp` and
`countSerializeByteSizeForCmp` keep the lengths of the cursor array and of `byte_size`,
and the former advances `pos[k]` by exactly what the latter adds to `byte_size[start + k]`. -/
def CmpCountWriteConsistent (I : IColumn Col Field) (has_null : Bool)
    (nullmap : Option NullMap) (collator : TiDBCollatorPtr) (c : Col) : Prop :=
  ∀ (mem : Memory) (pos : List Nat) (sk : Option String) (byte_size : List Nat)
    (start length : Nat),
    start + length ≤ I.size c → length ≤ pos.length → byte_size.length = I.size c →
    (I.serializeToPosForCmp c mem pos start length has_null nullmap collator sk).pos.length
        = pos.length ∧
    (I.countSerializeByteSizeForCmp c byte_size nullmap collator).length = byte_size.length ∧
    ∀ k, k < length →
      (I.serializeToPosForCmp c mem pos start length has_null nullmap collator sk).pos.getD k 0
          + byte_size.getD (start + k) 0
        = pos.getD k 0
          + (I.countSerializeByteSizeForCmp c byte_size nullmap collator).getD (start + k) 0

/-- The per-row count of a child for the comparison encoding: what
`countSerializeByteSizeForCmp` leaves at row `i` of an all-zero `byte_size`. -/
def rowByteSizeForCmp (I : IColumn Col Field) (nullmap : Option NullMap)
    (collator : TiDBCollatorPtr) (c : Col) (i : Nat) : Nat :=
  (I.countSerializeByteSizeForCmp c (List.replicate (I.size c) 0) nullmap collator).getD i 0

/-- Framing of one child's value encoding: on `length` cursors and in-range rows,
`serializeToPos` keeps the number of cursors, moves no cursor backwards, and changes no
byte outside the slots `[pos[k], pos'[k])` it has written. -/
def SerializeToPosFramed (I : IColumn Col Field) (start length : Nat) (has_null : Bool)
    (c : Col) : Prop :=
  ∀ (mem : Memory) (pos : List Nat), start + length ≤ I.size c → pos.length = length →
    (I.serializeToPos c mem pos start length has_null).pos.length = length ∧
    (∀ k, k < length →
      pos.getD k 0 ≤ (I.serializeToPos c mem pos start length has_null).pos.getD k 0) ∧
    (∀ a, (∀ k, k < length →
        a < pos.getD k 0 ∨ (I.serializeToPos c mem pos start length has_null).pos.getD k 0 ≤ a) →
      (I.serializeToPos c mem pos start length has_null).mem a = mem a)

/-- Round trip of one child's value encoding into the destination child `d`: when the
slots `serializeToPos` wrote do not overlap, `deserializeAndInsertFromPos`, started at the
cursors where the write began and reading any store that holds the written bytes in
those slots, leaves every cursor where the write left it and appends exactly the rows
`start, ..., start + length - 1` of `c` to `d`. -/
def PosRoundTrip (I : IColumn Col Field) (start length : Nat) (has_null use_nt : Bool)
    (d c : Col) : Prop :=
  ∀ (mem : Memory) (pos : List Nat), start + length ≤ I.size c → pos.length = length →
    (∀ k k', k < length → k' < length → k ≠ k' →
      (I.serializeToPos c mem pos start length has_null).pos.getD k 0 ≤ pos.getD k' 0 ∨
      (I.serializeToPos c mem pos start length has_null).pos.getD k' 0 ≤ pos.getD k 0) →
    ∀ m2 : Memory,
      (∀ k, k < length → ∀ a, pos.getD k 0 ≤ a →
        a < (I.serializeToPos c mem pos start length has_null).pos.getD k 0 →
        m2 a = (I.serializeToPos c mem pos start length has_null).mem a) →
      (I.deserializeAndInsertFromPos d m2 pos use_nt).2
          = (I.serializeToPos c mem pos start length has_null).pos ∧
      I.size (I.deserializeAndInsertFromPos d m2 pos use_nt).1 = I.size d + length ∧
      (∀ i, i < I.size d → I.get (I.deserializeAndInsertFromPos d m2 pos use_nt).1 i = I.get d i) ∧
      ∀ k, k < length →
        I.get (I.deserializeAndInsertFromPos d m2 pos use_nt).1 (I.size d + k)
          = I.get c (start + k)

/-- The store `m` holds `bytes` at address `pos`. -/
def holdsAt (m : Memory) (pos : Nat) (bytes : List Nat) : Prop :=
  ∀ i, i < bytes.length → m (pos + i) = bytes.getD i 0

/-- The arena encoding of row `n` of a child: what `serializeValueIntoArena` appends to an
empty block. -/
def arenaEncoding (I : IColumn Col Field) (collator : TiDBCollatorPtr) (c : Col) (n : Nat) :
    List Nat :=
  I.serializeValueIntoArena c n [] collator

/-- A child's `serializeValueIntoArena` appends its encoding of the row to the block,
whatever the block already holds. -/
def ArenaAppends (I : IColumn Col Field) (collator : TiDBCollatorPtr) (c : Col) : Prop :=
  ∀ (n : Nat) (arena : List Nat),
    I.serializeValueIntoArena c n arena collator = arena ++ arenaEncoding I collator c n

/-- A child's arena encoding of row `n` round-trips into the destination child `d` and is
self-delimiting: reading any store that holds the encoding at `pos` appends row `n` of `c`
to `d` and returns the address just past the encoding. -/
def ArenaRoundTrip (I : IColumn Col Field) (collator : TiDBCollatorPtr) (n : Nat)
    (d c : Col) : Prop :=
  ∀ (m : Memory) (pos : Nat), n < I.size c → holdsAt m pos (arenaEncoding I collator c n) →
    (I.deserializeAndInsertFromArena d m pos collator).2
        = pos + (arenaEncoding I collator c n).length ∧
    I.size (I.deserializeAndInsertFromArena d m pos collator).1 = I.size d + 1 ∧
    (∀ i, i < I.size d → I.get (I.deserializeAndInsertFromArena d m pos collator).1 i = I.get d i) ∧
    I.get (I.deserializeAndInsertFromArena d m pos collator).1 (I.size d) = I.get c n

/-- The children's `insertFrom` on pairs related by `R` (a destination and a source of the
same type): it appends row `n` of the source, keeps the rows already present, and the
grown destination is still related to the source. -/
def InsertFromRespects (I : IColumn Col Field) (R : Col → Col → Prop) : Prop :=
  ∀ (d s : Col) (n : Nat), R d s → n < I.size s →
    I.size (I.insertFrom d s n) = I.size d + 1 ∧
    (∀ i, i < I.size d → I.get (I.insertFrom d s n) i = I.get d i) ∧
    I.get (I.insertFrom d s n) (I.size d) = I.get s n ∧
    R (I.insertFrom d s n) s

/-- The children's `insertDefault` appends the default `typeDefault c` of the child's
type and keeps the rows already present; the grown child has the same default. -/
def InsertDefaultAppends (I : IColumn Col Field) (typeDefault : Col → Field) : Prop :=
  ∀ (c : Col),
    I.size (I.insertDefault c) = I.size c + 1 ∧
    (∀ i, i < I.size c → I.get (I.insertDefault c) i = I.get c i) ∧
    I.get (I.insertDefault c) (I.size c) = typeDefault c ∧
    typeDefault (I.insertDefault c) = typeDefault c

/-- Count/write consistency of one child for the value encoding, for a given `has_null`:
on in-range arguments `serializeToPos` and `countSerializeByteSize` keep the lengths of
the cursor array and of `byte_size`, and the former advances `pos[k]` by exactly what the
latter adds to `byte_size[start + k]`. -/
def CountWriteConsistent (I : IColumn Col Field) (has_null : Bool) (c : Col) : Prop :=
  ∀ (mem : Memory) (pos : List Nat) (byte_size : List Nat) (start length : Nat),
    start + length ≤ I.size c → length ≤ pos.length → byte_size.length = I.size c →
    (I.serializeToPos c mem pos start length has_null).pos.length = pos.length ∧
    (I.countSerializeByteSize c byte_size).length = byte_size.length ∧
    ∀ k, k < length →
      (I.serializeToPos c mem pos start length has_null).pos.getD k 0
          + byte_size.getD (start + k) 0
        = pos.getD k 0 + (I.countSerializeByteSize c byte_size).getD (start + k) 0

/-- The per-row count of a child for the value encoding: what `countSerializeByteSize`
leaves at row `i` of an all-zero `byte_size`. -/
def rowByteSize (I : IColumn Col Field) (c : Col) (i : Nat) : Nat :=
  (I.countSerializeByteSize c (List.replicate (I.size c) 0)).getD i 0

/-- The total length of the arena encodings of all rows of a child. -/
def arenaTotal (I : IColumn Col Field) (collator : TiDBCollatorPtr) (c : Col) : Nat :=
  ((List.range (I.size c)).map (fun n => (arenaEncoding I collator c n).length)).sum

/-- The advance-only decoding of one child moves the cursors as its inserting decoding
does. -/
def AdvanceMatchesInsert (I : IColumn Col Field) (use_nt : Bool) (c : Col) : Prop :=
  ∀ (m : Memory) (pos : List Nat),
    I.deserializeAndAdvancePos c m pos = (I.deserializeAndInsertFromPos c m pos use_nt).2

/-- The rows of a child, first to last. -/
def columnRows (I : IColumn Col Field) (c : Col) : List Field :=
  (List.range (I.size c)).map (I.get c)

/-- The row numbers a mask keeps, in increasing order: those `i < n` with `filt[i]`
nonzero. -/
def keptRows (filt : List Nat) (n : Nat) : List Nat :=
  (List.range n).filter (fun i => filt.getD i 0 != 0)

/-- The `filter` of one child keeps exactly the rows whose mask entry is nonzero, in their
original order, whatever the size hint. -/
def FilterKeepsMasked (I : IColumn Col Field) (c : Col) : Prop :=
  ∀ (filt : List Nat) (hint : Int), filt.length = I.size c →
    columnRows I (I.filter c filt hint) = (keptRows filt (I.size c)).map (I.get c)

/-- The size effect of the children's appending operations: `insertFrom` on a pair related
by `R` (a destination and a source of the same type) appends one row and keeps the pair
related, `insertDefault` appends one row, `deserializeAndInsertFromPos` one row per cursor,
keeping the number of cursors. -/
def AppendsGrowSize (I : IColumn Col Field) (R : Col → Col → Prop) : Prop :=
  (∀ (d s : Col) (n : Nat), R d s →
    I.size (I.insertFrom d s n) = I.size d + 1 ∧ R (I.insertFrom d s n) s) ∧
  (∀ (c : Col), I.size (I.insertDefault c) = I.size c + 1) ∧
  (∀ (c : Col) (m : Memory) (pos : List Nat) (use_nt : Bool),
    I.size (I.deserializeAndInsertFromPos c m pos use_nt).1 = I.size c + pos.length ∧
    (I.deserializeAndInsertFromPos c m pos use_nt).2.length = pos.length)

end ColumnTuple

/-! ## Leaf columns

Two concrete children on which the contracts above are discharged and the concrete
scenarios are evaluated. -/

/-- Modelled from the spec: the boxed values of the two leaf columns, an unsigned 8-bit
integer or a string. -/
inductive LeafField where
  /-- An integer value. -/
  | uint8 (v : Fin 256)
  /-- A string value. -/
  | string (v : String)
  deriving DecidableEq, Repr

/-- Modelled from the spec: the leaf columns, whose sources are not part of the embedded
header. "A finite ordered sequence of N values of one semantic type": an integer column
and a string column. -/
inductive Leaf where
  /-- An integer column, `ColumnUInt8`. -/
  | uint8s (data : List (Fin 256))
  /-- A string column, `ColumnString`. -/
  | strings (data : List String)
  deriving DecidableEq, Repr

/-- Modelled from the spec: the integer a stored byte stands for in the integer leaf. -/
def byteOf (x : Nat) : Fin 256 := if h : x < 256 then ⟨x, h⟩ else 0

/-- Modelled from the spec: the store after a leaf has written `bytes` at address `a`. -/
def writeBytes (m : Memory) (a : Nat) (bytes : List Nat) : Memory :=
  fun x => if a ≤ x ∧ x < a + bytes.length then bytes.getD (x - a) 0 else m x

namespace Leaf

/-- Modelled from the spec: number of rows of a leaf. -/
def size : Leaf → Nat
  | uint8s d => d.length
  | strings d => d.length

/-- Modelled from the spec: the boxed value of row `i` of a leaf. -/
def get : Leaf → Nat → LeafField
  | uint8s d, i => .uint8 (d.getD i 0)
  | strings d, i => .string (d.getD i "")

/-- Modelled from the spec: two leaves of the same type ("of the same shape"). -/
def sameKind : Leaf → Leaf → Prop
  | uint8s _, uint8s _ => True
  | strings _, strings _ => True
  | uint8s _, strings _ => False
  | strings _, uint8s _ => False

/-- Modelled from the spec: a leaf appends row `n` of a source of the same type. -/
def insertFrom : Leaf → Leaf → Nat → Leaf
  | uint8s d, uint8s s, n => uint8s (d ++ [s.getD n 0])
  | strings d, strings s, n => strings (d ++ [s.getD n ""])
  | uint8s d, strings _, _ => uint8s d
  | strings d, uint8s _, _ => strings d

/-- Modelled from the spec: the type-defined default of a leaf, `0` for integers and `""`
for strings. -/
def typeDefault : Leaf → LeafField
  | uint8s _ => .uint8 0
  | strings _ => .string ""

/-- Modelled from the spec: a leaf appends its type default. -/
def insertDefault : Leaf → Leaf
  | uint8s d => uint8s (d ++ [0])
  | strings d => strings (d ++ [""])

/-- Modelled from the spec: three-way comparison of row `n` of a leaf with row `m` of
`rhs`. -/
def compareAt : Leaf → Nat → Nat → Leaf → Int → Int
  | uint8s d, n, m, uint8s r, _ =>
    if d.getD n 0 < r.getD m 0 then -1 else if d.getD n 0 = r.getD m 0 then 0 else 1
  | strings d, n, m, strings r, _ =>
    if d.getD n "" < r.getD m "" then -1 else if d.getD n "" = r.getD m "" then 0 else 1
  | uint8s _, _, _, strings _, _ => 0
  | strings _, _, _, uint8s _, _ => 0

/-- Modelled from the spec: the bytes of row `i` of a leaf, "fixed-width or
self-describing": the byte itself for an integer, the length followed by the characters
for a string. -/
def encodeRow : Leaf → Nat → List Nat
  | uint8s d, i => [(d.getD i 0).val]
  | strings d, i => (d.getD i "").length :: (d.getD i "").toList.map Char.toNat

/-- Modelled from the spec: a leaf reads one row at address `a`, appends it, and returns
the address past it. -/
def decodeRow : Leaf → Memory → Nat → Leaf × Nat
  | uint8s d, m, a => (uint8s (d ++ [byteOf (m a)]), a + 1)
  | strings d, m, a =>
    (strings (d ++ [String.mk ((List.range (m a)).map (fun i => Char.ofNat (m (a + 1 + i))))]),
      a + 1 + m a)

/-- Modelled from the spec: the address past the row a leaf has stored at `a`. -/
def skipRow : Leaf → Memory → Nat → Nat
  | uint8s _, _, a => a + 1
  | strings _, m, a => a + 1 + m a

/-- Modelled from the spec: a leaf adds the encoded size of every row onto `byte_size`. -/
def countRows (c : Leaf) (byte_size : List Nat) : List Nat :=
  byte_size.mapIdx (fun i b => if i < c.size then b + (c.encodeRow i).length else b)

/-- Modelled from the spec: a leaf writes rows `row, row + 1, ...`, `length` of them,
through the cursors:
`for (i = 0; i < length; ++i) { write(pos[i], row + i); pos[i] += size; }` -/
def writeRows (c : Leaf) : Nat → Nat → Memory → List Nat → PosState
  | _, 0, m, pos => ⟨m, pos⟩
  | _, _ + 1, m, [] => ⟨m, []⟩
  | row, length + 1, m, a :: pos =>
    let r := writeRows c (row + 1) length (writeBytes m a (c.encodeRow row)) pos
    ⟨r.mem, (a + (c.encodeRow row).length) :: r.pos⟩

/-- Modelled from the spec: a leaf reads one row per cursor and appends it, advancing every
cursor. -/
def readRows : Leaf → Memory → List Nat → Leaf × List Nat
  | c, _, [] => (c, [])
  | c, m, a :: pos =>
    let r := c.decodeRow m a
    let rest := readRows r.1 m pos
    (rest.1, r.2 :: rest.2)

/-- Modelled from the spec: the rows of a leaf whose mask entry is nonzero, "preserving
relative order". -/
def filter : Leaf → List Nat → Int → Leaf
  | uint8s d, filt, _ => uint8s ((ColumnTuple.keptRows filt d.length).map (fun i => d.getD i 0))
  | strings d, filt, _ =>
    strings ((ColumnTuple.keptRows filt d.length).map (fun i => d.getD i ""))

end Leaf

/-- Modelled from the spec: the capability interface of the leaf columns. Both leaves
ignore `has_null`, the null map and the collator, and use their value encoding as the
comparison encoding. -/
def leafColumn : IColumn Leaf LeafField where
  size := Leaf.size
  get := Leaf.get
  insertFrom := Leaf.insertFrom
  insertDefault := Leaf.insertDefault
  compareAt := Leaf.compareAt
  serializeValueIntoArena c n arena _ := arena ++ c.encodeRow n
  deserializeAndInsertFromArena c m pos _ := c.decodeRow m pos
  serializeByteSize c := ((List.range c.size).map (fun i => (c.encodeRow i).length)).sum
  countSerializeByteSize c byte_size := c.countRows byte_size
  countSerializeByteSizeForCmp c byte_size _ _ := c.countRows byte_size
  serializeToPos c m pos start length _ := c.writeRows start length m pos
  serializeToPosForCmp c m pos start length _ _ _ sk :=
    ⟨(c.writeRows start length m pos).mem, (c.writeRows start length m pos).pos, sk⟩
  deserializeAndInsertFromPos c m pos _ := c.readRows m pos
  deserializeAndAdvancePos c m pos := pos.map (c.skipRow m)
  filter := Leaf.filter

/-- The empty composite with an integer child and a string child. -/
def emptyPair : ColumnTuple Leaf := ⟨[.uint8s [], .strings []]⟩

/-- The composite `[(7, "a"), (9, "b")]`. -/
def samplePair : ColumnTuple Leaf := ⟨[.uint8s [7, 9], .strings ["a", "b"]]⟩

/-- The composite `[(10, "a"), (20, "b"), (30, "c"), (40, "d")]`. -/
def tensPair : ColumnTuple Leaf := ⟨[.uint8s [10, 20, 30, 40], .strings ["a", "b", "c", "d"]]⟩

/-- The leaf interface with children that report 2^63 bytes each for
`serializeByteSize()`, whatever they hold. -/
def hugeColumn : IColumn Leaf LeafField :=
  { leafColumn with serializeByteSize := fun _ => 2 ^ 63 }

/-! ## The logical expressions optimizer

A shallow embedding of `dbms/src/Interpreters/LogicalExpressionsOptimizer.cpp`. The AST is a
heap of nodes addressed by naturals; `make_shared` takes the next free address. The
operations of `Field` and of the standard library are fields of `OptimizerEnv`. -/

/-- The address of an AST node (`IAST *`, `ASTPtr`); 0 is the null pointer. -/
abbrev ASTPtr := Nat

/-- The dynamic type of a node, with the members the optimizer reads and writes:
`ASTFunction` (`name`, alias, `arguments`), `ASTExpressionList`, `ASTLiteral` (`value`),
`ASTSelectQuery` (`select_expression_list`, `where_expression`, `having_expression`), or
any other node. -/
inductive ASTKind (Field : Type) where
  /-- An `ASTFunction`. -/
  | function (name : String) (alias_name : String) (arguments : ASTPtr)
  /-- An `ASTExpressionList`. -/
  | expressionList
  /-- An `ASTLiteral`. -/
  | literal (value : Field)
  /-- An `ASTSelectQuery`. -/
  | selectQuery (select_expression_list where_expression having_expression : ASTPtr)
  /-- Any other node. -/
  | other
  deriving DecidableEq, Repr

/-- A node: its dynamic type and `IAST::children`. -/
structure IAST (Field : Type) where
  /-- The dynamic type and its members. -/
  kind : ASTKind Field
  /-- The member `children`. -/
  children : List ASTPtr
  deriving DecidableEq, Repr

/-- The nodes in memory and the address the next `make_shared` returns. -/
structure ASTHeap (Field : Type) where
  /-- The node at an address. -/
  node : ASTPtr → IAST Field
  /-- The next free address. -/
  next : ASTPtr

/-- The operations the optimizer calls on `Field` and in the standard library. -/
structure OptimizerEnv (Field : Type) where
  /-- The type tag of a value, `Field::getType()`. -/
  getType : Field → Nat
  /-- The order of values, `Field::operator<`. -/
  less : Field → Field → Bool
  /-- The call `std::sort(first, last, comp)` on a vector of node addresses. -/
  sort : (ASTPtr → ASTPtr → Bool) → List ASTPtr → List ASTPtr
  /-- The call `std::binary_search(first, last, value)` on a vector of node addresses. -/
  binary_search : List ASTPtr → ASTPtr → Bool
  /-- What `std::remove_if(first, last, pred)` leaves at the `i`-th place behind the new
  logical end, which the standard does not specify. -/
  remove_if_rest : (ASTPtr → Bool) → List ASTPtr → Nat → ASTPtr
  /-- The order in which a `std::unordered_map` is iterated. -/
  unordered_order : List (ASTPtr × Nat) → List (ASTPtr × Nat)

namespace LogicalExpressionsOptimizer

variable {Field : Type}

/-- Failures raised by the optimizer, `ErrorCodes::LOGICAL_ERROR`. -/
inductive OptimizerError where
  /-- The exception "LogicalExpressionsOptimizer: garbage map is corrupted". -/
  | garbageMapCorrupted
  /-- The exception "LogicalExpressionsOptimizer: parent node information is corrupted". -/
  | parentNodeCorrupted
  /-- The exception "LogicalExpressionsOptimizer: internal error". -/
  | internalError
  deriving DecidableEq, Repr

/-- The key of a chain, `OrWithExpression`: the OR function, the hash of the left-hand
expression and the alias of the OR function. -/
structure OrWithExpression where
  /-- The OR function. -/
  or_function : ASTPtr
  /-- The tree hash of the left-hand expression. -/
  expression : Nat × Nat
  /-- The alias of the OR function, the member `alias`. -/
  alias_name : String
  deriving DecidableEq, Repr

/-- The equalities of a chain, `Equalities`. -/
structure Equalities where
  /-- The equality functions `expr = xN`. -/
  functions : List ASTPtr
  /-- Whether the chain has been replaced by an IN expression. -/
  is_processed : Bool
  deriving DecidableEq, Repr

/-- An entry of `disjunctive_equality_chains_map`. -/
abbrev DisjunctiveEqualityChain := OrWithExpression × Equalities

/-- The expression list `or_function->children[0]` whose children are the operands. -/
def operandsNode (h : ASTHeap Field) (or_function : ASTPtr) : ASTPtr :=
  (h.node or_function).children.getD 0 0

/-- The source's `getFunctionOperands`:
`static_cast<ASTExpressionList *>(&*(or_function->children[0]))->children`. -/
def getFunctionOperands (h : ASTHeap Field) (or_function : ASTPtr) : List ASTPtr :=
  (h.node (operandsNode h or_function)).children

/-- Assignment through the reference `getFunctionOperands(or_function)`. -/
def setFunctionOperands (h : ASTHeap Field) (or_function : ASTPtr) (operands : List ASTPtr) :
    ASTHeap Field :=
  { h with
    node := Function.update h.node (operandsNode h or_function)
      { h.node (operandsNode h or_function) with children := operands } }

/-- The member `value` read through `static_cast<ASTLiteral *>`; a node that is no literal
reads as the default `Field`. -/
def literalValue [Inhabited Field] (h : ASTHeap Field) (p : ASTPtr) : Field :=
  match (h.node p).kind with
  | .literal v => v
  | _ => default

/-- The alias of a function node, `tryGetAlias()`. -/
def tryGetAlias (h : ASTHeap Field) (p : ASTPtr) : String :=
  match (h.node p).kind with
  | .function _ alias_name _ => alias_name
  | _ => ""

/-- The expression `std::make_shared<T>()` followed by the assignments to the members of
the new node: the node is stored at the next free address. -/
def makeShared (h : ASTHeap Field) (n : IAST Field) : ASTHeap Field × ASTPtr :=
  (⟨Function.update h.node h.next n, h.next + 1⟩, h.next)

/-- The loop of `mayOptimizeDisjunctiveEqualityChain` over the equalities after the first:
`if (literal->value.getType() != first_literal->value.getType()) return false;` -/
def sameTypeAsFirst [Inhabited Field] (E : OptimizerEnv Field) (h : ASTHeap Field)
    (first_literal : ASTPtr) : List ASTPtr → Bool
  | [] => true
  | f :: fs =>
    if E.getType (literalValue h ((getFunctionOperands h f).getD 1 0))
        ≠ E.getType (literalValue h first_literal) then false
    else sameTypeAsFirst E h first_literal fs

/-- The source's `mayOptimizeDisjunctiveEqualityChain`; the setting
`optimize_min_equality_disjunction_chain_length` is a parameter. -/
def mayOptimizeDisjunctiveEqualityChain [Inhabited Field] (E : OptimizerEnv Field)
    (h : ASTHeap Field) (optimize_min_equality_disjunction_chain_length : Nat)
    (chain : DisjunctiveEqualityChain) : Bool :=
  if chain.2.functions.length < optimize_min_equality_disjunction_chain_length then false
  else
    sameTypeAsFirst E h ((getFunctionOperands h (chain.2.functions.getD 0 0)).getD 1 0)
      (chain.2.functions.drop 1)

/-- The comparator of the sort in `addInExpression`: `val_lhs->value < val_rhs->value`. -/
def literalLess [Inhabited Field] (E : OptimizerEnv Field) (h : ASTHeap Field)
    (lhs rhs : ASTPtr) : Bool :=
  E.less (literalValue h lhs) (literalValue h rhs)

/-- The right-hand literals `operands[1]` of the equalities of a chain, in chain order. -/
def chainLiterals (h : ASTHeap Field) (equality_functions : List ASTPtr) : List ASTPtr :=
  equality_functions.map (fun f => (getFunctionOperands h f).getD 1 0)

/-- The source's `addInExpression`: the four nodes `value_list`, `tuple_function`,
`expression_list` and `in_function` are made in this order, then `in_function` is pushed
onto the operands of the OR function. -/
def addInExpression [Inhabited Field] (E : OptimizerEnv Field) (h : ASTHeap Field)
    (chain : DisjunctiveEqualityChain) : ASTHeap Field :=
  let equality_functions := chain.2.functions
  let value_list_children := E.sort (literalLess E h) (chainLiterals h equality_functions)
  let r1 := makeShared h ⟨.expressionList, value_list_children⟩
  let equals_expr_lhs := (getFunctionOperands r1.1 (equality_functions.getD 0 0)).getD 0 0
  let r2 := makeShared r1.1 ⟨.function "tuple" "" r1.2, [r1.2]⟩
  let r3 := makeShared r2.1 ⟨.expressionList, [equals_expr_lhs, r2.2]⟩
  let r4 := makeShared r3.1 ⟨.function "in" chain.1.alias_name r3.2, [r3.2]⟩
  setFunctionOperands r4.1 chain.1.or_function
    (getFunctionOperands r4.1 chain.1.or_function ++ [r4.2])

/-- The call `garbage_map.emplace(key, value)`: nothing happens when the key is present. -/
def emplace (garbage_map : List (ASTPtr × Nat)) (key : ASTPtr) (value : Nat) :
    List (ASTPtr × Nat) :=
  if garbage_map.any (fun e => e.1 == key) then garbage_map else garbage_map ++ [(key, value)]

/-- The call `garbage_map.find(key)`; `none` is `garbage_map.end()`. -/
def find (garbage_map : List (ASTPtr × Nat)) (key : ASTPtr) : Option Nat :=
  (garbage_map.find? (fun e => e.1 == key)).map (fun e => e.2)

/-- Assignment through the reference `it->second`. -/
def assign (garbage_map : List (ASTPtr × Nat)) (key : ASTPtr) (value : Nat) :
    List (ASTPtr × Nat) :=
  garbage_map.map (fun e => if e.1 == key then (e.1, value) else e)

/-- The call `std::remove_if(first, last, pred)` on the range `xs`: the elements that do
not satisfy `pred` are moved to the front in their order, the places behind them hold
unspecified values; the result is the range and the index of the new logical end. -/
def removeIf (E : OptimizerEnv Field) (pred : ASTPtr → Bool) (xs : List ASTPtr) :
    List ASTPtr × Nat :=
  let kept := xs.filter (fun x => !pred x)
  (kept ++ (List.range (xs.length - kept.length)).map (E.remove_if_rest pred xs), kept.length)

/-- The first loop of `cleanupOrExpressions`, "Initialization": every processed chain
enters its OR function with the iterator `operands.end()`. -/
def initGarbageMap (h : ASTHeap Field) :
    List DisjunctiveEqualityChain → List (ASTPtr × Nat) → List (ASTPtr × Nat)
  | [], garbage_map => garbage_map
  | chain :: chains, garbage_map =>
    if !chain.2.is_processed then initGarbageMap h chains garbage_map
    else
      initGarbageMap h chains
        (emplace garbage_map chain.1.or_function
          (getFunctionOperands h chain.1.or_function).length)

/-- The second loop of `cleanupOrExpressions`, "Collect garbage": for every processed
chain the operands before `first_erased` that are equality functions of the chain are
removed by `std::remove_if`, and `first_erased` becomes the new logical end. -/
def collectGarbage (E : OptimizerEnv Field) :
    List DisjunctiveEqualityChain → ASTHeap Field → List (ASTPtr × Nat) →
      Except OptimizerError (ASTHeap Field × List (ASTPtr × Nat))
  | [], h, garbage_map => .ok (h, garbage_map)
  | chain :: chains, h, garbage_map =>
    if !chain.2.is_processed then collectGarbage E chains h garbage_map
    else
      match find garbage_map chain.1.or_function with
      | none => .error .garbageMapCorrupted
      | some first_erased =>
        let operands := getFunctionOperands h chain.1.or_function
        let r := removeIf E (fun operand => E.binary_search chain.2.functions operand)
          (operands.take first_erased)
        collectGarbage E chains
          (setFunctionOperands h chain.1.or_function (r.1 ++ operands.drop first_erased))
          (assign garbage_map chain.1.or_function r.2)

/-- The third loop of `cleanupOrExpressions`, "Delete garbage":
`operands.erase(first_erased, operands.end())` for every entry. -/
def deleteGarbage : ASTHeap Field → List (ASTPtr × Nat) → ASTHeap Field
  | h, [] => h
  | h, entry :: entries =>
    deleteGarbage
      (setFunctionOperands h entry.1 ((getFunctionOperands h entry.1).take entry.2)) entries

/-- The source's `cleanupOrExpressions`. -/
def cleanupOrExpressions (E : OptimizerEnv Field) (h : ASTHeap Field)
    (disjunctive_equality_chains_map : List DisjunctiveEqualityChain) :
    Except OptimizerError (ASTHeap Field) :=
  match collectGarbage E disjunctive_equality_chains_map h
      (initGarbageMap h disjunctive_equality_chains_map []) with
  | .error e => .error e
  | .ok (h1, garbage_map) => .ok (deleteGarbage h1 (E.unordered_order garbage_map))

/-- The last loop of `collectDisjunctiveEqualityChains`:
`std::sort(equality_functions.begin(), equality_functions.end())` for every chain, the
equality functions ordered by address. -/
def sortEqualityFunctions (E : OptimizerEnv Field) :
    List DisjunctiveEqualityChain → List DisjunctiveEqualityChain
  | [] => []
  | chain :: chains =>
    (chain.1, { chain.2 with functions := E.sort (fun a b => decide (a < b)) chain.2.functions })
      :: sortEqualityFunctions E chains

/-- The postcondition of `std::sort(first, last, comp)` on the range `l`: the result is a
permutation of `l` in which no element is less than an earlier one. -/
def SortsBy (sort : (ASTPtr → ASTPtr → Bool) → List ASTPtr → List ASTPtr)
    (comp : ASTPtr → ASTPtr → Bool) (l : List ASTPtr) : Prop :=
  (sort comp l).Perm l ∧ (sort comp l).Pairwise (fun a b => comp b a = false)

/-- A strict weak ordering, what `std::sort` requires of its comparator: irreflexive,
transitive, and `a < c` implies `a < b` or `b < c` for every `b`, which makes equivalence
(neither less than the other) transitive. -/
def StrictWeakOrder {α : Type} (lt : α → α → Bool) : Prop :=
  (∀ a, lt a a = false) ∧
  (∀ a b c, lt a b = true → lt b c = true → lt a c = true) ∧
  ∀ a b c, lt a c = true → lt a b = true ∨ lt b c = true

/-- The nodes that `addInExpression` reads were allocated before the call: the OR
function, its operand list, the first equality of the chain, the operand list of that
equality and the right-hand literals; the operand list of the OR function is neither the
OR function itself nor one of the literals. -/
def ChainAllocated (h : ASTHeap Field) (chain : DisjunctiveEqualityChain) : Prop :=
  chain.1.or_function < h.next ∧
  operandsNode h chain.1.or_function < h.next ∧
  operandsNode h chain.1.or_function ≠ chain.1.or_function ∧
  chain.2.functions.getD 0 0 < h.next ∧
  operandsNode h (chain.2.functions.getD 0 0) < h.next ∧
  ∀ p ∈ chainLiterals h chain.2.functions,
    p < h.next ∧ p ≠ operandsNode h chain.1.or_function

/-- The postcondition of `std::binary_search` on a range sorted by address: it finds
exactly the elements of the range. -/
def BinarySearchFinds (binary_search : List ASTPtr → ASTPtr → Bool) : Prop :=
  ∀ (l : List ASTPtr) (x : ASTPtr), l.Pairwise (· ≤ ·) → (binary_search l x = true ↔ x ∈ l)

/-- The OR functions that have a processed chain in `chains`. -/
def HasProcessedChain (chains : List DisjunctiveEqualityChain) (or_function : ASTPtr) : Prop :=
  ∃ c ∈ chains, c.2.is_processed = true ∧ c.1.or_function = or_function

/-- Heap `h1` agrees with `h` on every node that is not the operand list of an OR function
in `touched`. -/
def SameOutsideOperands (h h1 : ASTHeap Field) (touched : ASTPtr → Prop) : Prop :=
  ∀ q, (∀ g, touched g → operandsNode h g ≠ q) → h1.node q = h.node q

/-- The shape of the OR functions in `touched`: each is a function node whose first child
is an expression list, and no two of them share that list. -/
def OperandListsOwned (h : ASTHeap Field) (touched : ASTPtr → Prop) : Prop :=
  (∀ g, touched g →
    (∃ name alias_name arguments, (h.node g).kind = .function name alias_name arguments) ∧
    (h.node (operandsNode h g)).kind = .expressionList) ∧
  ∀ g1 g2, touched g1 → touched g2 → operandsNode h g1 = operandsNode h g2 → g1 = g2

/-- Whether `operand` is an equality function of some processed chain of `or_function`. -/
def isReplacedEquality (chains : List DisjunctiveEqualityChain) (or_function operand : ASTPtr) :
    Bool :=
  chains.any (fun c =>
    c.2.is_processed && c.1.or_function == or_function && c.2.functions.contains operand)

end LogicalExpressionsOptimizer

/-- A stand-in for `Field` on which the optimizer is evaluated: a type tag and a payload,
ordered by tag and then by payload; the default is the null value. -/
structure TaggedField where
  /-- The type tag, `Types::Which`. -/
  which : Nat
  /-- The payload. -/
  payload : Nat
  deriving DecidableEq, Repr, Inhabited

/-- The environment on which the optimizer is evaluated: insertion sort for `std::sort`,
a linear scan for `std::binary_search`, null pointers behind the logical end of
`std::remove_if`, insertion order for the iteration of an `unordered_map`. -/
def sampleEnv : OptimizerEnv TaggedField where
  getType v := v.which
  less a b := decide (a.which < b.which) || (a.which == b.which && decide (a.payload < b.payload))
  sort comp l := l.insertionSort (fun a b => comp b a = false)
  binary_search l x := l.contains x
  remove_if_rest _ _ _ := 0
  unordered_order l := l

/-- The AST of `(a = 3 OR a = 1 OR b = 7 OR a = 2) AS x`: the OR function at 1 with its
operand list at 2, the equalities at 10, 20, 30 and 40 with operand lists at 11, 21, 31 and
41, their left-hand sides at 12, 22, 32 and 42 and their literals at 13, 23, 33 and 43. -/
def sampleHeap : ASTHeap TaggedField where
  node p :=
    match p with
    | 1 => ⟨.function "or" "x" 2, [2]⟩
    | 2 => ⟨.expressionList, [10, 20, 30, 40]⟩
    | 10 => ⟨.function "equals" "" 11, [11]⟩
    | 11 => ⟨.expressionList, [12, 13]⟩
    | 13 => ⟨.literal ⟨1, 3⟩, []⟩
    | 20 => ⟨.function "equals" "" 21, [21]⟩
    | 21 => ⟨.expressionList, [22, 23]⟩
    | 23 => ⟨.literal ⟨1, 1⟩, []⟩
    | 30 => ⟨.function "equals" "" 31, [31]⟩
    | 31 => ⟨.expressionList, [32, 33]⟩
    | 33 => ⟨.literal ⟨1, 7⟩, []⟩
    | 40 => ⟨.function "equals" "" 41, [41]⟩
    | 41 => ⟨.expressionList, [42, 43]⟩
    | 43 => ⟨.literal ⟨1, 2⟩, []⟩
    | _ => ⟨.other, []⟩
  next := 50

/-- The chain `a = 3 OR a = 1 OR a = 2` of the OR function of `sampleHeap`. -/
def sampleChain : LogicalExpressionsOptimizer.DisjunctiveEqualityChain :=
  (⟨1, (5, 5), "x"⟩, ⟨[10, 20, 40], false⟩)

/-- The chains of `sampleHeap` after the chain of `sampleChain` was replaced: the chain
`b = 7` of the same OR function was too short and is not processed. -/
def sampleChains : List LogicalExpressionsOptimizer.DisjunctiveEqualityChain :=
  [(⟨1, (5, 5), "x"⟩, ⟨[10, 20, 40], true⟩), (⟨1, (6, 6), "x"⟩, ⟨[30], false⟩)]

/-! ## The logical expressions optimizer: the members and `perform` -/

namespace LogicalExpressionsOptimizer

variable {Field : Type}

/-- The members of a `LogicalExpressionsOptimizer`, with the AST it works on. The hash
containers are lists without repeated keys; `visit_log` is a ghost member, the nodes taken
from `to_visit` by `collectDisjunctiveEqualityChains` in the order they were taken. -/
structure Optimizer (Field : Type) where
  /-- The nodes in memory. -/
  ast : ASTHeap Field
  /-- The member `select_query`. -/
  select_query : ASTPtr
  /-- The member `visited_nodes`. -/
  visited_nodes : List ASTPtr
  /-- The member `column_to_position`. -/
  column_to_position : List (ASTPtr × Nat)
  /-- The member `or_parent_map`. -/
  or_parent_map : List (ASTPtr × List ASTPtr)
  /-- The member `disjunctive_equality_chains_map`, in the order of its keys. -/
  disjunctive_equality_chains_map : List DisjunctiveEqualityChain
  /-- The member `processed_count`. -/
  processed_count : Nat
  /-- The nodes visited so far, in order. -/
  visit_log : List ASTPtr

/-- How a run of a member function ends. -/
inductive Ending where
  /-- The function returns. -/
  | returned
  /-- An `Exception` with `ErrorCodes::LOGICAL_ERROR` is thrown. -/
  | threw (e : OptimizerError)
  /-- The exception `std::out_of_range` of `unordered_map::at` is thrown. -/
  | outOfRange
  /-- A vector is indexed behind its end. -/
  | undefinedBehaviour
  /-- The run is cut off: the loop has not finished within the given number of
  iterations. -/
  | unfinished
  deriving DecidableEq, Repr

/-- The members when a run stops, and how it ends. -/
structure Run (Field : Type) where
  /-- The members at the end of the run. -/
  state : Optimizer Field
  /-- How the run ends. -/
  ending : Ending

/-- Assignment to the member `children` of a node. -/
def setChildren (h : ASTHeap Field) (p : ASTPtr) (children : List ASTPtr) : ASTHeap Field :=
  { h with node := Function.update h.node p { h.node p with children := children } }

/-- The member `select_expression_list` of a select query. -/
def selectExpressionList (h : ASTHeap Field) (select_query : ASTPtr) : ASTPtr :=
  match (h.node select_query).kind with
  | .selectQuery select_expression_list _ _ => select_expression_list
  | _ => 0

/-- The call `std::swap(columns[i], columns[j])`. -/
def swapAt (columns : List ASTPtr) (i j : Nat) : List ASTPtr :=
  (columns.set i (columns.getD j 0)).set j (columns.getD i 0)

/-- The loop of `reorderColumns` on the vector `columns`, cut off after `fuel` tests of
its condition. -/
def reorderLoop (column_to_position : List (ASTPtr × Nat)) :
    Nat → List ASTPtr → Nat → Ending × List ASTPtr
  | 0, columns, _ => (.unfinished, columns)
  | fuel + 1, columns, cur_position =>
    if cur_position < columns.length then
      match find column_to_position (columns.getD cur_position 0) with
      | none => (.outOfRange, columns)
      | some expected_position =>
        if cur_position ≠ expected_position then
          if expected_position < columns.length then
            reorderLoop column_to_position fuel (swapAt columns cur_position expected_position)
              cur_position
          else (.undefinedBehaviour, columns)
        else reorderLoop column_to_position fuel columns (cur_position + 1)
    else (.returned, columns)

/-- The vector `select_query->select_expression_list->children`. -/
def columns (s : Optimizer Field) : List ASTPtr :=
  (s.ast.node (selectExpressionList s.ast s.select_query)).children

/-- The source's `reorderColumns`, its loop cut off after `fuel` tests. -/
def reorderColumns (fuel : Nat) (s : Optimizer Field) : Run Field :=
  let r := reorderLoop s.column_to_position fuel (columns s) 0
  ⟨{ s with ast := setChildren s.ast (selectExpressionList s.ast s.select_query) r.2 }, r.1⟩

/-- An edge `(from_node, to_node)` of the traversal; `from_node` is null for the root. -/
abbrev Edge := ASTPtr × ASTPtr

/-- The order `OrWithExpression::operator<`:
`std::tie(or_function, expression) < std::tie(rhs.or_function, rhs.expression)`. -/
def keyLess (a b : OrWithExpression) : Bool :=
  decide (a.or_function < b.or_function) ||
    (a.or_function == b.or_function &&
      (decide (a.expression.1 < b.expression.1) ||
        (a.expression.1 == b.expression.1 && decide (a.expression.2 < b.expression.2))))

/-- The statement `disjunctive_equality_chains_map[key].functions.push_back(equals)` on
the map ordered by `keyLess`; a new entry is value-initialised. -/
def pushEquality :
    List DisjunctiveEqualityChain → OrWithExpression → ASTPtr → List DisjunctiveEqualityChain
  | [], key, equals => [(key, ⟨[equals], false⟩)]
  | c :: cs, key, equals =>
    if keyLess key c.1 then (key, ⟨[equals], false⟩) :: c :: cs
    else if keyLess c.1 key then c :: pushEquality cs key equals
    else (c.1, { c.2 with functions := c.2.functions ++ [equals] }) :: cs

/-- Whether a node is an `ASTSelectQuery`. -/
def isSelectQuery (h : ASTHeap Field) (p : ASTPtr) : Bool :=
  match (h.node p).kind with
  | .selectQuery _ _ _ => true
  | _ => false

/-- Whether a node is an `ASTExpressionList`. -/
def isExpressionList (h : ASTHeap Field) (p : ASTPtr) : Bool :=
  match (h.node p).kind with
  | .expressionList => true
  | _ => false

/-- Whether a node is an `ASTLiteral`. -/
def isLiteral (h : ASTHeap Field) (p : ASTPtr) : Bool :=
  match (h.node p).kind with
  | .literal _ => true
  | _ => false

/-- Whether a node is an `ASTFunction` with the given name and one child. -/
def isFunctionNamed (h : ASTHeap Field) (p : ASTPtr) (name : String) : Bool :=
  match (h.node p).kind with
  | .function n _ _ => n == name && (h.node p).children.length == 1
  | _ => false

/-- The tests on an operand of an OR function: it is a function `equals` with one child,
that child is an expression list with two children, and the second of them is a
literal. -/
def isEqualityWithLiteral (h : ASTHeap Field) (child : ASTPtr) : Bool :=
  isFunctionNamed h child "equals" &&
    isExpressionList h (operandsNode h child) &&
    (getFunctionOperands h child).length == 2 &&
    isLiteral h ((getFunctionOperands h child).getD 1 0)

/-- The loop over the operands of an OR function: every equality `expr = xN` is pushed onto
the chain with the key of the OR function, the hash of `expr` and the alias of the OR
function; the flag is `found_chain`. -/
def collectEqualities (getTreeHash : ASTHeap Field → ASTPtr → Nat × Nat) (h : ASTHeap Field)
    (function : ASTPtr) :
    List ASTPtr → List DisjunctiveEqualityChain → Bool → List DisjunctiveEqualityChain × Bool
  | [], chains, found_chain => (chains, found_chain)
  | child :: rest, chains, found_chain =>
    if isEqualityWithLiteral h child then
      collectEqualities getTreeHash h function rest
        (pushEquality chains
          ⟨function, getTreeHash h ((getFunctionOperands h child).getD 0 0),
            tryGetAlias h function⟩ child) true
    else collectEqualities getTreeHash h function rest chains found_chain

/-- The first part of the body of the traversal loop: the chains found at `to_node`, and
`found_chain`. -/
def findChain (getTreeHash : ASTHeap Field → ASTPtr → Nat × Nat) (h : ASTHeap Field)
    (chains : List DisjunctiveEqualityChain) (to_node : ASTPtr) :
    List DisjunctiveEqualityChain × Bool :=
  if isFunctionNamed h to_node "or" && isExpressionList h (operandsNode h to_node) then
    collectEqualities getTreeHash h to_node (getFunctionOperands h to_node) chains false
  else (chains, false)

/-- The call `or_parent_map.find(key)`; `none` is `or_parent_map.end()`. -/
def findParents (or_parent_map : List (ASTPtr × List ASTPtr)) (key : ASTPtr) :
    Option (List ASTPtr) :=
  (or_parent_map.find? (fun e => e.1 == key)).map (fun e => e.2)

/-- The statement `parent_nodes.push_back(to_node)` through the iterator of `key`. -/
def pushParent (or_parent_map : List (ASTPtr × List ASTPtr)) (key to_node : ASTPtr) :
    List (ASTPtr × List ASTPtr) :=
  or_parent_map.map (fun e => if e.1 == key then (e.1, e.2 ++ [to_node]) else e)

/-- The loop over the children of `to_node` when no chain was found there: a child that is
no select query is pushed onto `to_visit` if it was not visited, and otherwise gets
`to_node` as one more parent if it is in `or_parent_map`. The head of the list `to_visit`
is the back of the deque. -/
def visitChildren (h : ASTHeap Field) (visited_nodes : List ASTPtr) (to_node : ASTPtr) :
    List ASTPtr → List Edge → List (ASTPtr × List ASTPtr) →
      List Edge × List (ASTPtr × List ASTPtr)
  | [], to_visit, or_parent_map => (to_visit, or_parent_map)
  | child :: rest, to_visit, or_parent_map =>
    if isSelectQuery h child then visitChildren h visited_nodes to_node rest to_visit or_parent_map
    else if !visited_nodes.contains child then
      visitChildren h visited_nodes to_node rest ((to_node, child) :: to_visit) or_parent_map
    else
      match findParents or_parent_map child with
      | some _ =>
        visitChildren h visited_nodes to_node rest to_visit
          (pushParent or_parent_map child to_node)
      | none => visitChildren h visited_nodes to_node rest to_visit or_parent_map

/-- The call `visited_nodes.insert(to_node)`. -/
def insertVisited (visited_nodes : List ASTPtr) (to_node : ASTPtr) : List ASTPtr :=
  if visited_nodes.contains to_node then visited_nodes else visited_nodes ++ [to_node]

/-- The traversal loop `while (!to_visit.empty())` of `collectDisjunctiveEqualityChains`,
cut off after `fuel` iterations. -/
def collectLoop (getTreeHash : ASTHeap Field → ASTPtr → Nat × Nat) :
    Nat → Optimizer Field → List Edge → Run Field
  | _, s, [] => ⟨s, .returned⟩
  | 0, s, _ :: _ => ⟨s, .unfinished⟩
  | fuel + 1, s, edge :: to_visit =>
    let from_node := edge.1
    let to_node := edge.2
    let r := findChain getTreeHash s.ast s.disjunctive_equality_chains_map to_node
    let s1 : Optimizer Field :=
      { s with
        disjunctive_equality_chains_map := r.1
        visited_nodes := insertVisited s.visited_nodes to_node
        visit_log := s.visit_log ++ [to_node] }
    if r.2 then
      if from_node ≠ 0 then
        match findParents s1.or_parent_map to_node with
        | some _ => ⟨s1, .threw .parentNodeCorrupted⟩
        | none =>
          collectLoop getTreeHash fuel
            { s1 with or_parent_map := s1.or_parent_map ++ [(to_node, [from_node])] } to_visit
      else collectLoop getTreeHash fuel s1 to_visit
    else
      let v := visitChildren s1.ast s1.visited_nodes to_node (s1.ast.node to_node).children
        to_visit s1.or_parent_map
      collectLoop getTreeHash fuel { s1 with or_parent_map := v.2 } v.1

/-- The source's `collectDisjunctiveEqualityChains`, its traversal loop cut off after
`fuel` iterations. -/
def collectDisjunctiveEqualityChains (E : OptimizerEnv Field)
    (getTreeHash : ASTHeap Field → ASTPtr → Nat × Nat) (fuel : Nat) (s : Optimizer Field) :
    Run Field :=
  if s.visited_nodes.contains s.select_query then ⟨s, .returned⟩
  else
    let r := collectLoop getTreeHash fuel s [(0, s.select_query)]
    match r.ending with
    | .returned =>
      ⟨{ r.state with
          disjunctive_equality_chains_map :=
            sortEqualityFunctions E r.state.disjunctive_equality_chains_map }, .returned⟩
    | _ => r

/-- The member `where_expression` of a select query. -/
def whereExpression (h : ASTHeap Field) (select_query : ASTPtr) : ASTPtr :=
  match (h.node select_query).kind with
  | .selectQuery _ where_expression _ => where_expression
  | _ => 0

/-- The member `having_expression` of a select query. -/
def havingExpression (h : ASTHeap Field) (select_query : ASTPtr) : ASTPtr :=
  match (h.node select_query).kind with
  | .selectQuery _ _ having_expression => having_expression
  | _ => 0

/-- Assignment to the member `where_expression` of a select query. -/
def setWhereExpression (h : ASTHeap Field) (select_query p : ASTPtr) : ASTHeap Field :=
  match (h.node select_query).kind with
  | .selectQuery l _ having_expression =>
    { h with
      node := Function.update h.node select_query
        { h.node select_query with kind := .selectQuery l p having_expression } }
  | _ => h

/-- Assignment to the member `having_expression` of a select query. -/
def setHavingExpression (h : ASTHeap Field) (select_query p : ASTPtr) : ASTHeap Field :=
  match (h.node select_query).kind with
  | .selectQuery l where_expression _ =>
    { h with
      node := Function.update h.node select_query
        { h.node select_query with kind := .selectQuery l where_expression p } }
  | _ => h

/-- The loop over the parents of an OR function with one operand left: the operand is
pushed onto the children of the parent and the OR function is removed from them. -/
def fixParents (or_function : ASTPtr) : List ASTPtr → ASTHeap Field → ASTHeap Field
  | [], h => h
  | parent :: parents, h =>
    fixParents or_function parents
      (setChildren h parent
        (((h.node parent).children ++ [(getFunctionOperands h or_function).getD 0 0]).filter
          (fun ptr => ptr != or_function)))

/-- The update of `column_to_position` for an OR function with one operand left: the
operand takes the position of the OR function; `none` is the exception "internal
error" of a failed `emplace`. -/
def movePosition (column_to_position : List (ASTPtr × Nat)) (or_function operand : ASTPtr) :
    Option (List (ASTPtr × Nat)) :=
  match find column_to_position or_function with
  | none => some column_to_position
  | some position =>
    if column_to_position.any (fun e => e.1 == operand) then none
    else
      some ((emplace column_to_position operand position).filter
        (fun e => e.1 != or_function))

/-- The body of the loop of `fixBrokenOrExpressions` for one chain. -/
def fixBrokenOrExpression (s : Optimizer Field) (chain : DisjunctiveEqualityChain) :
    Run Field :=
  if !chain.2.is_processed then ⟨s, .returned⟩
  else
    let or_function := chain.1.or_function
    if (getFunctionOperands s.ast or_function).length == 1 then
      match findParents s.or_parent_map or_function with
      | none => ⟨s, .threw .parentNodeCorrupted⟩
      | some parents =>
        match movePosition s.column_to_position or_function
            ((getFunctionOperands s.ast or_function).getD 0 0) with
        | none => ⟨s, .threw .internalError⟩
        | some column_to_position =>
          let h1 := fixParents or_function parents s.ast
          let h2 :=
            if whereExpression h1 s.select_query ≠ 0
                ∧ or_function = whereExpression h1 s.select_query then
              setWhereExpression h1 s.select_query ((getFunctionOperands h1 or_function).getD 0 0)
            else h1
          let h3 :=
            if havingExpression h2 s.select_query ≠ 0
                ∧ or_function = havingExpression h2 s.select_query then
              setHavingExpression h2 s.select_query
                ((getFunctionOperands h2 or_function).getD 0 0)
            else h2
          ⟨{ s with ast := h3, column_to_position := column_to_position }, .returned⟩
    else ⟨s, .returned⟩

/-- The source's `fixBrokenOrExpressions`: the loop over the chains in `chains`. -/
def fixBrokenOrExpressions :
    List DisjunctiveEqualityChain → Optimizer Field → Run Field
  | [], s => ⟨s, .returned⟩
  | chain :: chains, s =>
    match (fixBrokenOrExpression s chain).ending with
    | .returned => fixBrokenOrExpressions chains (fixBrokenOrExpression s chain).state
    | _ => fixBrokenOrExpression s chain

/-- The first loop of `perform`: every column of the select list is entered into
`column_to_position` with its position; the flag is false when a column was there
already, at which point `perform` returns. -/
def recordPositions :
    List ASTPtr → List (ASTPtr × Nat) → Nat → List (ASTPtr × Nat) × Bool
  | [], column_to_position, _ => (column_to_position, true)
  | column :: rest, column_to_position, position =>
    if column_to_position.any (fun e => e.1 == column) then (column_to_position, false)
    else recordPositions rest (column_to_position ++ [(column, position)]) (position + 1)

/-- The loop of `perform` over the chains: a chain that may be optimized gets its IN
expression and is marked processed; the result is the chains, the nodes and
`processed_count`. -/
def replaceChains [Inhabited Field] (E : OptimizerEnv Field)
    (optimize_min_equality_disjunction_chain_length : Nat) :
    List DisjunctiveEqualityChain → ASTHeap Field → Nat →
      List DisjunctiveEqualityChain × ASTHeap Field × Nat
  | [], h, processed_count => ([], h, processed_count)
  | chain :: chains, h, processed_count =>
    if !mayOptimizeDisjunctiveEqualityChain E h
        optimize_min_equality_disjunction_chain_length chain then
      let r := replaceChains E optimize_min_equality_disjunction_chain_length chains h
        processed_count
      (chain :: r.1, r.2)
    else
      let r := replaceChains E optimize_min_equality_disjunction_chain_length chains
        (addInExpression E h chain) (processed_count + 1)
      ((chain.1, { chain.2 with is_processed := true }) :: r.1, r.2)

/-- The members after the first loop of `perform`. -/
def withPositions (s : Optimizer Field) : Optimizer Field :=
  { s with column_to_position := (recordPositions (columns s) s.column_to_position 0).1 }

/-- The chains after the call of `collectDisjunctiveEqualityChains` in `perform`. -/
def collectedChains (E : OptimizerEnv Field)
    (getTreeHash : ASTHeap Field → ASTPtr → Nat × Nat) (fuel : Nat) (s : Optimizer Field) :
    List DisjunctiveEqualityChain :=
  (collectDisjunctiveEqualityChains E getTreeHash fuel
    (withPositions s)).state.disjunctive_equality_chains_map

/-- The source's `perform`; the setting `optimize_min_equality_disjunction_chain_length` is
a parameter, the loops of `collectDisjunctiveEqualityChains` and `reorderColumns` are cut
off after `fuel` iterations. In the branch of the exception of `cleanupOrExpressions`,
which is never raised, the run carries the members before that call. -/
def perform [Inhabited Field] (E : OptimizerEnv Field)
    (getTreeHash : ASTHeap Field → ASTPtr → Nat × Nat)
    (optimize_min_equality_disjunction_chain_length : Nat) (fuel : Nat)
    (s : Optimizer Field) : Run Field :=
  if s.select_query = 0 then ⟨s, .returned⟩
  else if s.visited_nodes.contains s.select_query then ⟨s, .returned⟩
  else if !(recordPositions (columns s) s.column_to_position 0).2 then
    ⟨withPositions s, .returned⟩
  else
    let r := collectDisjunctiveEqualityChains E getTreeHash fuel (withPositions s)
    match r.ending with
    | .returned =>
      let c := replaceChains E optimize_min_equality_disjunction_chain_length
        r.state.disjunctive_equality_chains_map r.state.ast r.state.processed_count
      let s1 : Optimizer Field :=
        { r.state with
          disjunctive_equality_chains_map := c.1
          ast := c.2.1
          processed_count := c.2.2 }
      if s1.processed_count > 0 then
        match cleanupOrExpressions E s1.ast s1.disjunctive_equality_chains_map with
        | .error e => ⟨s1, .threw e⟩
        | .ok h =>
          let f := fixBrokenOrExpressions s1.disjunctive_equality_chains_map
            { s1 with ast := h }
          match f.ending with
          | .returned => reorderColumns fuel f.state
          | _ => f
      else ⟨s1, .returned⟩
    | _ => r

end LogicalExpressionsOptimizer

/-! ## The logical expressions optimizer: trees and the invariant of the traversal -/

namespace LogicalExpressionsOptimizer

variable {Field : Type}

/-- The node reached from `p` along a child path, the list of the child indices taken. -/
def followPath (h : ASTHeap Field) : ASTPtr → List Nat → Option ASTPtr
  | p, [] => some p
  | p, i :: path =>
    match (h.node p).children[i]? with
    | some child => followPath h child path
    | none => none

/-- The AST is a tree: no node is reachable from `root` along two different child
paths. -/
def IsTree (h : ASTHeap Field) (root : ASTPtr) : Prop :=
  ∀ path1 path2 p,
    followPath h root path1 = some p → followPath h root path2 = some p → path1 = path2

/-- Every node reachable from `root` is a node in memory: not null, and allocated. -/
def ReachableAllocated (h : ASTHeap Field) (root : ASTPtr) : Prop :=
  ∀ path p, followPath h root path = some p → p ≠ 0 ∧ p < h.next

/-- A newly constructed optimizer: its containers are empty. -/
def Optimizer.Fresh (s : Optimizer Field) : Prop :=
  s.visited_nodes = [] ∧ s.or_parent_map = [] ∧ s.disjunctive_equality_chains_map = [] ∧
  s.visit_log = []

/-- The invariant of the traversal loop of `collectDisjunctiveEqualityChains` on the tree
`h` below `root`, for the members `s` and the edges `to_visit` still to be visited. -/
structure TraversalInvariant (h : ASTHeap Field) (root : ASTPtr) (s : Optimizer Field)
    (to_visit : List Edge) : Prop where
  /-- The nodes are those of `h`. -/
  ast_eq : s.ast = h
  /-- No node was visited twice. -/
  log_nodup : s.visit_log.Nodup
  /-- The member `visited_nodes` holds the visited nodes. -/
  visited_iff : ∀ p, p ∈ s.visited_nodes ↔ p ∈ s.visit_log
  /-- A visited node is reachable from the root. -/
  log_reachable : ∀ p ∈ s.visit_log, ∃ path, followPath h root path = some p
  /-- A visited node is the root or a child of a visited node. -/
  log_parent : ∀ p ∈ s.visit_log, p = root ∨ ∃ q ∈ s.visit_log, p ∈ (h.node q).children
  /-- No node is on `to_visit` twice. -/
  stack_nodup : (to_visit.map Prod.snd).Nodup
  /-- No node on `to_visit` was visited. -/
  stack_fresh : ∀ e ∈ to_visit, e.2 ∉ s.visit_log
  /-- An edge on `to_visit` is the edge from null to the root, or goes from a visited node
  to one of its children. -/
  stack_edge : ∀ e ∈ to_visit,
    (e.1 = 0 ∧ e.2 = root) ∨ (e.1 ≠ 0 ∧ e.1 ∈ s.visit_log ∧ e.2 ∈ (h.node e.1).children)
  /-- An entry of `or_parent_map` is a visited node with exactly one parent, a visited node
  that has it as a child. -/
  parents : ∀ e ∈ s.or_parent_map,
    e.1 ∈ s.visit_log ∧
      ∃ parent, e.2 = [parent] ∧ e.1 ∈ (h.node parent).children ∧ parent ∈ s.visit_log
  /-- The OR function of every chain is in `or_parent_map`. -/
  chains : ∀ c ∈ s.disjunctive_equality_chains_map,
    c.1.or_function ∈ s.or_parent_map.map Prod.fst

end LogicalExpressionsOptimizer

/-! ## The column declaration parser

A shallow embedding of `IParserColumnDeclaration<NameParser>::parseImpl` of
`dbms/src/Parsers/ParserCreateQuery.h`. The parsers it calls are values of `IParser`; the
position `Pos` and the nodes they make are type parameters. -/

/-- What a call `parser.parse(pos, node, expected)` on a null `node` leaves: the returned
flag, the position and the node (`none` is the null pointer). -/
structure ParseResult (Pos Node : Type) where
  /-- The returned flag. -/
  ok : Bool
  /-- The position after the call. -/
  pos : Pos
  /-- The node after the call. -/
  node : Option Node

/-- The methods of `IParser` that the declaration parser calls on the parsers it owns;
`check` and `ignore` give the returned flag and the position after the call. -/
structure IParser (Pos Node : Type) where
  /-- The call `parse(pos, node, expected)`. -/
  parse : Pos → ParseResult Pos Node
  /-- The call `check(pos, expected)`. -/
  check : Pos → Bool × Pos
  /-- The call `ignore(pos, expected)`. -/
  ignore : Pos → Bool × Pos

/-- The contract of `IParser` for a parser derived from `IParserBase`: a failed `parse`
restores the position and leaves a null node, `ignore` is `parse` without the node, and
`check` is `parse` without the node that restores the position on failure. -/
def IParser.Lawful {Pos Node : Type} (p : IParser Pos Node) : Prop :=
  ∀ pos,
    ((p.parse pos).ok = false → (p.parse pos).pos = pos ∧ (p.parse pos).node = none) ∧
    p.ignore pos = ((p.parse pos).ok, (p.parse pos).pos) ∧
    p.check pos = ((p.parse pos).ok, if (p.parse pos).ok then (p.parse pos).pos else pos)

/-- The node `ASTColumnDeclaration` with the members `parseImpl` assigns. -/
structure ASTColumnDeclaration (Node : Type) where
  /-- The member `name`. -/
  name : String
  /-- The member `type`. -/
  type : Option Node
  /-- The member `default_specifier`. -/
  default_specifier : String
  /-- The member `default_expression`. -/
  default_expression : Option Node
  /-- The member `children`. -/
  children : List Node

/-- A failure of `parseImpl` other than returning false. -/
inductive ParserError where
  /-- The exception of `typeid_cast<ASTIdentifier &>` on a node that is no identifier. -/
  | badCast
  /-- The null pointer `name` is dereferenced. -/
  | nullDereference
  deriving DecidableEq, Repr

namespace IParserColumnDeclaration

variable {Pos Node : Type}

/-- The local parsers of `parseImpl`, and the two operations on nodes and tokens it calls:
`typeid_cast<ASTIdentifier &>(*name).name` (`none` is a failed cast) and
`Poco::toUpper` of the text of the token at a position. -/
structure Parsers (Pos Node : Type) where
  /-- The local `name_parser`. -/
  nameParser : IParser Pos Node
  /-- The local `type_parser`. -/
  typeParser : IParser Pos Node
  /-- The keyword parser `s_default`. -/
  s_default : IParser Pos Node
  /-- The keyword parser `s_materialized`. -/
  s_materialized : IParser Pos Node
  /-- The keyword parser `s_alias`. -/
  s_alias : IParser Pos Node
  /-- The local `expr_parser`. -/
  exprParser : IParser Pos Node
  /-- The name of an identifier node. -/
  identifierName : Node → Option String
  /-- The upper-cased text of the token at a position. -/
  upperTokenText : Pos → String

/-- The condition
`!s_default.check(pos, expected) && !s_materialized.check(pos, expected) && !s_alias.check(pos, expected)`
with its effect on `pos`. -/
def noSpecifierCheck (P : Parsers Pos Node) (pos : Pos) : Bool × Pos :=
  let c1 := P.s_default.check pos
  if c1.1 then (false, c1.2)
  else
    let c2 := P.s_materialized.check c1.2
    if c2.1 then (false, c2.2)
    else
      let c3 := P.s_alias.check c2.2
      (!c3.1, c3.2)

/-- The condition
`s_default.ignore(pos, expected) || s_materialized.ignore(pos, expected) || s_alias.ignore(pos, expected)`
with its effect on `pos`. -/
def ignoreSpecifier (P : Parsers Pos Node) (pos : Pos) : Bool × Pos :=
  let c1 := P.s_default.ignore pos
  if c1.1 then (true, c1.2)
  else
    let c2 := P.s_materialized.ignore c1.2
    if c2.1 then (true, c2.2)
    else P.s_alias.ignore c2.2

/-- The tail of `parseImpl` from `std::make_shared<ASTColumnDeclaration>()` on. -/
def makeDeclaration (P : Parsers Pos Node) (pos : Pos) (name type : Option Node)
    (default_specifier : String) (default_expression : Option Node) :
    Except ParserError (ParseResult Pos (ASTColumnDeclaration Node)) :=
  match name with
  | none => .error .nullDereference
  | some name_node =>
    match P.identifierName name_node with
    | none => .error .badCast
    | some name_string =>
      let children1 := match type with
        | some t => [t]
        | none => []
      let children2 := match default_expression with
        | some e => children1 ++ [e]
        | none => children1
      .ok ⟨true, pos,
        some ⟨name_string, type,
          if default_expression.isSome then default_specifier else "",
          default_expression, children2⟩⟩

/-- The source's `IParserColumnDeclaration<NameParser>::parseImpl`. -/
def parseImpl (P : Parsers Pos Node) (pos : Pos) :
    Except ParserError (ParseResult Pos (ASTColumnDeclaration Node)) :=
  let name := P.nameParser.parse pos
  if !name.ok then .ok ⟨false, name.pos, none⟩
  else
    let fallback_pos := name.pos
    let c := noSpecifierCheck P name.pos
    let type : ParseResult Pos Node :=
      if c.1 then P.typeParser.parse c.2 else ⟨false, fallback_pos, none⟩
    let pos_before_specifier := type.pos
    let s := ignoreSpecifier P type.pos
    if s.1 then
      let default_specifier := P.upperTokenText pos_before_specifier
      let default_expression := P.exprParser.parse s.2
      if !default_expression.ok then .ok ⟨false, default_expression.pos, none⟩
      else
        makeDeclaration P default_expression.pos name.node type.node default_specifier
          default_expression.node
    else if type.node.isNone then .ok ⟨false, s.2, none⟩
    else makeDeclaration P s.2 name.node type.node "" none

/-- The position behind the specifier keyword at `pos`, if one of DEFAULT, MATERIALIZED
and ALIAS follows there. -/
def specifierAt (P : Parsers Pos Node) (pos : Pos) : Option Pos :=
  if (P.s_default.parse pos).ok then some (P.s_default.parse pos).pos
  else if (P.s_materialized.parse pos).ok then some (P.s_materialized.parse pos).pos
  else if (P.s_alias.parse pos).ok then some (P.s_alias.parse pos).pos
  else none

/-- The well-formed declarations in the words of the specification: the column name
parses, and either (a) a specifier keyword follows, immediately after the name or, when
none follows there, after a successfully parsed type, and an expression parses after the
keyword, or (b) no specifier keyword follows the name and a type is parsed after the name
with no specifier keyword behind it. -/
def WellFormed (P : Parsers Pos Node) (pos : Pos) : Prop :=
  (P.nameParser.parse pos).ok = true ∧
  ((∃ q, (specifierAt P (P.nameParser.parse pos).pos = some q ∨
        (specifierAt P (P.nameParser.parse pos).pos = none ∧
          (P.typeParser.parse (P.nameParser.parse pos).pos).ok = true ∧
          specifierAt P (P.typeParser.parse (P.nameParser.parse pos).pos).pos = some q)) ∧
      (P.exprParser.parse q).ok = true) ∨
    (specifierAt P (P.nameParser.parse pos).pos = none ∧
      (P.typeParser.parse (P.nameParser.parse pos).pos).ok = true ∧
      specifierAt P (P.typeParser.parse (P.nameParser.parse pos).pos).pos = none))

/-- The contract of the parsers `parseImpl` owns: all are derived from `IParserBase`, a
parsed name is an identifier node, and a parsed type is a node. -/
def ParsersLawful (P : Parsers Pos Node) : Prop :=
  P.nameParser.Lawful ∧ P.typeParser.Lawful ∧ P.s_default.Lawful ∧ P.s_materialized.Lawful ∧
  P.s_alias.Lawful ∧ P.exprParser.Lawful ∧
  (∀ pos, (P.nameParser.parse pos).ok = true →
    ∃ n s, (P.nameParser.parse pos).node = some n ∧ P.identifierName n = some s) ∧
  ∀ pos, (P.typeParser.parse pos).ok = true → (P.typeParser.parse pos).node.isSome = true

end IParserColumnDeclaration

/-- A parser over a list of words that accepts one word satisfying `accept`, with the
methods of `IParserBase`. -/
def wordParser (accept : String → Bool) : IParser (List String) String where
  parse pos :=
    match pos with
    | w :: rest => if accept w then ⟨true, rest, some w⟩ else ⟨false, pos, none⟩
    | [] => ⟨false, pos, none⟩
  check pos :=
    match pos with
    | w :: rest => if accept w then (true, rest) else (false, pos)
    | [] => (false, pos)
  ignore pos :=
    match pos with
    | w :: rest => if accept w then (true, rest) else (false, pos)
    | [] => (false, pos)

/-- Parsers over words: any word is a name or a type, a numeral "0", "1" or "5" is an
expression. -/
def sampleParsers : IParserColumnDeclaration.Parsers (List String) String where
  nameParser := wordParser (fun _ => true)
  typeParser := wordParser (fun _ => true)
  s_default := wordParser (fun w => w == "DEFAULT")
  s_materialized := wordParser (fun w => w == "MATERIALIZED")
  s_alias := wordParser (fun w => w == "ALIAS")
  exprParser := wordParser (fun w => w == "0" || w == "1" || w == "5")
  identifierName := some
  upperTokenText pos := (pos.headD "").toUpper

/-- The query `SELECT c1, c2, c3 WHERE (a = 3 OR a = 1 OR b = 7 OR a = 2) AS x`: the nodes
of `sampleHeap`, the select query at 100 and its select list at 101 with the columns at
102, 103 and 104. -/
def sampleQueryHeap : ASTHeap TaggedField where
  node p :=
    match p with
    | 100 => ⟨.selectQuery 101 1 0, [101, 1]⟩
    | 101 => ⟨.expressionList, [102, 103, 104]⟩
    | _ => sampleHeap.node p
  next := 105

/-- A tree hash on `sampleQueryHeap`: the left-hand side `b` at 32 differs from the
left-hand sides `a`. -/
def sampleTreeHash (_ : ASTHeap TaggedField) (p : ASTPtr) : Nat × Nat :=
  if p = 32 then (6, 6) else (5, 5)

/-- A newly constructed optimizer for the query at 100 of `sampleQueryHeap`. -/
def sampleOptimizer : LogicalExpressionsOptimizer.Optimizer TaggedField :=
  ⟨sampleQueryHeap, 100, [], [], [], [], 0, []⟩

/-- The optimizer of `sampleOptimizer` with recorded positions under which the select list
`[102, 103, 104]` is out of order. -/
def shuffledOptimizer : LogicalExpressionsOptimizer.Optimizer TaggedField :=
  { sampleOptimizer with column_to_position := [(102, 2), (103, 0), (104, 1)] }

/-- The nodes of the query at 100 of `sampleQueryHeap`. -/
def sampleNodes : List ASTPtr :=
  [100, 101, 102, 103, 104, 1, 2, 10, 11, 12, 13, 20, 21, 22, 23, 30, 31, 32, 33, 40, 41, 42,
    43]

/-- The child path from the query at 100 of `sampleQueryHeap` to a node. -/
def samplePathOf (p : ASTPtr) : List Nat :=
  match p with
  | 101 => [0]
  | 102 => [0, 0]
  | 103 => [0, 1]
  | 104 => [0, 2]
  | 1 => [1]
  | 2 => [1, 0]
  | 10 => [1, 0, 0]
  | 11 => [1, 0, 0, 0]
  | 12 => [1, 0, 0, 0, 0]
  | 13 => [1, 0, 0, 0, 1]
  | 20 => [1, 0, 1]
  | 21 => [1, 0, 1, 0]
  | 22 => [1, 0, 1, 0, 0]
  | 23 => [1, 0, 1, 0, 1]
  | 30 => [1, 0, 2]
  | 31 => [1, 0, 2, 0]
  | 32 => [1, 0, 2, 0, 0]
  | 33 => [1, 0, 2, 0, 1]
  | 40 => [1, 0, 3]
  | 41 => [1, 0, 3, 0]
  | 42 => [1, 0, 3, 0, 0]
  | 43 => [1, 0, 3, 0, 1]
  | _ => []

namespace ColumnTuple

variable {Col Field : Type}

/-! ## Theorems -/

theorem getD_replicate_zero (n i : Nat) : (List.replicate n 0).getD i 0 = 0 := by
  rw [List.getD_eq_getElem?_getD, List.getElem?_replicate]
  split <;> rfl

theorem CmpCountWriteConsistent.count_adds_row (I : IColumn Col Field) (has_null : Bool)
    (nullmap : Option NullMap) (collator : TiDBCollatorPtr) (c : Col)
    (hc : CmpCountWriteConsistent I has_null nullmap collator c)
    (byte_size : List Nat) (hbs : byte_size.length = I.size c) (i : Nat) (hi : i < I.size c) :
    (I.countSerializeByteSizeForCmp c byte_size nullmap collator).getD i 0
      = byte_size.getD i 0 + rowByteSizeForCmp I nullmap collator c i := by
  have h1 := (hc (fun _ => 0) [0] none byte_size i 1 (by omega) (by simp) hbs).2.2 0 (by omega)
  have h2 := (hc (fun _ => 0) [0] none (List.replicate (I.size c) 0) i 1 (by omega) (by simp)
    (by simp)).2.2 0 (by omega)
  simp only [Nat.add_zero, getD_replicate_zero] at h1 h2
  unfold rowByteSizeForCmp
  omega

theorem cmp_fold_consistent (I : IColumn Col Field) (has_null : Bool)
    (nullmap : Option NullMap) (collator : TiDBCollatorPtr) (start length n : Nat)
    (hbound : start + length ≤ n) :
    ∀ (cs : List Col),
      (∀ c ∈ cs, CmpCountWriteConsistent I has_null nullmap collator c) →
      (∀ c ∈ cs, I.size c = n) →
      ∀ (st : CmpState) (byte_size : List Nat),
        byte_size.length = n → length ≤ st.pos.length →
        (cs.foldl (fun st c =>
            I.serializeToPosForCmp c st.mem st.pos start length has_null nullmap collator
              st.sort_key_container) st).pos.length = st.pos.length ∧
        (cs.foldl (fun bs c => I.countSerializeByteSizeForCmp c bs nullmap collator)
            byte_size).length = n ∧
        ∀ k, k < length →
          (cs.foldl (fun st c =>
              I.serializeToPosForCmp c st.mem st.pos start length has_null nullmap collator
                st.sort_key_container) st).pos.getD k 0 + byte_size.getD (start + k) 0
            = st.pos.getD k 0
              + (cs.foldl (fun bs c => I.countSerializeByteSizeForCmp c bs nullmap collator)
                  byte_size).getD (start + k) 0 ∧
          (cs.foldl (fun bs c => I.countSerializeByteSizeForCmp c bs nullmap collator)
              byte_size).getD (start + k) 0
            = byte_size.getD (start + k) 0
              + (cs.map (fun c => rowByteSizeForCmp I nullmap collator c (start + k))).sum
  | [], _, _, st, byte_size, hbs, _ => by
    simp [hbs]
  | c :: cs, hch, hsz, st, byte_size, hbs, hpos => by
    have hc := hch c (by simp)
    have hcn : I.size c = n := hsz c (by simp)
    obtain ⟨hp1, hb1, hk1⟩ := hc st.mem st.pos st.sort_key_container byte_size start length
      (by omega) hpos (by omega)
    obtain ⟨hp2, hb2, hk2⟩ :=
      cmp_fold_consistent I has_null nullmap collator start length n hbound cs
        (fun d hd => hch d (by simp [hd])) (fun d hd => hsz d (by simp [hd]))
        (I.serializeToPosForCmp c st.mem st.pos start length has_null nullmap collator
          st.sort_key_container)
        (I.countSerializeByteSizeForCmp c byte_size nullmap collator)
        (by omega) (by omega)
    have hrow := fun k (hk : k < length) =>
      CmpCountWriteConsistent.count_adds_row I has_null nullmap collator c hc byte_size
        (by omega) (start + k) (by omega)
    simp only [List.foldl_cons, List.map_cons, List.sum_cons]
    refine ⟨by omega, hb2, fun k hk => ?_⟩
    have a1 := hk1 k hk
    have a2 := hk2 k hk
    have a3 := hrow k hk
    omega

/-- C1. Count/write consistency of the comparison encoding of a composite column: if every
child is count/write consistent for the given `has_null`, null map and collator, then for
every in-bounds `start`/`length` and every `k < length` the composite's
`serializeToPosForCmp` advances `pos[k]` by exactly what the composite's
`countSerializeByteSizeForCmp` adds to `byte_size[start + k]`, and that amount is the sum
of the children's per-row counts. -/
theorem serializeToPosForCmp_advance_eq_count (I : IColumn Col Field) (t : ColumnTuple Col)
    (has_null : Bool) (nullmap : Option NullMap) (collator : TiDBCollatorPtr)
    (mem : Memory) (pos : List Nat) (sk : Option String) (byte_size : List Nat)
    (start length : Nat)
    (hchild : ∀ c ∈ t.columns, CmpCountWriteConsistent I has_null nullmap collator c)
    (hsize : ∀ c ∈ t.columns, I.size c = byte_size.length)
    (hbound : start + length ≤ byte_size.length) (hpos : length ≤ pos.length)
    (k : Nat) (hk : k < length) :
    (serializeToPosForCmp I t mem pos start length has_null nullmap collator sk).pos.getD k 0
        + byte_size.getD (start + k) 0
      = pos.getD k 0
        + (countSerializeByteSizeForCmp I t byte_size nullmap collator).getD (start + k) 0 ∧
    (countSerializeByteSizeForCmp I t byte_size nullmap collator).getD (start + k) 0
      = byte_size.getD (start + k) 0
        + (t.columns.map (fun c => rowByteSizeForCmp I nullmap collator c (start + k))).sum :=
  (cmp_fold_consistent I has_null nullmap collator start length byte_size.length hbound
    t.columns hchild hsize ⟨mem, pos, sk⟩ byte_size rfl hpos).2.2 k hk


theorem create_ok_iff_all_sizes (I : IColumn Col Field) (c : Col) (cs : List Col) :
    create I (c :: cs) = .ok ⟨c :: cs⟩ ↔ ∀ d ∈ cs, I.size d = I.size c := by
  unfold create
  by_cases h : cs.all (fun d => I.size d == I.size c) = true
  · simp only [h, if_true, true_iff]
    simpa using h
  · simp only [h, Bool.false_eq_true, if_false]
    constructor
    · intro hc; cases hc
    · intro hall; exact absurd (by simpa using hall) h

theorem compareColumnsAt_all_zero (I : IColumn Col Field) (n m : Nat) (hint : Int) :
    ∀ (cs rs : List Col),
      (∀ j (h1 : j < cs.length) (h2 : j < rs.length),
        I.compareAt (cs.get ⟨j, h1⟩) n m (rs.get ⟨j, h2⟩) hint = 0) →
      compareColumnsAt I n m hint cs rs = 0
  | [], _, _ => by simp [compareColumnsAt]
  | _ :: _, [], _ => by simp [compareColumnsAt]
  | c :: cs, r :: rs, h => by
    have h0 : I.compareAt c n m r hint = 0 := h 0 (by simp) (by simp)
    have ih := compareColumnsAt_all_zero I n m hint cs rs (fun j h1 h2 =>
      h (j + 1) (by simpa using h1) (by simpa using h2))
    simp [compareColumnsAt, h0, ih]

theorem compareColumnsAt_first_nonzero (I : IColumn Col Field) (n m : Nat) (hint : Int) :
    ∀ (cs rs : List Col) (j : Nat) (h1 : j < cs.length) (h2 : j < rs.length),
      I.compareAt (cs.get ⟨j, h1⟩) n m (rs.get ⟨j, h2⟩) hint ≠ 0 →
      (∀ i (_ : i < j) (g1 : i < cs.length) (g2 : i < rs.length),
        I.compareAt (cs.get ⟨i, g1⟩) n m (rs.get ⟨i, g2⟩) hint = 0) →
      compareColumnsAt I n m hint cs rs = I.compareAt (cs.get ⟨j, h1⟩) n m (rs.get ⟨j, h2⟩) hint
  | [], _, _, h1, _, _, _ => by simp at h1
  | _ :: _, [], _, _, h2, _, _ => by simp at h2
  | c :: cs, r :: rs, 0, _, _, hne, _ => by
    have hne0 : I.compareAt c n m r hint ≠ 0 := by simpa using hne
    simp [compareColumnsAt, hne0]
  | c :: cs, r :: rs, j + 1, h1, h2, hne, hlt => by
    have h0 : I.compareAt c n m r hint = 0 := hlt 0 (by omega) (by simp) (by simp)
    have ih := compareColumnsAt_first_nonzero I n m hint cs rs j
      (by simpa using h1) (by simpa using h2) (by simpa using hne)
      (fun i hi g1 g2 => hlt (i + 1) (by omega) (by simpa using g1) (by simpa using g2))
    simpa [compareColumnsAt, h0] using ih

/-- C4. `compareAt` on two composites with the same number of children `K` is lexicographic
in declared order: it is 0 when every pair of children compares equal at rows `n`, `m`,
and otherwise it is the result of the first child index whose comparison is nonzero. -/
theorem compareAt_lexicographic (I : IColumn Col Field) (t rhs : ColumnTuple Col)
    (n m : Nat) (hint : Int) (hK : t.tupleSize = rhs.tupleSize) :
    ((∀ j (h : j < t.tupleSize),
        I.compareAt (t.columns.get ⟨j, h⟩) n m
          (rhs.columns.get ⟨j, Nat.lt_of_lt_of_eq h hK⟩) hint = 0) →
      compareAt I t n m rhs hint = 0) ∧
    (∀ j (h : j < t.tupleSize),
      I.compareAt (t.columns.get ⟨j, h⟩) n m
          (rhs.columns.get ⟨j, Nat.lt_of_lt_of_eq h hK⟩) hint ≠ 0 →
      (∀ i (g : i < t.tupleSize), i < j →
        I.compareAt (t.columns.get ⟨i, g⟩) n m
          (rhs.columns.get ⟨i, Nat.lt_of_lt_of_eq g hK⟩) hint = 0) →
      compareAt I t n m rhs hint
        = I.compareAt (t.columns.get ⟨j, h⟩) n m
            (rhs.columns.get ⟨j, Nat.lt_of_lt_of_eq h hK⟩) hint) := by
  refine ⟨fun h0 => ?_, fun j h hne hlt => ?_⟩
  · exact compareColumnsAt_all_zero I n m hint t.columns rhs.columns
      (fun j h1 _ => h0 j h1)
  · exact compareColumnsAt_first_nonzero I n m hint t.columns rhs.columns j h
      (Nat.lt_of_lt_of_eq h hK) hne (fun i hi g1 _ => hlt i g1 hi)

/-- C5. For a composite with at least one child whose children all have the same length,
`size()`, computed as the size of child 0, returns normally and equals the size of every
child `c_j`, `0 ≤ j < K`. -/
theorem size_eq_every_child_size (I : IColumn Col Field) (t : ColumnTuple Col)
    (hne : t.columns ≠ [])
    (hsame : ∀ a ∈ t.columns, ∀ b ∈ t.columns, I.size a = I.size b) :
    size I t = .ok (I.size (t.columns.head hne)) ∧
      ∀ j (hj : j < t.tupleSize), size I t = .ok (I.size (t.columns.get ⟨j, hj⟩)) := by
  obtain ⟨cols⟩ := t
  cases cols with
  | nil => exact absurd rfl hne
  | cons c cs =>
    refine ⟨rfl, fun j hj => ?_⟩
    have hmem : (c :: cs).get ⟨j, hj⟩ ∈ c :: cs := List.get_mem _ _ _
    have := hsame c (by simp) _ hmem
    simp only [size]
    rw [this]

/-- C6. Constructing a composite from a list of children in which two children have
different sizes fails with an error instead of producing a column. -/
theorem create_unequal_sizes_fails (I : IColumn Col Field) (columns : List Col)
    (i j : Nat) (hi : i < columns.length) (hj : j < columns.length)
    (hne : I.size (columns.get ⟨i, hi⟩) ≠ I.size (columns.get ⟨j, hj⟩)) :
    create I columns = .error .childSizeMismatch := by
  cases columns with
  | nil => simp at hi
  | cons c cs =>
    unfold create
    by_cases h : cs.all (fun d => I.size d == I.size c) = true
    · exfalso
      have hall : ∀ d ∈ c :: cs, I.size d = I.size c := by
        have h2 : ∀ d ∈ cs, I.size d = I.size c := by simpa using h
        intro d hd
        rcases List.mem_cons.mp hd with rfl | hd
        · rfl
        · exact h2 d hd
      exact hne ((hall _ (List.get_mem _ _ _)).trans (hall _ (List.get_mem _ _ _)).symm)
    · simp [h]

theorem deserializeColumnsFromPos_length (I : IColumn Col Field) (m : Memory) (use_nt : Bool) :
    ∀ (ds : List Col) (pos : List Nat),
      (deserializeColumnsFromPos I m use_nt ds pos).1.length = ds.length
  | [], _ => rfl
  | d :: ds, pos => by
    simp [deserializeColumnsFromPos, deserializeColumnsFromPos_length I m use_nt ds]

theorem serializeToPos_fold_framed (I : IColumn Col Field) (start length : Nat)
    (has_null : Bool) :
    ∀ (cs : List Col),
      (∀ c ∈ cs, SerializeToPosFramed I start length has_null c) →
      (∀ c ∈ cs, start + length ≤ I.size c) →
      ∀ (st : PosState), st.pos.length = length →
        (cs.foldl (fun st c => I.serializeToPos c st.mem st.pos start length has_null)
            st).pos.length = length ∧
        (∀ k, k < length →
          st.pos.getD k 0 ≤
            (cs.foldl (fun st c => I.serializeToPos c st.mem st.pos start length has_null)
              st).pos.getD k 0) ∧
        (∀ a, (∀ k, k < length →
            a < st.pos.getD k 0 ∨
            (cs.foldl (fun st c => I.serializeToPos c st.mem st.pos start length has_null)
              st).pos.getD k 0 ≤ a) →
          (cs.foldl (fun st c => I.serializeToPos c st.mem st.pos start length has_null)
            st).mem a = st.mem a)
  | [], _, _, st, hlen => by
    refine ⟨by simpa using hlen, fun k _ => by simp, fun a _ => by simp⟩
  | c :: cs, hfr, hb, st, hlen => by
    obtain ⟨hl1, hm1, hf1⟩ := hfr c (by simp) st.mem st.pos (hb c (by simp)) hlen
    obtain ⟨hl2, hm2, hf2⟩ := serializeToPos_fold_framed I start length has_null cs
      (fun d hd => hfr d (by simp [hd])) (fun d hd => hb d (by simp [hd]))
      (I.serializeToPos c st.mem st.pos start length has_null) hl1
    simp only [List.foldl_cons]
    refine ⟨hl2, fun k hk => Nat.le_trans (hm1 k hk) (hm2 k hk), fun a ha => ?_⟩
    rw [hf2 a (fun k hk => ?_), hf1 a (fun k hk => ?_)]
    · have := ha k hk; have := hm2 k hk; omega
    · have := ha k hk; have := hm1 k hk; omega

theorem serializeToPos_fold_roundtrip (I : IColumn Col Field) (start length : Nat)
    (has_null use_nt : Bool) (ds cs : List Col)
    (hrel : List.Forall₂
      (fun d c => SerializeToPosFramed I start length has_null c ∧
        PosRoundTrip I start length has_null use_nt d c) ds cs) :
    (∀ d ∈ ds, I.size d = 0) →
    (∀ c ∈ cs, start + length ≤ I.size c) →
    ∀ (st : PosState), st.pos.length = length →
      (∀ k k', k < length → k' < length → k ≠ k' →
        (cs.foldl (fun st c => I.serializeToPos c st.mem st.pos start length has_null)
          st).pos.getD k 0 ≤ st.pos.getD k' 0 ∨
        (cs.foldl (fun st c => I.serializeToPos c st.mem st.pos start length has_null)
          st).pos.getD k' 0 ≤ st.pos.getD k 0) →
      ∀ m2 : Memory,
        (∀ k, k < length → ∀ a, st.pos.getD k 0 ≤ a →
          a < (cs.foldl (fun st c => I.serializeToPos c st.mem st.pos start length has_null)
            st).pos.getD k 0 →
          m2 a = (cs.foldl (fun st c => I.serializeToPos c st.mem st.pos start length has_null)
            st).mem a) →
        (deserializeColumnsFromPos I m2 use_nt ds st.pos).2
            = (cs.foldl (fun st c => I.serializeToPos c st.mem st.pos start length has_null)
                st).pos ∧
        (∀ d ∈ (deserializeColumnsFromPos I m2 use_nt ds st.pos).1, I.size d = length) ∧
        ∀ k, k < length →
          (deserializeColumnsFromPos I m2 use_nt ds st.pos).1.map (fun d => I.get d k)
            = cs.map (fun c => I.get c (start + k)) := by
  induction hrel with
  | nil =>
    intro _ _ st _ _ m2 _
    simp [deserializeColumnsFromPos]
  | @cons d c ds cs hdc hrest ih =>
    intro hempty hb st hlen hdis m2 hagree
    obtain ⟨hfr, hrt⟩ := hdc
    have hframed : ∀ c' ∈ cs, SerializeToPosFramed I start length has_null c' := by
      intro c' hc'
      obtain ⟨hlen', h⟩ := List.forall₂_iff_get.mp hrest
      obtain ⟨i, hi, rfl⟩ := List.getElem_of_mem hc'
      exact (h i (by omega) hi).1
    have hbc := hb c (by simp)
    have hbcs : ∀ c' ∈ cs, start + length ≤ I.size c' := fun c' h => hb c' (by simp [h])
    obtain ⟨hl1, hm1, hf1⟩ := hfr st.mem st.pos hbc hlen
    obtain ⟨hl2, hm2, hf2⟩ := serializeToPos_fold_framed I start length has_null cs hframed
      hbcs (I.serializeToPos c st.mem st.pos start length has_null) hl1
    simp only [List.foldl_cons] at hdis hagree ⊢
    -- the head child reads back what it wrote
    obtain ⟨hpos1, hsz1, _, hrow1⟩ := hrt st.mem st.pos hbc hlen
      (fun k k' hk hk' hne => by
        have := hdis k k' hk hk' hne; have := hm2 k hk; have := hm2 k' hk'; omega)
      m2
      (fun k hk a ha1 ha2 => by
        rw [hagree k hk a ha1 (by have := hm2 k hk; omega)]
        refine hf2 a (fun k' hk' => ?_)
        by_cases hkk : k' = k
        · subst hkk; exact Or.inl ha2
        · have := hdis k k' hk hk' (Ne.symm hkk)
          have := hm2 k hk; have := hm1 k' hk'; omega)
    -- the remaining children read back what they wrote
    obtain ⟨hpos2, hsz2, hrow2⟩ := ih (fun d' h => hempty d' (by simp [h])) hbcs
      (I.serializeToPos c st.mem st.pos start length has_null) hl1
      (fun k k' hk hk' hne => by
        have := hdis k k' hk hk' hne; have := hm1 k hk; have := hm1 k' hk'; omega)
      m2
      (fun k hk a ha1 ha2 => hagree k hk a (by have := hm1 k hk; omega) ha2)
    have hd0 : I.size d = 0 := hempty d (by simp)
    simp only [deserializeColumnsFromPos, hpos1]
    refine ⟨hpos2, ?_, fun k hk => ?_⟩
    · intro d' hd'
      rcases List.mem_cons.mp hd' with rfl | hd'
      · rw [hsz1, hd0, Nat.zero_add]
      · exact hsz2 d' hd'
    · have h1 := hrow1 k hk
      rw [hd0, Nat.zero_add] at h1
      simp only [List.map_cons, h1, hrow2 k hk]

/-- C2. Positional value round trip of a composite column: if every child's value encoding
is framed and round-trips into the matching child of an empty composite `dst` of the same
shape, then for in-bounds `start`/`length`, one cursor per row and non-overlapping row
slots, `serializeToPos` followed by `deserializeAndInsertFromPos` from the initial cursors
yields a composite of `length` rows whose row `k` equals row `start + k` of the source,
field for field, and leaves the cursors where `serializeToPos` left them. -/
theorem serializeToPos_deserialize_roundtrip (I : IColumn Col Field) (t dst : ColumnTuple Col)
    (mem : Memory) (pos : List Nat) (start length : Nat) (has_null use_nt : Bool)
    (hchild : List.Forall₂
      (fun d c => SerializeToPosFramed I start length has_null c ∧
        PosRoundTrip I start length has_null use_nt d c) dst.columns t.columns)
    (hempty : ∀ d ∈ dst.columns, I.size d = 0)
    (hbound : ∀ c ∈ t.columns, start + length ≤ I.size c)
    (hpos : pos.length = length)
    (hslots : ∀ k k', k < length → k' < length → k ≠ k' →
      (serializeToPos I t mem pos start length has_null).pos.getD k 0 ≤ pos.getD k' 0 ∨
      (serializeToPos I t mem pos start length has_null).pos.getD k' 0 ≤ pos.getD k 0) :
    (deserializeAndInsertFromPos I dst
        (serializeToPos I t mem pos start length has_null).mem pos use_nt).2
      = (serializeToPos I t mem pos start length has_null).pos ∧
    (deserializeAndInsertFromPos I dst
        (serializeToPos I t mem pos start length has_null).mem pos use_nt).1.tupleSize
      = t.tupleSize ∧
    (∀ d ∈ (deserializeAndInsertFromPos I dst
        (serializeToPos I t mem pos start length has_null).mem pos use_nt).1.columns,
      I.size d = length) ∧
    ∀ k, k < length →
      row I (deserializeAndInsertFromPos I dst
        (serializeToPos I t mem pos start length has_null).mem pos use_nt).1 k
        = row I t (start + k) := by
  obtain ⟨h1, h2, h3⟩ := serializeToPos_fold_roundtrip I start length has_null use_nt
    dst.columns t.columns hchild hempty hbound ⟨mem, pos⟩ hpos hslots
    (serializeToPos I t mem pos start length has_null).mem (fun _ _ _ _ _ => rfl)
  refine ⟨h1, ?_, h2, h3⟩
  have := deserializeColumnsFromPos_length I
    (serializeToPos I t mem pos start length has_null).mem use_nt dst.columns pos
  simp only [deserializeAndInsertFromPos, tupleSize, this]
  exact hchild.length_eq

theorem holdsAt_append (m : Memory) (pos : Nat) (xs ys : List Nat) :
    holdsAt m pos (xs ++ ys) ↔ holdsAt m pos xs ∧ holdsAt m (pos + xs.length) ys := by
  unfold holdsAt
  constructor
  · intro h
    refine ⟨fun i hi => ?_, fun i hi => ?_⟩
    · rw [h i (by simp; omega), List.getD_append _ _ _ _ hi]
    · have := h (xs.length + i) (by simp; omega)
      rw [List.getD_append_right _ _ _ _ (by omega)] at this
      simpa [Nat.add_assoc] using this
  · rintro ⟨h1, h2⟩ i hi
    by_cases hlt : i < xs.length
    · rw [h1 i hlt, List.getD_append _ _ _ _ hlt]
    · have hi' : i - xs.length < ys.length := by simp at hi; omega
      have := h2 (i - xs.length) hi'
      rw [List.getD_append_right _ _ _ _ (by omega), ← this]
      congr 1; omega

theorem serializeValueIntoArena_fold (I : IColumn Col Field) (collator : TiDBCollatorPtr)
    (n : Nat) :
    ∀ (cs : List Col), (∀ c ∈ cs, ArenaAppends I collator c) → ∀ (arena : List Nat),
      cs.foldl (fun a c => I.serializeValueIntoArena c n a collator) arena
        = arena ++ (cs.map (fun c => arenaEncoding I collator c n)).flatten
  | [], _, arena => by simp
  | c :: cs, h, arena => by
    simp only [List.foldl_cons, List.map_cons, List.flatten_cons]
    rw [h c (by simp) n arena,
      serializeValueIntoArena_fold I collator n cs (fun d hd => h d (by simp [hd])),
      List.append_assoc]

theorem deserializeColumnsFromArena_length (I : IColumn Col Field) (m : Memory)
    (collator : TiDBCollatorPtr) :
    ∀ (ds : List Col) (pos : Nat),
      (deserializeColumnsFromArena I m collator ds pos).1.length = ds.length
  | [], _ => rfl
  | d :: ds, pos => by
    simp [deserializeColumnsFromArena, deserializeColumnsFromArena_length I m collator ds]

theorem deserializeColumnsFromArena_roundtrip (I : IColumn Col Field)
    (collator : TiDBCollatorPtr) (n : Nat) (m : Memory) (ds cs : List Col)
    (hrel : List.Forall₂ (ArenaRoundTrip I collator n) ds cs) :
    (∀ d ∈ ds, I.size d = 0) → (∀ c ∈ cs, n < I.size c) →
    ∀ (pos : Nat),
      holdsAt m pos (cs.map (fun c => arenaEncoding I collator c n)).flatten →
      (deserializeColumnsFromArena I m collator ds pos).2
          = pos + (cs.map (fun c => arenaEncoding I collator c n)).flatten.length ∧
      (∀ d ∈ (deserializeColumnsFromArena I m collator ds pos).1, I.size d = 1) ∧
      (deserializeColumnsFromArena I m collator ds pos).1.map (fun d => I.get d 0)
        = cs.map (fun c => I.get c n) := by
  induction hrel with
  | nil =>
    intro _ _ pos _
    simp [deserializeColumnsFromArena]
  | @cons d c ds cs hdc _ ih =>
    intro hempty hn pos hholds
    simp only [List.map_cons, List.flatten_cons] at hholds ⊢
    obtain ⟨hh1, hh2⟩ := (holdsAt_append m pos _ _).mp hholds
    obtain ⟨hp1, hs1, _, hg1⟩ := hdc m pos (hn c (by simp)) hh1
    have hd0 : I.size d = 0 := hempty d (by simp)
    obtain ⟨hp2, hs2, hg2⟩ := ih (fun d' h => hempty d' (by simp [h]))
      (fun c' h => hn c' (by simp [h])) (pos + (arenaEncoding I collator c n).length) hh2
    simp only [deserializeColumnsFromArena, hp1]
    refine ⟨?_, ?_, ?_⟩
    · rw [hp2, List.length_append, Nat.add_assoc]
    · intro d' hd'
      rcases List.mem_cons.mp hd' with rfl | hd'
      · rw [hs1, hd0]
      · exact hs2 d' hd'
    · rw [hd0] at hg1
      simp only [List.map_cons, hg1, hg2]

/-- C3. Arena round trip of a composite column: if every child appends its own arena
encoding to the block, the bytes `serializeValueIntoArena` produces for a row `n` that
every child has are the children's encodings of row `n` concatenated in child order; and
if every child's encoding round-trips and is self-delimiting,
`deserializeAndInsertFromArena` applied to those bytes on an empty composite of the same
shape appends one row that equals row `n` field-wise and returns the address just past the
last byte. -/
theorem serializeValueIntoArena_roundtrip (I : IColumn Col Field) (t dst : ColumnTuple Col)
    (n : Nat) (arena : List Nat) (collator : TiDBCollatorPtr)
    (happ : ∀ c ∈ t.columns, ArenaAppends I collator c)
    (hchild : List.Forall₂ (ArenaRoundTrip I collator n) dst.columns t.columns)
    (hempty : ∀ d ∈ dst.columns, I.size d = 0)
    (hn : ∀ c ∈ t.columns, n < I.size c) :
    (serializeValueIntoArena I t n arena collator).2
        = (t.columns.map (fun c => arenaEncoding I collator c n)).flatten ∧
    (serializeValueIntoArena I t n arena collator).1
        = arena ++ (serializeValueIntoArena I t n arena collator).2 ∧
    ∀ (m : Memory) (pos : Nat),
      holdsAt m pos (serializeValueIntoArena I t n arena collator).2 →
      (deserializeAndInsertFromArena I dst m pos collator).2
          = pos + (serializeValueIntoArena I t n arena collator).2.length ∧
      (deserializeAndInsertFromArena I dst m pos collator).1.tupleSize = t.tupleSize ∧
      (∀ d ∈ (deserializeAndInsertFromArena I dst m pos collator).1.columns, I.size d = 1) ∧
      row I (deserializeAndInsertFromArena I dst m pos collator).1 0 = row I t n := by
  have hfold := serializeValueIntoArena_fold I collator n t.columns happ arena
  have hview : (serializeValueIntoArena I t n arena collator).2
      = (t.columns.map (fun c => arenaEncoding I collator c n)).flatten := by
    simp only [serializeValueIntoArena, hfold, List.drop_left]
  refine ⟨hview, ?_, fun m pos hholds => ?_⟩
  · rw [hview]; exact hfold
  · rw [hview] at hholds ⊢
    obtain ⟨h1, h2, h3⟩ := deserializeColumnsFromArena_roundtrip I collator n m
      dst.columns t.columns hchild hempty hn pos hholds
    refine ⟨h1, ?_, h2, h3⟩
    simp only [deserializeAndInsertFromArena, tupleSize,
      deserializeColumnsFromArena_length]
    exact hchild.length_eq

theorem zipWith_insertFrom_step (I : IColumn Col Field) (R : Col → Col → Prop)
    (hR : InsertFromRespects I R) (n sz : Nat) (cs ss : List Col)
    (hrel : List.Forall₂ R cs ss) :
    (∀ s ∈ ss, n < I.size s) → (∀ c ∈ cs, I.size c = sz) →
    List.Forall₂ R (List.zipWith (fun c s => I.insertFrom c s n) cs ss) ss ∧
    (∀ c ∈ List.zipWith (fun c s => I.insertFrom c s n) cs ss, I.size c = sz + 1) ∧
    (∀ i, i < sz →
      (List.zipWith (fun c s => I.insertFrom c s n) cs ss).map (fun c => I.get c i)
        = cs.map (fun c => I.get c i)) ∧
    (List.zipWith (fun c s => I.insertFrom c s n) cs ss).map (fun c => I.get c sz)
      = ss.map (fun s => I.get s n) := by
  induction hrel with
  | nil => intro _ _; simp
  | @cons c s cs ss hcs _ ih =>
    intro hn hsz
    obtain ⟨h1, h2, h3, h4⟩ := hR c s n hcs (hn s (by simp))
    obtain ⟨i1, i2, i3, i4⟩ := ih (fun s' h => hn s' (by simp [h]))
      (fun c' h => hsz c' (by simp [h]))
    have hc : I.size c = sz := hsz c (by simp)
    simp only [List.zipWith_cons_cons, List.map_cons]
    refine ⟨List.Forall₂.cons h4 i1, ?_, fun i hi => ?_, ?_⟩
    · intro c' hc'
      rcases List.mem_cons.mp hc' with rfl | hc'
      · omega
      · exact i2 c' hc'
    · rw [h2 i (by omega), i3 i hi]
    · rw [← hc, h3, hc, i4]

theorem insertFrom_step (I : IColumn Col Field) (R : Col → Col → Prop)
    (hR : InsertFromRespects I R) (t src : ColumnTuple Col) (n sz : Nat)
    (hrel : List.Forall₂ R t.columns src.columns)
    (hn : ∀ s ∈ src.columns, n < I.size s) (hsz : ∀ c ∈ t.columns, I.size c = sz) :
    ∃ t1, insertFrom I t src n = .ok t1 ∧
      List.Forall₂ R t1.columns src.columns ∧
      (∀ c ∈ t1.columns, I.size c = sz + 1) ∧
      (∀ i, i < sz → row I t1 i = row I t i) ∧
      row I t1 sz = row I src n := by
  refine ⟨⟨List.zipWith (fun c s => I.insertFrom c s n) t.columns src.columns⟩, ?_, ?_⟩
  · simp [insertFrom, hrel.length_eq]
  · exact zipWith_insertFrom_step I R hR n sz t.columns src.columns hrel hn hsz

/-- Successive `insertFrom` calls for the source rows `f i`, `i` running through `L`:
all succeed and append those rows in order. -/
theorem foldlM_insertFrom (I : IColumn Col Field) (R : Col → Col → Prop)
    (hR : InsertFromRespects I R) (src : ColumnTuple Col) (f : Nat → Nat) :
    ∀ (L : List Nat) (t : ColumnTuple Col) (sz : Nat),
      List.Forall₂ R t.columns src.columns →
      (∀ i ∈ L, ∀ s ∈ src.columns, f i < I.size s) →
      (∀ c ∈ t.columns, I.size c = sz) →
      ∃ t', L.foldlM (fun acc i => insertFrom I acc src (f i)) t = .ok t' ∧
        List.Forall₂ R t'.columns src.columns ∧
        (∀ c ∈ t'.columns, I.size c = sz + L.length) ∧
        (∀ i, i < sz → row I t' i = row I t i) ∧
        ∀ k, k < L.length → row I t' (sz + k) = row I src (f (L.getD k 0))
  | [], t, sz, hrel, _, hsz => ⟨t, rfl, hrel, by simpa using hsz, fun _ _ => rfl, by simp⟩
  | a :: L, t, sz, hrel, hn, hsz => by
    obtain ⟨t1, e1, r1, s1, o1, n1⟩ := insertFrom_step I R hR t src (f a) sz hrel
      (hn a (by simp)) hsz
    obtain ⟨t', e2, r2, s2, o2, n2⟩ := foldlM_insertFrom I R hR src f L t1 (sz + 1) r1
      (fun i hi => hn i (by simp [hi])) s1
    refine ⟨t', ?_, r2, ?_, fun i hi => ?_, fun k hk => ?_⟩
    · rw [List.foldlM_cons, e1]; exact e2
    · intro c hc; rw [s2 c hc, List.length_cons]; omega
    · rw [o2 i (by omega), o1 i hi]
    · cases k with
      | zero => rw [Nat.add_zero, o2 sz (by omega), n1, List.getD_cons_zero]
      | succ k =>
        have := n2 k (by simpa using hk)
        rw [List.getD_cons_succ, ← this]
        congr 1; omega

theorem getD_range' (first n k : Nat) (hk : k < n) :
    (List.range' first n).getD k 0 = first + k := by
  rw [List.getD_eq_getElem _ _ (by simpa using hk), List.getElem_range']
  omega

theorem iterate_bind_error {σ : Type} (body : σ → Except ColumnError σ) (err : ColumnError) :
    ∀ (k : Nat), (fun r : Except ColumnError σ => r.bind body)^[k] (.error err) = .error err
  | 0 => rfl
  | k + 1 => by rw [Function.iterate_succ_apply]; exact iterate_bind_error body err k

theorem foldlM_const_eq_iterate {σ : Type} (body : σ → Except ColumnError σ) :
    ∀ (L : List Nat) (s : σ),
      L.foldlM (fun acc _ => body acc) s = (fun r => r.bind body)^[L.length] (.ok s)
  | [], s => rfl
  | a :: L, s => by
    rw [List.foldlM_cons, List.length_cons, Function.iterate_succ_apply]
    cases hb : body s with
    | error err =>
      have hb' : (Except.ok s : Except ColumnError σ).bind body = .error err := hb
      rw [hb', iterate_bind_error]
      rfl
    | ok s1 =>
      have hb' : (Except.ok s : Except ColumnError σ).bind body = .ok s1 := hb
      rw [hb']
      exact foldlM_const_eq_iterate body L s1

theorem forRangeM_const_eq_iterate {σ : Type} (body : σ → Except ColumnError σ) (s : σ)
    (n : Nat) :
    forRangeM 0 n (fun _ acc => body acc) s = (fun r => r.bind body)^[n] (.ok s) := by
  unfold forRangeM
  rw [foldlM_const_eq_iterate body, List.length_range', Nat.sub_zero]

/-- C9. `insertManyFrom(src, n, length)` equals `length` successive `insertFrom(src, n)`
calls and leaves the column unchanged when `length = 0`; for a source of the same shape
that has row `n`, it returns normally with exactly `length` rows appended, each equal to
row `n` of `src`, the rows present before unchanged. -/
theorem insertManyFrom_appends (I : IColumn Col Field) (R : Col → Col → Prop)
    (t src : ColumnTuple Col) (n length sz : Nat)
    (hR : InsertFromRespects I R)
    (hshape : List.Forall₂ R t.columns src.columns)
    (hn : ∀ s ∈ src.columns, n < I.size s)
    (hsz : ∀ c ∈ t.columns, I.size c = sz) :
    insertManyFrom I t src n length
        = (fun r => r.bind (fun acc => insertFrom I acc src n))^[length] (.ok t) ∧
    insertManyFrom I t src n 0 = .ok t ∧
    ∃ t', insertManyFrom I t src n length = .ok t' ∧
      t'.tupleSize = t.tupleSize ∧
      (∀ c ∈ t'.columns, I.size c = sz + length) ∧
      (∀ i, i < sz → row I t' i = row I t i) ∧
      ∀ k, k < length → row I t' (sz + k) = row I src n := by
  refine ⟨?_, rfl, ?_⟩
  · exact forRangeM_const_eq_iterate (fun acc => insertFrom I acc src n) t length
  · obtain ⟨t', e, r, s1, o, nw⟩ := foldlM_insertFrom I R hR src (fun _ => n)
      (List.range' 0 (length - 0)) t sz hshape (fun _ _ => hn) hsz
    refine ⟨t', e, ?_, ?_, o, fun k hk => nw k (by simpa using hk)⟩
    · simp only [tupleSize]; rw [r.length_eq, hshape.length_eq]
    · intro c hc; rw [s1 c hc]; simp

theorem insertSelectiveRangeFrom_of_no_wrap (I : IColumn Col Field) (t src : ColumnTuple Col)
    (selective_offsets : List Nat) (start length : Nat)
    (hwrap : start + length < sizeModulus) :
    insertSelectiveRangeFrom I t src selective_offsets start length
      = if start + length ≤ selective_offsets.length then
          (List.range' start length).foldlM
            (fun acc i => insertFrom I acc src (selective_offsets.getD i 0)) t
        else .error .runtimeCheck := by
  unfold insertSelectiveRangeFrom forRangeM
  rw [Nat.mod_eq_of_lt hwrap, Nat.add_sub_cancel_left]

/-- The selective insert on in-range arguments. When `start + len` does not wrap around in
`size_t` and the bounds check `indices.size() >= start + len` passes,
`insertSelectiveRangeFrom(src, indices, start, len)` equals the calls
`insertFrom(src, indices[i])` for `i = start, ..., start + len - 1` in that order; for a
source of the same shape that has all the selected rows it returns normally with exactly
`len` rows appended, the `k`-th of them equal to row `indices[start + k]` of `src`, the
rows present before unchanged. -/
theorem insertSelectiveRangeFrom_appends (I : IColumn Col Field) (R : Col → Col → Prop)
    (t src : ColumnTuple Col) (selective_offsets : List Nat) (start length sz : Nat)
    (hwrap : start + length < sizeModulus)
    (hcheck : start + length ≤ selective_offsets.length)
    (hR : InsertFromRespects I R)
    (hshape : List.Forall₂ R t.columns src.columns)
    (hrows : ∀ i, start ≤ i → i < start + length →
      ∀ s ∈ src.columns, selective_offsets.getD i 0 < I.size s)
    (hsz : ∀ c ∈ t.columns, I.size c = sz) :
    insertSelectiveRangeFrom I t src selective_offsets start length
        = ((selective_offsets.drop start).take length).foldlM
            (fun acc n => insertFrom I acc src n) t ∧
    ∃ t', insertSelectiveRangeFrom I t src selective_offsets start length = .ok t' ∧
      t'.tupleSize = t.tupleSize ∧
      (∀ c ∈ t'.columns, I.size c = sz + length) ∧
      (∀ i, i < sz → row I t' i = row I t i) ∧
      ∀ k, k < length →
        row I t' (sz + k) = row I src (selective_offsets.getD (start + k) 0) := by
  have hdef := insertSelectiveRangeFrom_of_no_wrap I t src selective_offsets start length hwrap
  rw [if_pos hcheck] at hdef
  refine ⟨?_, ?_⟩
  · rw [hdef]
    have hslice : (selective_offsets.drop start).take length
        = (List.range' start length).map (fun i => selective_offsets.getD i 0) := by
      apply List.ext_getElem?
      intro k
      by_cases hk : k < length
      · have hlt : start + k < selective_offsets.length := by omega
        rw [List.getElem?_take, if_pos hk, List.getElem?_drop, List.getElem?_map,
          List.getElem?_range' _ _ hk, List.getElem?_eq_getElem hlt, Nat.one_mul,
          Option.map_some', List.getD_eq_getElem _ _ hlt]
      · rw [List.getElem?_take, if_neg hk, List.getElem?_eq_none (by simpa using hk)]
    rw [hslice, List.foldlM_map]
  · obtain ⟨t', e, r, s1, o, nw⟩ := foldlM_insertFrom I R hR src
      (fun i => selective_offsets.getD i 0) (List.range' start length) t sz hshape
      (fun i hi => by
        obtain ⟨h1, h2⟩ := List.mem_range'_1.mp hi
        exact hrows i h1 h2) hsz
    refine ⟨t', hdef.trans e, ?_, ?_, o, fun k hk => ?_⟩
    · simp only [tupleSize]; rw [r.length_eq, hshape.length_eq]
    · intro c hc; rw [s1 c hc]; simp
    · rw [nw k (by simpa using hk), getD_range' start length k hk]

theorem insertSelectiveRangeFrom_check_fails (I : IColumn Col Field) (t src : ColumnTuple Col)
    (selective_offsets : List Nat) (start length : Nat)
    (h : selective_offsets.length < (start + length) % sizeModulus) :
    insertSelectiveRangeFrom I t src selective_offsets start length = .error .runtimeCheck := by
  unfold insertSelectiveRangeFrom
  rw [if_neg (by omega)]

/-- C8, failing input. With `indices = [0]`, `start = 2^64 - 1` and `len = 2` the sum
`start + len` exceeds `indices.size()`, yet the check passes on the wrapped sum and the
call returns normally with the column unchanged. -/
theorem insertSelectiveRangeFrom_wrapped_check_passes (I : IColumn Col Field)
    (t src : ColumnTuple Col) :
    [0].length < (2 ^ 64 - 1) + 2 ∧
      insertSelectiveRangeFrom I t src [0] (2 ^ 64 - 1) 2 = .ok t := by
  refine ⟨by decide, ?_⟩
  have e : (2 ^ 64 - 1 + 2) % sizeModulus = 1 := by decide
  unfold insertSelectiveRangeFrom forRangeM
  rw [e]
  rfl

end ColumnTuple

end DB

/-! ## The leaf columns satisfy the contracts -/

namespace DB

open ColumnTuple

theorem list_eq_of_getD (xs ys : List Nat) (hl : xs.length = ys.length)
    (h : ∀ k, k < xs.length → xs.getD k 0 = ys.getD k 0) : xs = ys := by
  apply List.ext_getElem hl
  intro k h1 h2
  have := h k h1
  rwa [List.getD_eq_getElem _ _ h1, List.getD_eq_getElem _ _ h2] at this

theorem byteOf_val (v : Fin 256) : byteOf v.val = v := by
  unfold byteOf
  rw [dif_pos v.isLt]

theorem writeBytes_at (m : Memory) (a : Nat) (bytes : List Nat) (i : Nat)
    (hi : i < bytes.length) : writeBytes m a bytes (a + i) = bytes.getD i 0 := by
  unfold writeBytes
  rw [if_pos ⟨by omega, by omega⟩, Nat.add_sub_cancel_left]

theorem writeBytes_outside (m : Memory) (a : Nat) (bytes : List Nat) (x : Nat)
    (hx : x < a ∨ a + bytes.length ≤ x) : writeBytes m a bytes x = m x := by
  unfold writeBytes
  rw [if_neg (by omega)]

namespace Leaf

theorem getD_append_last {α : Type} (xs : List α) (x d : α) :
    (xs ++ [x]).getD xs.length d = x := by
  rw [List.getD_append_right _ _ _ _ (Nat.le_refl _), Nat.sub_self, List.getD_cons_zero]

theorem string_length_eq (s : String) : s.length = s.data.length := rfl

theorem string_of_codes (s : String) (f : Nat → Nat)
    (h : ∀ i, i < s.length → f i = (s.toList.map Char.toNat).getD i 0) :
    String.mk ((List.range s.length).map (fun i => Char.ofNat (f i))) = s := by
  have hdata : (List.range s.length).map (fun i => Char.ofNat (f i)) = s.data := by
    apply List.ext_getElem
    · rw [List.length_map, List.length_range, string_length_eq]
    · intro i h1 h2
      have hi : i < s.length := by rw [string_length_eq]; exact h2
      have hi' : i < (s.toList.map Char.toNat).length := by
        rw [List.length_map]; exact h2
      rw [List.getElem_map, List.getElem_range, h i hi, List.getD_eq_getElem _ _ hi',
        List.getElem_map, Char.ofNat_toNat]
      rfl
  rw [hdata]

theorem encodeRow_uint8s (cc : List (Fin 256)) (j : Nat) :
    (uint8s cc).encodeRow j = [(cc.getD j 0).val] := rfl

theorem encodeRow_strings (cc : List String) (j : Nat) :
    (strings cc).encodeRow j
      = (cc.getD j "").length :: (cc.getD j "").toList.map Char.toNat := rfl

theorem decodeRow_encodeRow (d c : Leaf) (hkind : sameKind d c) (j : Nat) (m : Memory)
    (a : Nat) (h : holdsAt m a (c.encodeRow j)) :
    (d.decodeRow m a).2 = a + (c.encodeRow j).length ∧
    (d.decodeRow m a).1.size = d.size + 1 ∧
    (∀ i, i < d.size → (d.decodeRow m a).1.get i = d.get i) ∧
    (d.decodeRow m a).1.get d.size = c.get j ∧
    sameKind (d.decodeRow m a).1 c := by
  cases d with
  | uint8s dd =>
    cases c with
    | uint8s cc =>
      rw [encodeRow_uint8s] at h ⊢
      have h0 : m a = (cc.getD j 0).val := by
        have := h 0 (Nat.zero_lt_succ _)
        rwa [Nat.add_zero, List.getD_cons_zero] at this
      refine ⟨rfl, ?_, fun i hi => ?_, ?_, trivial⟩
      · simp only [decodeRow, size, List.length_append, List.length_singleton]
      · simp only [decodeRow, get, size] at hi ⊢
        rw [List.getD_append _ _ _ _ hi]
      · simp only [decodeRow, get, size, getD_append_last, h0, byteOf_val]
    | strings cc => exact absurd hkind (fun h => h)
  | strings dd =>
    cases c with
    | uint8s cc => exact absurd hkind (fun h => h)
    | strings cc =>
      rw [encodeRow_strings] at h ⊢
      have h0 : m a = (cc.getD j "").length := by
        have := h 0 (Nat.zero_lt_succ _)
        rwa [Nat.add_zero, List.getD_cons_zero] at this
      have hrest : ∀ i, i < (cc.getD j "").length →
          m (a + 1 + i) = ((cc.getD j "").toList.map Char.toNat).getD i 0 := by
        intro i hi
        have := h (i + 1) (by
          rw [List.length_cons, List.length_map]
          exact Nat.succ_lt_succ hi)
        rw [List.getD_cons_succ] at this
        rw [← this]
        congr 1
        omega
      have hs := string_of_codes (cc.getD j "") (fun i => m (a + 1 + i)) hrest
      refine ⟨?_, ?_, fun i hi => ?_, ?_, trivial⟩
      · simp only [decodeRow, h0, List.length_cons, List.length_map]
        rw [string_length_eq]
        show a + 1 + (cc.getD j "").data.length = a + ((cc.getD j "").data.length + 1)
        omega
      · simp only [decodeRow, size, List.length_append, List.length_singleton]
      · simp only [decodeRow, get, size] at hi ⊢
        rw [List.getD_append _ _ _ _ hi]
      · simp only [decodeRow, get, size, getD_append_last, h0, hs]

theorem countRows_length (c : Leaf) (byte_size : List Nat) :
    (c.countRows byte_size).length = byte_size.length := by
  unfold countRows
  rw [List.length_mapIdx]

theorem countRows_getD (c : Leaf) (byte_size : List Nat) (j : Nat)
    (hj : j < byte_size.length) (hj2 : j < c.size) :
    (c.countRows byte_size).getD j 0 = byte_size.getD j 0 + (c.encodeRow j).length := by
  have hj' : j < (c.countRows byte_size).length := by rw [countRows_length]; exact hj
  rw [List.getD_eq_getElem _ _ hj', List.getD_eq_getElem _ _ hj]
  unfold countRows
  rw [List.getElem_mapIdx, if_pos hj2]

theorem writeRows_pos_length (c : Leaf) :
    ∀ (length row : Nat) (m : Memory) (pos : List Nat),
      (c.writeRows row length m pos).pos.length = pos.length
  | 0, _, _, _ => rfl
  | _ + 1, _, _, [] => rfl
  | length + 1, row, m, a :: pos => by
    simp only [writeRows, List.length_cons, writeRows_pos_length c length]

theorem writeRows_pos_getD (c : Leaf) :
    ∀ (length row : Nat) (m : Memory) (pos : List Nat) (k : Nat),
      k < length → k < pos.length →
      (c.writeRows row length m pos).pos.getD k 0
        = pos.getD k 0 + (c.encodeRow (row + k)).length
  | 0, _, _, _, _, h, _ => absurd h (Nat.not_lt_zero _)
  | _ + 1, _, _, [], _, _, h => absurd h (Nat.not_lt_zero _)
  | length + 1, row, m, a :: pos, 0, _, _ => by
    simp only [writeRows, List.getD_cons_zero, Nat.add_zero]
  | length + 1, row, m, a :: pos, k + 1, h1, h2 => by
    simp only [writeRows, List.getD_cons_succ]
    rw [writeRows_pos_getD c length (row + 1) _ pos k (by omega)
      (by simpa using h2), show row + 1 + k = row + (k + 1) by omega]

theorem writeRows_frame (c : Leaf) :
    ∀ (length row : Nat) (m : Memory) (pos : List Nat) (x : Nat),
      (∀ k, k < length → k < pos.length →
        x < pos.getD k 0 ∨ pos.getD k 0 + (c.encodeRow (row + k)).length ≤ x) →
      (c.writeRows row length m pos).mem x = m x
  | 0, _, _, _, _, _ => rfl
  | _ + 1, _, _, [], _, _ => rfl
  | length + 1, row, m, a :: pos, x, h => by
    simp only [writeRows]
    rw [writeRows_frame c length (row + 1) _ pos x (fun k hk1 hk2 => by
      have := h (k + 1) (by omega) (by simpa using hk2)
      rw [List.getD_cons_succ] at this
      rwa [show row + 1 + k = row + (k + 1) by omega])]
    exact writeBytes_outside m a _ x (by
      have := h 0 (by omega) (by simp)
      simpa using this)

theorem writeRows_holds (c : Leaf) :
    ∀ (length row : Nat) (m : Memory) (pos : List Nat),
      (∀ k k', k < length → k' < length → k < pos.length → k' < pos.length → k ≠ k' →
        pos.getD k 0 + (c.encodeRow (row + k)).length ≤ pos.getD k' 0 ∨
        pos.getD k' 0 + (c.encodeRow (row + k')).length ≤ pos.getD k 0) →
      ∀ k, k < length → k < pos.length →
        holdsAt (c.writeRows row length m pos).mem (pos.getD k 0) (c.encodeRow (row + k))
  | 0, _, _, _, _, _, h, _ => absurd h (Nat.not_lt_zero _)
  | _ + 1, _, _, [], _, _, _, h => absurd h (Nat.not_lt_zero _)
  | length + 1, row, m, a :: pos, hdis, 0, _, _ => by
    intro i hi
    simp only [writeRows, List.getD_cons_zero, Nat.add_zero] at hi ⊢
    rw [writeRows_frame c length (row + 1) _ pos (a + i) (fun k' h1 h2 => ?_)]
    · exact writeBytes_at m a _ i hi
    · have := hdis 0 (k' + 1) (by omega) (by omega) (by simp) (by simpa using h2) (by omega)
      simp only [List.getD_cons_zero, List.getD_cons_succ, Nat.add_zero] at this
      rw [show row + 1 + k' = row + (k' + 1) by omega]
      omega
  | length + 1, row, m, a :: pos, hdis, k + 1, h1, h2 => by
    have ih := writeRows_holds c length (row + 1) (writeBytes m a (c.encodeRow row)) pos
      (fun k k' a1 a2 a3 a4 a5 => by
        have := hdis (k + 1) (k' + 1) (by omega) (by omega) (by simpa using a3)
          (by simpa using a4) (by omega)
        simp only [List.getD_cons_succ] at this
        rw [show row + 1 + k = row + (k + 1) by omega,
          show row + 1 + k' = row + (k' + 1) by omega]
        exact this)
      k (by omega) (by simpa using h2)
    simp only [writeRows, List.getD_cons_succ]
    rw [show row + (k + 1) = row + 1 + k by omega]
    exact ih

theorem readRows_spec (c : Leaf) (m2 : Memory) :
    ∀ (pos : List Nat) (d : Leaf) (row : Nat), sameKind d c →
      (∀ k, k < pos.length → holdsAt m2 (pos.getD k 0) (c.encodeRow (row + k))) →
      (d.readRows m2 pos).2.length = pos.length ∧
      (∀ k, k < pos.length →
        (d.readRows m2 pos).2.getD k 0 = pos.getD k 0 + (c.encodeRow (row + k)).length) ∧
      (d.readRows m2 pos).1.size = d.size + pos.length ∧
      (∀ i, i < d.size → (d.readRows m2 pos).1.get i = d.get i) ∧
      (∀ k, k < pos.length → (d.readRows m2 pos).1.get (d.size + k) = c.get (row + k))
  | [], d, row, _, _ => by
    refine ⟨rfl, fun k hk => absurd hk (Nat.not_lt_zero _), rfl, fun i _ => rfl,
      fun k hk => absurd hk (Nat.not_lt_zero _)⟩
  | a :: pos, d, row, hk, hh => by
    obtain ⟨e1, e2, e3, e4, e5⟩ := decodeRow_encodeRow d c hk row m2 a (by
      have := hh 0 (by simp)
      simpa using this)
    obtain ⟨r1, r2, r3, r4, r5⟩ := readRows_spec c m2 pos (d.decodeRow m2 a).1 (row + 1) e5
      (fun k hk' => by
        have := hh (k + 1) (by simpa using hk')
        rw [List.getD_cons_succ] at this
        rwa [show row + 1 + k = row + (k + 1) by omega])
    simp only [readRows, List.length_cons]
    refine ⟨by omega, fun k hk' => ?_, by omega, fun i hi => ?_, fun k hk' => ?_⟩
    · cases k with
      | zero => simp only [List.getD_cons_zero, e1, Nat.add_zero]
      | succ k =>
        rw [List.getD_cons_succ, List.getD_cons_succ, r2 k (by omega),
          show row + 1 + k = row + (k + 1) by omega]
    · rw [r4 i (by omega), e3 i hi]
    · cases k with
      | zero => rw [Nat.add_zero, r4 d.size (by omega), e4]; rfl
      | succ k =>
        have := r5 k (by omega)
        rw [e2] at this
        rw [show d.size + (k + 1) = d.size + 1 + k by omega, this,
          show row + 1 + k = row + (k + 1) by omega]

end Leaf

theorem leaf_cmpCountWriteConsistent (has_null : Bool) (nullmap : Option NullMap)
    (collator : TiDBCollatorPtr) (c : Leaf) :
    CmpCountWriteConsistent leafColumn has_null nullmap collator c := by
  intro mem pos sk byte_size start length h1 h2 h3
  have h1' : start + length ≤ c.size := h1
  have h3' : byte_size.length = c.size := h3
  refine ⟨Leaf.writeRows_pos_length c length start mem pos, Leaf.countRows_length c byte_size,
    fun k hk => ?_⟩
  show (c.writeRows start length mem pos).pos.getD k 0 + byte_size.getD (start + k) 0
    = pos.getD k 0 + (c.countRows byte_size).getD (start + k) 0
  rw [Leaf.writeRows_pos_getD c length start mem pos k hk (by omega),
    Leaf.countRows_getD c byte_size (start + k) (by omega) (by omega)]
  omega

theorem leaf_serializeToPosFramed (start length : Nat) (has_null : Bool) (c : Leaf) :
    SerializeToPosFramed leafColumn start length has_null c := by
  intro mem pos _ hp
  have hposk : ∀ k, k < length →
      (c.writeRows start length mem pos).pos.getD k 0
        = pos.getD k 0 + (c.encodeRow (start + k)).length :=
    fun k hk => Leaf.writeRows_pos_getD c length start mem pos k hk (by omega)
  refine ⟨(Leaf.writeRows_pos_length c length start mem pos).trans hp, fun k hk => ?_,
    fun a ha => ?_⟩
  · show pos.getD k 0 ≤ (c.writeRows start length mem pos).pos.getD k 0
    rw [hposk k hk]; omega
  · show (c.writeRows start length mem pos).mem a = mem a
    apply Leaf.writeRows_frame
    intro k hk1 _
    have : a < pos.getD k 0 ∨ (c.writeRows start length mem pos).pos.getD k 0 ≤ a := ha k hk1
    rwa [hposk k hk1] at this

theorem leaf_posRoundTrip (start length : Nat) (has_null use_nt : Bool) (d c : Leaf)
    (hkind : Leaf.sameKind d c) :
    PosRoundTrip leafColumn start length has_null use_nt d c := by
  intro mem pos _ hp hdis m2 hagree
  have hposk : ∀ k, k < length →
      (c.writeRows start length mem pos).pos.getD k 0
        = pos.getD k 0 + (c.encodeRow (start + k)).length :=
    fun k hk => Leaf.writeRows_pos_getD c length start mem pos k hk (by omega)
  have hdis' : ∀ k k', k < length → k' < length → k ≠ k' →
      (c.writeRows start length mem pos).pos.getD k 0 ≤ pos.getD k' 0 ∨
      (c.writeRows start length mem pos).pos.getD k' 0 ≤ pos.getD k 0 := hdis
  have hagree' : ∀ k, k < length → ∀ a, pos.getD k 0 ≤ a →
      a < (c.writeRows start length mem pos).pos.getD k 0 →
      m2 a = (c.writeRows start length mem pos).mem a := hagree
  have hholds : ∀ k, k < pos.length →
      holdsAt m2 (pos.getD k 0) (c.encodeRow (start + k)) := by
    intro k hk i hi
    have hk' : k < length := by omega
    have h1 := Leaf.writeRows_holds c length start mem pos
      (fun k k' a1 a2 _ _ a5 => by
        have := hdis' k k' a1 a2 a5
        rwa [hposk k a1, hposk k' a2] at this)
      k hk' hk i hi
    rw [← h1]
    exact hagree' k hk' (pos.getD k 0 + i) (by omega) (by rw [hposk k hk']; omega)
  obtain ⟨r1, r2, r3, r4, r5⟩ := Leaf.readRows_spec c m2 pos d start hkind hholds
  refine ⟨?_, ?_, r4, fun k hk => r5 k (by omega)⟩
  · show (d.readRows m2 pos).2 = (c.writeRows start length mem pos).pos
    apply list_eq_of_getD
    · rw [r1, Leaf.writeRows_pos_length]
    · intro k hk
      rw [r2 k (by omega), hposk k (by omega)]
  · show (d.readRows m2 pos).1.size = d.size + length
    rw [r3, hp]

theorem leaf_arenaAppends (collator : TiDBCollatorPtr) (c : Leaf) :
    ArenaAppends leafColumn collator c := by
  intro n arena
  show arena ++ c.encodeRow n = arena ++ ([] ++ c.encodeRow n)
  rw [List.nil_append]

theorem leaf_arenaRoundTrip (collator : TiDBCollatorPtr) (n : Nat) (d c : Leaf)
    (hkind : Leaf.sameKind d c) : ArenaRoundTrip leafColumn collator n d c := by
  intro m pos _ hh
  have henc : arenaEncoding leafColumn collator c n = c.encodeRow n := List.nil_append _
  rw [henc] at hh ⊢
  obtain ⟨e1, e2, e3, e4, _⟩ := Leaf.decodeRow_encodeRow d c hkind n m pos hh
  exact ⟨e1, e2, e3, e4⟩

theorem leaf_insertFromRespects : InsertFromRespects leafColumn Leaf.sameKind := by
  intro d s n hR _
  cases d with
  | uint8s dd =>
    cases s with
    | uint8s ss =>
      refine ⟨?_, fun i hi => ?_, ?_, trivial⟩
      · show (dd ++ [ss.getD n 0]).length = dd.length + 1
        simp
      · show LeafField.uint8 ((dd ++ [ss.getD n 0]).getD i 0) = .uint8 (dd.getD i 0)
        rw [List.getD_append _ _ _ _ hi]
      · show LeafField.uint8 ((dd ++ [ss.getD n 0]).getD dd.length 0) = .uint8 (ss.getD n 0)
        rw [Leaf.getD_append_last]
    | strings ss => exact absurd hR (fun h => h)
  | strings dd =>
    cases s with
    | uint8s ss => exact absurd hR (fun h => h)
    | strings ss =>
      refine ⟨?_, fun i hi => ?_, ?_, trivial⟩
      · show (dd ++ [ss.getD n ""]).length = dd.length + 1
        simp
      · show LeafField.string ((dd ++ [ss.getD n ""]).getD i "") = .string (dd.getD i "")
        rw [List.getD_append _ _ _ _ hi]
      · show LeafField.string ((dd ++ [ss.getD n ""]).getD dd.length "")
          = .string (ss.getD n "")
        rw [Leaf.getD_append_last]

theorem leaf_insertDefaultAppends : InsertDefaultAppends leafColumn Leaf.typeDefault := by
  intro c
  cases c with
  | uint8s dd =>
    refine ⟨?_, fun i hi => ?_, ?_, rfl⟩
    · show (dd ++ [0]).length = dd.length + 1
      simp
    · show LeafField.uint8 ((dd ++ [(0 : Fin 256)]).getD i 0) = .uint8 (dd.getD i 0)
      rw [List.getD_append _ _ _ _ hi]
    · show LeafField.uint8 ((dd ++ [(0 : Fin 256)]).getD dd.length 0) = .uint8 0
      rw [Leaf.getD_append_last]
  | strings dd =>
    refine ⟨?_, fun i hi => ?_, ?_, rfl⟩
    · show (dd ++ [""]).length = dd.length + 1
      simp
    · show LeafField.string ((dd ++ [""]).getD i "") = .string (dd.getD i "")
      rw [List.getD_append _ _ _ _ hi]
    · show LeafField.string ((dd ++ [""]).getD dd.length "") = .string ""
      rw [Leaf.getD_append_last]

namespace ColumnTuple

/-! ## Default rows, and the contracts instantiated on the leaf columns -/

theorem foldl_const_eq_iterate {σ : Type} (f : σ → σ) :
    ∀ (L : List Nat) (s : σ), L.foldl (fun acc _ => f acc) s = f^[L.length] s
  | [], _ => rfl
  | _ :: L, s => by
    rw [List.foldl_cons, List.length_cons, Function.iterate_succ_apply]
    exact foldl_const_eq_iterate f L (f s)

theorem insertManyDefaults_eq_iterate {Col Field : Type} (I : IColumn Col Field)
    (t : ColumnTuple Col) (length : Nat) :
    insertManyDefaults I t length = (insertDefault I)^[length] t := by
  unfold insertManyDefaults forRange
  rw [foldl_const_eq_iterate, List.length_range', Nat.sub_zero]

theorem insertDefault_step {Col Field : Type} (I : IColumn Col Field)
    (typeDefault : Col → Field) (h : InsertDefaultAppends I typeDefault) (sz : Nat) :
    ∀ (cs : List Col), (∀ c ∈ cs, I.size c = sz) →
      (∀ c ∈ cs.map I.insertDefault, I.size c = sz + 1) ∧
      (∀ i, i < sz →
        (cs.map I.insertDefault).map (fun c => I.get c i) = cs.map (fun c => I.get c i)) ∧
      (cs.map I.insertDefault).map (fun c => I.get c sz) = cs.map typeDefault ∧
      (cs.map I.insertDefault).map typeDefault = cs.map typeDefault
  | [], _ => by simp
  | c :: cs, hsz => by
    obtain ⟨h1, h2, h3, h4⟩ := h c
    obtain ⟨i1, i2, i3, i4⟩ := insertDefault_step I typeDefault h sz cs
      (fun d hd => hsz d (by simp [hd]))
    have hc : I.size c = sz := hsz c (by simp)
    simp only [List.map_cons]
    refine ⟨?_, fun i hi => ?_, ?_, ?_⟩
    · intro d hd
      rcases List.mem_cons.mp hd with rfl | hd
      · omega
      · exact i1 d hd
    · rw [h2 i (by omega), i2 i hi]
    · rw [← hc, h3, hc, i3]
    · rw [h4, i4]

theorem iterate_insertDefault {Col Field : Type} (I : IColumn Col Field)
    (typeDefault : Col → Field) (h : InsertDefaultAppends I typeDefault) :
    ∀ (n : Nat) (t : ColumnTuple Col) (sz : Nat), (∀ c ∈ t.columns, I.size c = sz) →
      ((insertDefault I)^[n] t).tupleSize = t.tupleSize ∧
      (∀ c ∈ ((insertDefault I)^[n] t).columns, I.size c = sz + n) ∧
      (∀ i, i < sz → row I ((insertDefault I)^[n] t) i = row I t i) ∧
      (∀ k, k < n → row I ((insertDefault I)^[n] t) (sz + k) = t.columns.map typeDefault) ∧
      ((insertDefault I)^[n] t).columns.map typeDefault = t.columns.map typeDefault
  | 0, t, sz, hsz => ⟨rfl, hsz, fun _ _ => rfl, fun k hk => absurd hk (Nat.not_lt_zero _), rfl⟩
  | n + 1, t, sz, hsz => by
    obtain ⟨s1, s2, s3, s4⟩ := insertDefault_step I typeDefault h sz t.columns hsz
    obtain ⟨r0, r1, r2, r3, r4⟩ := iterate_insertDefault I typeDefault h n (insertDefault I t)
      (sz + 1) s1
    rw [Function.iterate_succ_apply]
    refine ⟨?_, ?_, fun i hi => ?_, fun k hk => ?_, ?_⟩
    · rw [r0]; simp [tupleSize, insertDefault]
    · intro c hc; rw [r1 c hc]; omega
    · rw [r2 i (by omega)]; exact s2 i hi
    · cases k with
      | zero => rw [Nat.add_zero, r2 sz (by omega)]; exact s3
      | succ k =>
        have := r3 k (by omega)
        rw [show sz + (k + 1) = sz + 1 + k by omega, this]
        exact s4
    · rw [r4]; exact s4

/-- C10. `insertManyDefaults(length)` equals `length` successive `insertDefault` calls and
appends exactly `length` rows, each the tuple of every child's type default, the rows
present before unchanged; in particular `insertManyDefaults(3)` on the empty composite
with an integer child and a string child yields a composite of size 3 whose every row is
`(0, "")`. -/
theorem insertManyDefaults_appends :
    (∀ (Col Field : Type) (I : IColumn Col Field) (typeDefault : Col → Field)
      (t : ColumnTuple Col) (length sz : Nat),
      InsertDefaultAppends I typeDefault → (∀ c ∈ t.columns, I.size c = sz) →
      insertManyDefaults I t length = (insertDefault I)^[length] t ∧
      (insertManyDefaults I t length).tupleSize = t.tupleSize ∧
      (∀ c ∈ (insertManyDefaults I t length).columns, I.size c = sz + length) ∧
      (∀ i, i < sz → row I (insertManyDefaults I t length) i = row I t i) ∧
      ∀ k, k < length →
        row I (insertManyDefaults I t length) (sz + k) = t.columns.map typeDefault) ∧
    size leafColumn (insertManyDefaults leafColumn emptyPair 3) = .ok 3 ∧
    ∀ k, k < 3 →
      row leafColumn (insertManyDefaults leafColumn emptyPair 3) k = [.uint8 0, .string ""] := by
  refine ⟨fun Col Field I typeDefault t length sz h hsz => ?_, rfl, by decide⟩
  obtain ⟨r0, r1, r2, r3, _⟩ := iterate_insertDefault I typeDefault h length t sz hsz
  rw [insertManyDefaults_eq_iterate]
  exact ⟨rfl, r0, r1, r2, r3⟩

/-- C10, instance: the general statement on the empty integer/string composite. -/
theorem insertManyDefaults_appends_witness :
    (∀ c ∈ emptyPair.columns, leafColumn.size c = 0) ∧
    (∀ c ∈ (insertManyDefaults leafColumn emptyPair 3).columns, leafColumn.size c = 0 + 3) ∧
    ∀ k, k < 3 →
      row leafColumn (insertManyDefaults leafColumn emptyPair 3) (0 + k)
        = emptyPair.columns.map Leaf.typeDefault :=
  ⟨by decide,
    (insertManyDefaults_appends.1 Leaf LeafField leafColumn Leaf.typeDefault emptyPair 3 0
      leaf_insertDefaultAppends (by decide)).2.2.1,
    (insertManyDefaults_appends.1 Leaf LeafField leafColumn Leaf.typeDefault emptyPair 3 0
      leaf_insertDefaultAppends (by decide)).2.2.2.2⟩

/-- C1, instance: the two-row integer/string composite written through cursors 100 and
200. -/
theorem serializeToPosForCmp_advance_eq_count_witness :
    (∀ c ∈ samplePair.columns, leafColumn.size c = [0, 0].length) ∧
    (serializeToPosForCmp leafColumn samplePair (fun _ => 0) [100, 200] 0 2 false none none
        none).pos.getD 1 0 + [0, 0].getD (0 + 1) 0
      = [100, 200].getD 1 0
        + (countSerializeByteSizeForCmp leafColumn samplePair [0, 0] none none).getD (0 + 1) 0 ∧
    (countSerializeByteSizeForCmp leafColumn samplePair [0, 0] none none).getD (0 + 1) 0
      = [0, 0].getD (0 + 1) 0
        + (samplePair.columns.map
            (fun c => rowByteSizeForCmp leafColumn none none c (0 + 1))).sum :=
  ⟨by decide,
    serializeToPosForCmp_advance_eq_count leafColumn samplePair false none none (fun _ => 0)
      [100, 200] none [0, 0] 0 2 (fun c _ => leaf_cmpCountWriteConsistent false none none c)
      (by decide) (by decide) (by decide) 1 (by decide)⟩

theorem samplePair_serializeToPos_pos :
    (serializeToPos leafColumn samplePair (fun _ => 0) [100, 200] 0 2 false).pos
      = [103, 203] := rfl

/-- C2, instance: the two-row integer/string composite written through cursors 100 and 200
and read back into the empty composite. -/
theorem serializeToPos_deserialize_roundtrip_witness :
    (∀ d ∈ emptyPair.columns, leafColumn.size d = 0) ∧
    (deserializeAndInsertFromPos leafColumn emptyPair
        (serializeToPos leafColumn samplePair (fun _ => 0) [100, 200] 0 2 false).mem
        [100, 200] false).2
      = (serializeToPos leafColumn samplePair (fun _ => 0) [100, 200] 0 2 false).pos ∧
    ∀ k, k < 2 →
      row leafColumn (deserializeAndInsertFromPos leafColumn emptyPair
        (serializeToPos leafColumn samplePair (fun _ => 0) [100, 200] 0 2 false).mem
        [100, 200] false).1 k
        = row leafColumn samplePair (0 + k) :=
  have h := serializeToPos_deserialize_roundtrip leafColumn samplePair emptyPair (fun _ => 0)
    [100, 200] 0 2 false false
    (List.Forall₂.cons
      ⟨leaf_serializeToPosFramed 0 2 false _, leaf_posRoundTrip 0 2 false false _ _ trivial⟩
      (List.Forall₂.cons
        ⟨leaf_serializeToPosFramed 0 2 false _, leaf_posRoundTrip 0 2 false false _ _ trivial⟩
        List.Forall₂.nil))
    (by decide) (by decide) rfl
    (fun k k' hk hk' hne => by
      rw [samplePair_serializeToPos_pos]
      have hk2 : k = 0 ∨ k = 1 := by omega
      have hk2' : k' = 0 ∨ k' = 1 := by omega
      rcases hk2 with rfl | rfl <;> rcases hk2' with rfl | rfl <;> simp at hne ⊢)
  ⟨by decide, h.1, h.2.2.2⟩

/-- C3, instance: row 1 of the two-row integer/string composite, read back into the empty
composite from any store that holds its bytes. -/
theorem serializeValueIntoArena_roundtrip_witness :
    (∀ c ∈ samplePair.columns, 1 < leafColumn.size c) ∧
    (serializeValueIntoArena leafColumn samplePair 1 [] none).2 = [9, 1, 98] ∧
    ∀ (m : Memory) (pos : Nat),
      holdsAt m pos (serializeValueIntoArena leafColumn samplePair 1 [] none).2 →
      (deserializeAndInsertFromArena leafColumn emptyPair m pos none).2
          = pos + (serializeValueIntoArena leafColumn samplePair 1 [] none).2.length ∧
      row leafColumn (deserializeAndInsertFromArena leafColumn emptyPair m pos none).1 0
        = row leafColumn samplePair 1 :=
  have h := serializeValueIntoArena_roundtrip leafColumn samplePair emptyPair 1 [] none
    (fun c _ => leaf_arenaAppends none c)
    (List.Forall₂.cons (leaf_arenaRoundTrip none 1 _ _ trivial)
      (List.Forall₂.cons (leaf_arenaRoundTrip none 1 _ _ trivial) List.Forall₂.nil))
    (by decide) (by decide)
  ⟨by decide, by decide, fun m pos hh => ⟨(h.2.2 m pos hh).1, (h.2.2 m pos hh).2.2.2⟩⟩

/-- C4, instance: rows 0 and 1 of the integer/string composite differ in the first child. -/
theorem compareAt_lexicographic_witness :
    samplePair.tupleSize = samplePair.tupleSize ∧
      compareAt leafColumn samplePair 0 1 samplePair 1 = -1 :=
  ⟨rfl,
    ((compareAt_lexicographic leafColumn samplePair samplePair 0 1 1 rfl).2 0 (by decide)
      (by decide) (fun i _ hi => absurd hi (Nat.not_lt_zero i))).trans (by decide)⟩

/-- C5, instance: the two-row integer/string composite. -/
theorem size_eq_every_child_size_witness :
    samplePair.columns ≠ [] ∧
    (∀ a ∈ samplePair.columns, ∀ b ∈ samplePair.columns, leafColumn.size a = leafColumn.size b) ∧
    ∀ j (hj : j < samplePair.tupleSize),
      size leafColumn samplePair = .ok (leafColumn.size (samplePair.columns.get ⟨j, hj⟩)) :=
  ⟨by decide, by decide,
    (size_eq_every_child_size leafColumn samplePair (by decide) (by decide)).2⟩

/-- C6, instance: an integer child of one row and a string child of no rows. -/
theorem create_unequal_sizes_fails_witness :
    leafColumn.size ([Leaf.uint8s [1], Leaf.strings []].get ⟨0, by decide⟩)
        ≠ leafColumn.size ([Leaf.uint8s [1], Leaf.strings []].get ⟨1, by decide⟩) ∧
      create leafColumn [Leaf.uint8s [1], Leaf.strings []] = .error .childSizeMismatch :=
  ⟨by decide,
    create_unequal_sizes_fails leafColumn [Leaf.uint8s [1], Leaf.strings []] 0 1 (by decide)
      (by decide) (by decide)⟩

/-- C7, failing input. With `indices = [0]`, `start = 2^64 - 1` and `len = 1` the sum
`start + len` wraps to 0, the check passes, and the call on the empty integer/string
composite returns normally with the composite still empty: no row is appended, where the
claim promises exactly one. -/
theorem insertSelectiveRangeFrom_wrap_appends_nothing :
    insertSelectiveRangeFrom leafColumn emptyPair samplePair [0] (2 ^ 64 - 1) 1
        = .ok emptyPair ∧
    size leafColumn emptyPair = .ok 0 ∧
    ¬ (∀ t', insertSelectiveRangeFrom leafColumn emptyPair samplePair [0] (2 ^ 64 - 1) 1
          = .ok t' →
        size leafColumn t' = .ok (0 + 1)) := by
  refine ⟨rfl, rfl, fun h => ?_⟩
  have h1 : (Except.ok 0 : Except ColumnError Nat) = .ok (0 + 1) := h emptyPair rfl
  exact absurd (Except.ok.inj h1) (by decide)

/-- An instance of the selective insert without wrap-around: rows `indices[1] = 0` and
`indices[2] = 1` of the two-row composite appended to the empty composite. -/
theorem insertSelectiveRangeFrom_appends_witness :
    1 + 2 < sizeModulus ∧ 1 + 2 ≤ [1, 0, 1].length ∧
    ∃ t', insertSelectiveRangeFrom leafColumn emptyPair samplePair [1, 0, 1] 1 2 = .ok t' ∧
      (∀ c ∈ t'.columns, leafColumn.size c = 0 + 2) ∧
      row leafColumn t' 0 = [.uint8 7, .string "a"] ∧
      row leafColumn t' 1 = [.uint8 9, .string "b"] := by
  obtain ⟨t', e, _, hs, _, hrow⟩ :=
    (insertSelectiveRangeFrom_appends leafColumn Leaf.sameKind emptyPair samplePair [1, 0, 1]
      1 2 0 (by decide) (by decide) leaf_insertFromRespects
      (List.Forall₂.cons trivial (List.Forall₂.cons trivial List.Forall₂.nil))
      (fun i h1 h2 => by
        have hi : i = 1 ∨ i = 2 := by omega
        rcases hi with rfl | rfl <;> decide)
      (by decide)).2
  exact ⟨by decide, by decide, t', e, hs, hrow 0 (by decide), hrow 1 (by decide)⟩

/-- C9, instance: row 1 of the two-row composite appended three times to the empty
composite. -/
theorem insertManyFrom_appends_witness :
    (∀ s ∈ samplePair.columns, 1 < leafColumn.size s) ∧
    ∃ t', insertManyFrom leafColumn emptyPair samplePair 1 3 = .ok t' ∧
      (∀ c ∈ t'.columns, leafColumn.size c = 0 + 3) ∧
      ∀ k, k < 3 → row leafColumn t' (0 + k) = [.uint8 9, .string "b"] := by
  obtain ⟨t', e, _, hs, _, hrow⟩ :=
    (insertManyFrom_appends leafColumn Leaf.sameKind emptyPair samplePair 1 3 0
      leaf_insertFromRespects
      (List.Forall₂.cons trivial (List.Forall₂.cons trivial List.Forall₂.nil))
      (by decide) (by decide)).2.2
  exact ⟨by decide, t', e, hs, hrow⟩

end ColumnTuple

end DB

/-! ## Value-encoding counts, byte sizes and advance-only decoding -/

namespace DB

namespace ColumnTuple

variable {Col Field : Type}

theorem CountWriteConsistent.value_count_adds_row (I : IColumn Col Field) (has_null : Bool) (c : Col)
    (hc : CountWriteConsistent I has_null c)
    (byte_size : List Nat) (hbs : byte_size.length = I.size c) (i : Nat) (hi : i < I.size c) :
    (I.countSerializeByteSize c byte_size).getD i 0
      = byte_size.getD i 0 + rowByteSize I c i := by
  have h1 := (hc (fun _ => 0) [0] byte_size i 1 (by omega) (by simp) hbs).2.2 0 (by omega)
  have h2 := (hc (fun _ => 0) [0] (List.replicate (I.size c) 0) i 1 (by omega) (by simp)
    (by simp)).2.2 0 (by omega)
  simp only [Nat.add_zero, getD_replicate_zero] at h1 h2
  unfold rowByteSize
  omega

theorem value_fold_consistent (I : IColumn Col Field) (has_null : Bool)
    (start length n : Nat) (hbound : start + length ≤ n) :
    ∀ (cs : List Col),
      (∀ c ∈ cs, CountWriteConsistent I has_null c) →
      (∀ c ∈ cs, I.size c = n) →
      ∀ (st : PosState) (byte_size : List Nat),
        byte_size.length = n → length ≤ st.pos.length →
        (cs.foldl (fun st c => I.serializeToPos c st.mem st.pos start length has_null)
            st).pos.length = st.pos.length ∧
        (cs.foldl (fun bs c => I.countSerializeByteSize c bs) byte_size).length = n ∧
        ∀ k, k < length →
          (cs.foldl (fun st c => I.serializeToPos c st.mem st.pos start length has_null)
              st).pos.getD k 0 + byte_size.getD (start + k) 0
            = st.pos.getD k 0
              + (cs.foldl (fun bs c => I.countSerializeByteSize c bs) byte_size).getD
                  (start + k) 0 ∧
          (cs.foldl (fun bs c => I.countSerializeByteSize c bs) byte_size).getD (start + k) 0
            = byte_size.getD (start + k) 0
              + (cs.map (fun c => rowByteSize I c (start + k))).sum
  | [], _, _, st, byte_size, hbs, _ => by
    simp [hbs]
  | c :: cs, hch, hsz, st, byte_size, hbs, hpos => by
    have hc := hch c (by simp)
    have hcn : I.size c = n := hsz c (by simp)
    obtain ⟨hp1, hb1, hk1⟩ := hc st.mem st.pos byte_size start length (by omega) hpos (by omega)
    obtain ⟨hp2, hb2, hk2⟩ :=
      value_fold_consistent I has_null start length n hbound cs
        (fun d hd => hch d (by simp [hd])) (fun d hd => hsz d (by simp [hd]))
        (I.serializeToPos c st.mem st.pos start length has_null)
        (I.countSerializeByteSize c byte_size) (by omega) (by omega)
    have hrow := fun k (hk : k < length) =>
      CountWriteConsistent.value_count_adds_row I has_null c hc byte_size (by omega) (start + k)
        (by omega)
    simp only [List.foldl_cons, List.map_cons, List.sum_cons]
    refine ⟨by omega, hb2, fun k hk => ?_⟩
    have a1 := hk1 k hk
    have a2 := hk2 k hk
    have a3 := hrow k hk
    omega

/-- C11. Count/write consistency of the value encoding of a composite column: if every
child's `serializeToPos` advances `pos[k]` by exactly what its `countSerializeByteSize`
adds to `byte_size[start + k]`, then for every in-bounds `start`/`length` and every
`k < length` so does the composite's; and the composite's count accumulates onto the
incoming `byte_size`: the entry it leaves is the incoming entry plus the children's
per-row counts. -/
theorem serializeToPos_advance_eq_count (I : IColumn Col Field) (t : ColumnTuple Col)
    (has_null : Bool) (mem : Memory) (pos : List Nat) (byte_size : List Nat)
    (start length : Nat)
    (hchild : ∀ c ∈ t.columns, CountWriteConsistent I has_null c)
    (hsize : ∀ c ∈ t.columns, I.size c = byte_size.length)
    (hbound : start + length ≤ byte_size.length) (hpos : length ≤ pos.length)
    (k : Nat) (hk : k < length) :
    (serializeToPos I t mem pos start length has_null).pos.getD k 0
        + byte_size.getD (start + k) 0
      = pos.getD k 0 + (countSerializeByteSize I t byte_size).getD (start + k) 0 ∧
    (countSerializeByteSize I t byte_size).getD (start + k) 0
      = byte_size.getD (start + k) 0
        + (t.columns.map (fun c => rowByteSize I c (start + k))).sum :=
  (value_fold_consistent I has_null start length byte_size.length hbound
    t.columns hchild hsize ⟨mem, pos⟩ byte_size rfl hpos).2.2 k hk

theorem serializeByteSize_fold (I : IColumn Col Field) :
    ∀ (cs : List Col) (acc : Nat),
      acc + (cs.map I.serializeByteSize).sum < sizeModulus →
      cs.foldl (fun res c => (res + I.serializeByteSize c) % sizeModulus) acc
        = acc + (cs.map I.serializeByteSize).sum
  | [], acc, _ => by simp
  | c :: cs, acc, h => by
    simp only [List.map_cons, List.sum_cons] at h
    simp only [List.foldl_cons, List.map_cons, List.sum_cons]
    rw [Nat.mod_eq_of_lt (by omega),
      serializeByteSize_fold I cs (acc + I.serializeByteSize c) (by omega)]
    omega

theorem sum_range_swap (f : Col → Nat → Nat) (sz : Nat) :
    ∀ (cs : List Col),
      ((List.range sz).map (fun n => (cs.map (fun c => f c n)).sum)).sum
        = (cs.map (fun c => ((List.range sz).map (f c)).sum)).sum
  | [] => by simp
  | c :: cs => by
    simp only [List.map_cons, List.sum_cons]
    rw [List.sum_map_add, sum_range_swap f sz cs]

theorem serializeValueIntoArena_view_length (I : IColumn Col Field) (t : ColumnTuple Col)
    (n : Nat) (collator : TiDBCollatorPtr)
    (happ : ∀ c ∈ t.columns, ArenaAppends I collator c) :
    (serializeValueIntoArena I t n [] collator).2.length
      = (t.columns.map (fun c => (arenaEncoding I collator c n).length)).sum := by
  have hfold := serializeValueIntoArena_fold I collator n t.columns happ []
  simp only [serializeValueIntoArena, hfold, List.nil_append, List.length_nil, List.drop_zero,
    List.length_flatten, List.map_map]
  rfl

theorem serializeByteSize_fold_mod (I : IColumn Col Field) :
    ∀ (cs : List Col) (acc : Nat), acc < sizeModulus →
      cs.foldl (fun res c => (res + I.serializeByteSize c) % sizeModulus) acc
        = (acc + (cs.map I.serializeByteSize).sum) % sizeModulus
  | [], acc, h => by
    simp only [List.foldl_nil, List.map_nil, List.sum_nil, Nat.add_zero]
    exact (Nat.mod_eq_of_lt h).symm
  | c :: cs, acc, _ => by
    simp only [List.foldl_cons, List.map_cons, List.sum_cons]
    rw [serializeByteSize_fold_mod I cs _ (Nat.mod_lt _ (by decide)), Nat.mod_add_mod,
      Nat.add_assoc]

/-- C12, amended. `serializeByteSize()` of a composite column is the sum of
`serializeByteSize()` over its children reduced modulo 2^64, the sum being accumulated in
`size_t`, and 0 for a composite with no children. Whenever the sum is below 2^64 it equals
the sum, and it is then the exact arena-form byte count of the whole column whenever each
child's `serializeByteSize` is the exact total length of that child's arena encodings of
all rows. -/
theorem serializeByteSize_eq_sum (I : IColumn Col Field) (t : ColumnTuple Col) :
    serializeByteSize I t = (t.columns.map I.serializeByteSize).sum % sizeModulus ∧
    (t.columns = [] → serializeByteSize I t = 0) ∧
    ((t.columns.map I.serializeByteSize).sum < sizeModulus →
      serializeByteSize I t = (t.columns.map I.serializeByteSize).sum ∧
      ∀ (collator : TiDBCollatorPtr) (sz : Nat),
        (∀ c ∈ t.columns, I.size c = sz) →
        (∀ c ∈ t.columns, ArenaAppends I collator c) →
        (∀ c ∈ t.columns, I.serializeByteSize c = arenaTotal I collator c) →
        serializeByteSize I t
          = ((List.range sz).map
              (fun n => (serializeValueIntoArena I t n [] collator).2.length)).sum) := by
  have hmod : serializeByteSize I t
      = (t.columns.map I.serializeByteSize).sum % sizeModulus := by
    have := serializeByteSize_fold_mod I t.columns 0 (by decide)
    simpa [serializeByteSize] using this
  refine ⟨hmod, fun h => by simp [serializeByteSize, h], fun hfit => ?_⟩
  have hsum : serializeByteSize I t = (t.columns.map I.serializeByteSize).sum := by
    have := serializeByteSize_fold I t.columns 0 (by simpa using hfit)
    simpa [serializeByteSize] using this
  refine ⟨hsum, fun collator sz hsz happ hexact => ?_⟩
  rw [hsum]
  have h1 : (fun n => (serializeValueIntoArena I t n [] collator).2.length)
      = fun n => (t.columns.map (fun c => (arenaEncoding I collator c n).length)).sum := by
    funext n
    exact serializeValueIntoArena_view_length I t n collator happ
  rw [h1, sum_range_swap (fun c n => (arenaEncoding I collator c n).length) sz t.columns]
  congr 1
  apply List.map_congr_left
  intro c hc
  rw [hexact c hc, arenaTotal, hsz c hc]

theorem deserializeAndAdvancePos_fold (I : IColumn Col Field) (m : Memory) (use_nt : Bool) :
    ∀ (cs : List Col), (∀ c ∈ cs, AdvanceMatchesInsert I use_nt c) → ∀ (pos : List Nat),
      cs.foldl (fun p c => I.deserializeAndAdvancePos c m p) pos
        = (deserializeColumnsFromPos I m use_nt cs pos).2
  | [], _, _ => rfl
  | c :: cs, h, pos => by
    simp only [List.foldl_cons, deserializeColumnsFromPos]
    rw [h c (by simp) m pos]
    exact deserializeAndAdvancePos_fold I m use_nt cs (fun d hd => h d (by simp [hd])) _

/-- C15. The advance-only decode of a composite column moves the cursors exactly as the
inserting decode would and materializes nothing: if each child's
`deserializeAndAdvancePos` moves the cursors as that child's
`deserializeAndInsertFromPos` does, the composite's `deserializeAndAdvancePos` leaves the
cursors where the composite's `deserializeAndInsertFromPos`, started from the same
cursors, leaves them, and leaves the composite as it was. -/
theorem deserializeAndAdvancePos_eq_insert_cursors (I : IColumn Col Field)
    (t : ColumnTuple Col) (m : Memory) (pos : List Nat) (use_nt : Bool)
    (hchild : ∀ c ∈ t.columns, AdvanceMatchesInsert I use_nt c) :
    (deserializeAndAdvancePos I t m pos).2
        = (deserializeAndInsertFromPos I t m pos use_nt).2 ∧
    (∀ k, (deserializeAndAdvancePos I t m pos).2.getD k 0
        = (deserializeAndInsertFromPos I t m pos use_nt).2.getD k 0) ∧
    (deserializeAndAdvancePos I t m pos).1 = t ∧
    ∀ i, row I (deserializeAndAdvancePos I t m pos).1 i = row I t i := by
  have h := deserializeAndAdvancePos_fold I m use_nt t.columns hchild pos
  have h2 : (deserializeAndAdvancePos I t m pos).2
      = (deserializeAndInsertFromPos I t m pos use_nt).2 := h
  exact ⟨h2, fun k => by rw [h2], rfl, fun _ => rfl⟩

end ColumnTuple

end DB

/-! ## Masks and the bulk mutations -/

namespace DB

namespace ColumnTuple

variable {Col Field : Type}

theorem mem_keptRows (filt : List Nat) (n i : Nat) :
    i ∈ keptRows filt n ↔ i < n ∧ filt.getD i 0 ≠ 0 := by
  simp [keptRows]

theorem keptRows_increasing (filt : List Nat) (n : Nat) :
    (keptRows filt n).Pairwise (· < ·) :=
  List.Pairwise.filter _ (List.pairwise_lt_range n)

theorem FilterKeepsMasked.spec (I : IColumn Col Field) (c : Col) (h : FilterKeepsMasked I c)
    (filt : List Nat) (hint : Int) (hlen : filt.length = I.size c) :
    I.size (I.filter c filt hint) = (keptRows filt (I.size c)).length ∧
    ∀ k, k < (keptRows filt (I.size c)).length →
      I.get (I.filter c filt hint) k = I.get c ((keptRows filt (I.size c)).getD k 0) := by
  have heq := h filt hint hlen
  have hsize : I.size (I.filter c filt hint) = (keptRows filt (I.size c)).length := by
    have := congrArg List.length heq
    simpa [columnRows] using this
  refine ⟨hsize, fun k hk => ?_⟩
  have hk1 : k < (columnRows I (I.filter c filt hint)).length := by
    simp [columnRows]; omega
  have hk2 : k < ((keptRows filt (I.size c)).map (I.get c)).length := by simpa using hk
  have := List.getElem_of_eq heq hk1
  rw [List.getElem_map] at this
  simp only [columnRows, List.getElem_map, List.getElem_range] at this
  rw [this, List.getD_eq_getElem _ _ hk]

/-- C13. `filter(mask, hint)` on a composite column returns a composite whose rows are
exactly the rows `i` with `mask[i]` true, in original relative order, for every child,
independently of the size hint; in particular the composite of integer child
`[10, 20, 30, 40]` and string child `["a", "b", "c", "d"]` filtered with mask
`[true, false, true, false]` has size 2 and rows `(10, "a")` and `(30, "c")`. -/
theorem filter_keeps_masked_rows :
    (∀ (Col Field : Type) (I : IColumn Col Field) (t : ColumnTuple Col) (filt : List Nat)
      (hint : Int),
      (∀ c ∈ t.columns, FilterKeepsMasked I c) →
      (∀ c ∈ t.columns, I.size c = filt.length) →
      (filter I t filt hint).tupleSize = t.tupleSize ∧
      (∀ c ∈ (filter I t filt hint).columns,
        I.size c = (keptRows filt filt.length).length) ∧
      (∀ k, k < (keptRows filt filt.length).length →
        row I (filter I t filt hint) k = row I t ((keptRows filt filt.length).getD k 0)) ∧
      (∀ i, i ∈ keptRows filt filt.length ↔ i < filt.length ∧ filt.getD i 0 ≠ 0) ∧
      (keptRows filt filt.length).Pairwise (· < ·) ∧
      ∀ (hint2 : Int) k, k < (keptRows filt filt.length).length →
        row I (filter I t filt hint2) k = row I (filter I t filt hint) k) ∧
    ∀ (hint : Int),
      size leafColumn (filter leafColumn tensPair [1, 0, 1, 0] hint) = .ok 2 ∧
      row leafColumn (filter leafColumn tensPair [1, 0, 1, 0] hint) 0
        = [.uint8 10, .string "a"] ∧
      row leafColumn (filter leafColumn tensPair [1, 0, 1, 0] hint) 1
        = [.uint8 30, .string "c"] := by
  refine ⟨fun Col Field I t filt hint hchild hsz => ?_, fun hint => ⟨rfl, rfl, rfl⟩⟩
  have hrow : ∀ (h : Int) k, k < (keptRows filt filt.length).length →
      row I (filter I t filt h) k = row I t ((keptRows filt filt.length).getD k 0) := by
    intro h k hk
    simp only [row, filter, List.map_map]
    apply List.map_congr_left
    intro c hc
    have hs := hsz c hc
    have := (FilterKeepsMasked.spec I c (hchild c hc) filt h hs.symm).2 k (by rw [hs]; exact hk)
    rw [hs] at this
    exact this
  refine ⟨by simp [filter, tupleSize], ?_, hrow hint, mem_keptRows filt filt.length,
    keptRows_increasing filt filt.length, fun hint2 k hk => ?_⟩
  · intro c' hc'
    simp only [filter, List.mem_map] at hc'
    obtain ⟨c, hc, rfl⟩ := hc'
    have hs := hsz c hc
    have := (FilterKeepsMasked.spec I c (hchild c hc) filt hint hs.symm).1
    rw [hs] at this
    exact this
  · rw [hrow hint2 k hk, hrow hint k hk]

theorem toExcept_insertRowsState (I : IColumn Col Field) (src : ColumnTuple Col) :
    ∀ (rows : List Nat) (t : ColumnTuple Col) (calls : Nat),
      rows.foldlM (fun acc n => insertFrom I acc src n) t
        = match (insertRowsState I src rows t calls).thrown with
          | none => .ok (insertRowsState I src rows t calls).state
          | some e => .error e
  | [], _, _ => rfl
  | n :: rows, t, calls => by
    rw [List.foldlM_cons]
    cases h : insertFrom I t src n with
    | error e =>
      simp only [insertRowsState, insertFromState, h]
      rfl
    | ok t1 =>
      simp only [insertRowsState, insertFromState, h]
      exact toExcept_insertRowsState I src rows t1 (calls + 1)

/-- The state-tracking embedding of `insertSelectiveRangeFrom` returns and throws as the
plain one does. -/
theorem insertSelectiveRangeFrom_eq_state (I : IColumn Col Field) (t src : ColumnTuple Col)
    (selective_offsets : List Nat) (start length : Nat) :
    insertSelectiveRangeFrom I t src selective_offsets start length
      = match (insertSelectiveRangeFromState I t src selective_offsets start length).thrown with
        | none =>
          .ok (insertSelectiveRangeFromState I t src selective_offsets start length).state
        | some e => .error e := by
  unfold insertSelectiveRangeFrom insertSelectiveRangeFromState forRangeM
  by_cases h : selective_offsets.length ≥ (start + length) % sizeModulus
  · rw [if_pos h, if_pos h, ← toExcept_insertRowsState, List.foldlM_map]
  · rw [if_neg h, if_neg h]

/-- C17. `insertSelectiveRangeFrom` is atomic with respect to its own bounds check:
whenever the check `selective_offsets.size() >= start + length` fails, the call throws the
check's error with no `insertFrom` call started, and the composite is exactly as it was
before the call. -/
theorem insertSelectiveRangeFrom_check_atomic (I : IColumn Col Field) (t src : ColumnTuple Col)
    (selective_offsets : List Nat) (start length : Nat)
    (hfail : ¬ selective_offsets.length ≥ (start + length) % sizeModulus) :
    (insertSelectiveRangeFromState I t src selective_offsets start length).thrown
        = some .runtimeCheck ∧
    (insertSelectiveRangeFromState I t src selective_offsets start length).calls = 0 ∧
    (insertSelectiveRangeFromState I t src selective_offsets start length).state = t ∧
    (∀ i, row I (insertSelectiveRangeFromState I t src selective_offsets start length).state i
        = row I t i) ∧
    insertSelectiveRangeFrom I t src selective_offsets start length = .error .runtimeCheck := by
  have h : insertSelectiveRangeFromState I t src selective_offsets start length
      = ⟨t, some .runtimeCheck, 0⟩ := by
    unfold insertSelectiveRangeFromState
    rw [if_neg hfail]
  refine ⟨by rw [h], by rw [h], by rw [h], fun i => by rw [h], ?_⟩
  unfold insertSelectiveRangeFrom
  rw [if_neg hfail]

theorem zipWith_insertFrom_sizes (I : IColumn Col Field) (R : Col → Col → Prop)
    (hgrow : AppendsGrowSize I R) (n sz : Nat) (cs ss : List Col)
    (hrel : List.Forall₂ R cs ss) :
    (∀ c ∈ cs, I.size c = sz) →
    List.Forall₂ R (List.zipWith (fun c s => I.insertFrom c s n) cs ss) ss ∧
    ∀ c ∈ List.zipWith (fun c s => I.insertFrom c s n) cs ss, I.size c = sz + 1 := by
  induction hrel with
  | nil => intro _; exact ⟨List.Forall₂.nil, by simp⟩
  | @cons c s cs ss hcs _ ih =>
    intro hsz
    obtain ⟨i1, i2⟩ := ih (fun d hd => hsz d (by simp [hd]))
    obtain ⟨g1, g2⟩ := hgrow.1 c s n hcs
    refine ⟨List.Forall₂.cons g2 i1, ?_⟩
    intro d hd
    simp only [List.zipWith_cons_cons, List.mem_cons] at hd
    rcases hd with rfl | hd
    · rw [g1, hsz c (by simp)]
    · exact i2 d hd

theorem foldlM_insertFrom_sizes (I : IColumn Col Field) (R : Col → Col → Prop)
    (hgrow : AppendsGrowSize I R) (src : ColumnTuple Col) (f : Nat → Nat) :
    ∀ (L : List Nat) (t : ColumnTuple Col) (sz : Nat),
      List.Forall₂ R t.columns src.columns → (∀ c ∈ t.columns, I.size c = sz) →
      ∃ t', L.foldlM (fun acc i => insertFrom I acc src (f i)) t = .ok t' ∧
        List.Forall₂ R t'.columns src.columns ∧ ∀ c ∈ t'.columns, I.size c = sz + L.length
  | [], t, sz, hrel, hsz => ⟨t, rfl, hrel, by simpa using hsz⟩
  | a :: L, t, sz, hrel, hsz => by
    have hstep := zipWith_insertFrom_sizes I R hgrow (f a) sz t.columns src.columns hrel hsz
    obtain ⟨t', e, r, s2⟩ := foldlM_insertFrom_sizes I R hgrow src f L
      ⟨List.zipWith (fun c s => I.insertFrom c s (f a)) t.columns src.columns⟩ (sz + 1)
      hstep.1 hstep.2
    refine ⟨t', ?_, r, ?_⟩
    · rw [List.foldlM_cons]
      have : insertFrom I t src (f a)
          = .ok ⟨List.zipWith (fun c s => I.insertFrom c s (f a)) t.columns src.columns⟩ := by
        simp [insertFrom, hrel.length_eq]
      rw [this]
      exact e
    · intro c hc; rw [s2 c hc, List.length_cons]; omega

theorem iterate_insertDefault_sizes (I : IColumn Col Field)
    (hd : ∀ (c : Col), I.size (I.insertDefault c) = I.size c + 1) :
    ∀ (n : Nat) (t : ColumnTuple Col) (sz : Nat), (∀ c ∈ t.columns, I.size c = sz) →
      ∀ c ∈ ((insertDefault I)^[n] t).columns, I.size c = sz + n
  | 0, _, _, hsz => hsz
  | n + 1, t, sz, hsz => by
    rw [Function.iterate_succ_apply]
    intro c hc
    rw [iterate_insertDefault_sizes I hd n (insertDefault I t) (sz + 1) (by
      intro c' hc'
      simp only [insertDefault, List.mem_map] at hc'
      obtain ⟨c0, h0, rfl⟩ := hc'
      rw [hd, hsz c0 h0]) c hc]
    omega

theorem deserializeColumnsFromPos_sizes (I : IColumn Col Field) (m : Memory) (use_nt : Bool)
    (hg : ∀ (c : Col) (m : Memory) (pos : List Nat) (use_nt : Bool),
      I.size (I.deserializeAndInsertFromPos c m pos use_nt).1 = I.size c + pos.length ∧
      (I.deserializeAndInsertFromPos c m pos use_nt).2.length = pos.length) (sz : Nat) :
    ∀ (cs : List Col) (pos : List Nat), (∀ c ∈ cs, I.size c = sz) →
      ∀ c ∈ (deserializeColumnsFromPos I m use_nt cs pos).1, I.size c = sz + pos.length
  | [], _, _ => by simp [deserializeColumnsFromPos]
  | c :: cs, pos, hsz => by
    intro d hd
    simp only [deserializeColumnsFromPos, List.mem_cons] at hd
    rcases hd with rfl | hd
    · rw [(hg c m pos use_nt).1, hsz c (by simp)]
    · have := deserializeColumnsFromPos_sizes I m use_nt hg sz cs
        (I.deserializeAndInsertFromPos c m pos use_nt).2 (fun c' h => hsz c' (by simp [h])) d hd
      rw [this, (hg c m pos use_nt).2]

/-- The equal-length invariant under the bulk mutations, on arguments where
`start + length` does not wrap around: if all children have size `sz` before the call,
then after a successful `insertManyFrom`, `insertSelectiveRangeFrom`,
`insertManyDefaults` or `deserializeAndInsertFromPos` all children have the same size
again, grown by `length`, `length`, `length` and `pos.size()` respectively. -/
theorem bulk_mutations_keep_equal_sizes (I : IColumn Col Field) (R : Col → Col → Prop)
    (t src : ColumnTuple Col) (sz : Nat) (hgrow : AppendsGrowSize I R)
    (hshape : List.Forall₂ R t.columns src.columns)
    (hsz : ∀ c ∈ t.columns, I.size c = sz) :
    (∀ (n length : Nat) (t' : ColumnTuple Col),
      insertManyFrom I t src n length = .ok t' → ∀ c ∈ t'.columns, I.size c = sz + length) ∧
    (∀ (selective_offsets : List Nat) (start length : Nat) (t' : ColumnTuple Col),
      start + length < sizeModulus →
      insertSelectiveRangeFrom I t src selective_offsets start length = .ok t' →
      ∀ c ∈ t'.columns, I.size c = sz + length) ∧
    (∀ (length : Nat), ∀ c ∈ (insertManyDefaults I t length).columns, I.size c = sz + length) ∧
    (∀ (m : Memory) (pos : List Nat) (use_nt : Bool),
      ∀ c ∈ (deserializeAndInsertFromPos I t m pos use_nt).1.columns,
        I.size c = sz + pos.length) := by
  refine ⟨fun n length t' h => ?_, fun offs start length t' hwrap h => ?_, fun length => ?_,
    fun m pos use_nt => ?_⟩
  · obtain ⟨t2, e, _, s2⟩ := foldlM_insertFrom_sizes I R hgrow src (fun _ => n)
      (List.range' 0 (length - 0)) t sz hshape hsz
    have e' : insertManyFrom I t src n length = .ok t2 := e
    rw [e'] at h
    cases h
    intro c hc; rw [s2 c hc]; simp
  · rw [insertSelectiveRangeFrom_of_no_wrap I t src offs start length hwrap] at h
    by_cases hcheck : start + length ≤ offs.length
    · rw [if_pos hcheck] at h
      obtain ⟨t2, e, _, s2⟩ := foldlM_insertFrom_sizes I R hgrow src
        (fun i => offs.getD i 0) (List.range' start length) t sz hshape hsz
      rw [e] at h
      cases h
      intro c hc; rw [s2 c hc]; simp
    · rw [if_neg hcheck] at h
      cases h
  · rw [insertManyDefaults_eq_iterate]
    exact iterate_insertDefault_sizes I hgrow.2.1 length t sz hsz
  · exact deserializeColumnsFromPos_sizes I m use_nt hgrow.2.2 sz t.columns pos hsz

/-- C16, failing input. With `indices = [0, 1]`, `start = 2^64 - 1` and `len = 3` the sum
`start + len` wraps to 2, the check passes, and the call on the two-row composite returns
normally with both children still of size 2: they have equal sizes, but have not grown
by `len`. -/
theorem insertSelectiveRangeFrom_wrap_sizes_not_grown :
    insertSelectiveRangeFrom leafColumn samplePair samplePair [0, 1] (2 ^ 64 - 1) 3
        = .ok samplePair ∧
    (∀ c ∈ samplePair.columns, leafColumn.size c = 2) ∧
    ¬ (∀ t', insertSelectiveRangeFrom leafColumn samplePair samplePair [0, 1] (2 ^ 64 - 1) 3
          = .ok t' →
        ∀ c ∈ t'.columns, leafColumn.size c = 2 + 3) := by
  refine ⟨rfl, by decide, fun h => ?_⟩
  have h1 := h samplePair rfl (.uint8s [7, 9]) (by decide)
  revert h1
  decide

end ColumnTuple

end DB

/-! ## The leaf columns satisfy the remaining contracts -/

namespace DB

open ColumnTuple

theorem leaf_countWriteConsistent (has_null : Bool) (c : Leaf) :
    CountWriteConsistent leafColumn has_null c := by
  intro mem pos byte_size start length h1 h2 h3
  have h1' : start + length ≤ c.size := h1
  have h3' : byte_size.length = c.size := h3
  refine ⟨Leaf.writeRows_pos_length c length start mem pos, Leaf.countRows_length c byte_size,
    fun k hk => ?_⟩
  show (c.writeRows start length mem pos).pos.getD k 0 + byte_size.getD (start + k) 0
    = pos.getD k 0 + (c.countRows byte_size).getD (start + k) 0
  rw [Leaf.writeRows_pos_getD c length start mem pos k hk (by omega),
    Leaf.countRows_getD c byte_size (start + k) (by omega) (by omega)]
  omega

theorem Leaf.decodeRow_snd (c : Leaf) (m : Memory) (a : Nat) :
    (c.decodeRow m a).2 = c.skipRow m a := by
  cases c <;> rfl

theorem Leaf.skipRow_decodeRow (c : Leaf) (m : Memory) (a : Nat) :
    (c.decodeRow m a).1.skipRow m = c.skipRow m := by
  cases c <;> rfl

theorem Leaf.readRows_snd (m : Memory) :
    ∀ (pos : List Nat) (c : Leaf), (c.readRows m pos).2 = pos.map (c.skipRow m)
  | [], _ => rfl
  | a :: pos, c => by
    simp only [Leaf.readRows, List.map_cons]
    rw [Leaf.readRows_snd m pos, Leaf.decodeRow_snd, Leaf.skipRow_decodeRow]

theorem leaf_advanceMatchesInsert (use_nt : Bool) (c : Leaf) :
    AdvanceMatchesInsert leafColumn use_nt c := by
  intro m pos
  exact (Leaf.readRows_snd m pos c).symm

theorem map_range_getD {α β : Type} (l : List α) (d : α) (f : α → β) :
    (List.range l.length).map (fun k => f (l.getD k d)) = l.map f := by
  apply List.ext_getElem
  · simp
  · intro i h1 h2
    have hi : i < l.length := by simpa using h2
    rw [List.getElem_map, List.getElem_map, List.getElem_range, List.getD_eq_getElem _ _ hi]

theorem leaf_filterKeepsMasked (c : Leaf) : FilterKeepsMasked leafColumn c := by
  intro filt hint _
  cases c with
  | uint8s d =>
    show (List.range ((keptRows filt d.length).map (fun i => d.getD i 0)).length).map
        (fun k => LeafField.uint8 (((keptRows filt d.length).map (fun i => d.getD i 0)).getD k 0))
      = (keptRows filt d.length).map (fun i => LeafField.uint8 (d.getD i 0))
    rw [map_range_getD _ (0 : Fin 256) LeafField.uint8, List.map_map]
    rfl
  | strings d =>
    show (List.range ((keptRows filt d.length).map (fun i => d.getD i "")).length).map
        (fun k => LeafField.string (((keptRows filt d.length).map (fun i => d.getD i "")).getD k ""))
      = (keptRows filt d.length).map (fun i => LeafField.string (d.getD i ""))
    rw [map_range_getD _ "" LeafField.string, List.map_map]
    rfl

theorem leaf_serializeByteSize_exact (collator : TiDBCollatorPtr) (c : Leaf) :
    leafColumn.serializeByteSize c = arenaTotal leafColumn collator c := by
  have henc : ∀ n, arenaEncoding leafColumn collator c n = c.encodeRow n :=
    fun n => List.nil_append _
  simp only [arenaTotal, henc]
  rfl

theorem Leaf.readRows_size (m : Memory) :
    ∀ (pos : List Nat) (c : Leaf),
      (c.readRows m pos).1.size = c.size + pos.length ∧ (c.readRows m pos).2.length = pos.length
  | [], _ => ⟨rfl, rfl⟩
  | a :: pos, c => by
    obtain ⟨h1, h2⟩ := Leaf.readRows_size m pos (c.decodeRow m a).1
    have hs : (c.decodeRow m a).1.size = c.size + 1 := by
      cases c <;> simp [Leaf.decodeRow, Leaf.size]
    simp only [Leaf.readRows, List.length_cons]
    exact ⟨by omega, by omega⟩

theorem leaf_appendsGrowSize : AppendsGrowSize leafColumn Leaf.sameKind := by
  refine ⟨fun d s n hR => ?_, fun c => (leaf_insertDefaultAppends c).1,
    fun c m pos _ => Leaf.readRows_size m pos c⟩
  cases d <;> cases s <;>
    first
      | exact absurd hR (fun h => h)
      | exact ⟨by simp [leafColumn, Leaf.insertFrom, Leaf.size], trivial⟩

namespace ColumnTuple

/-- C11, instance: the two-row integer/string composite written through cursors 100 and
200 onto a `byte_size` of `[5, 6]`. -/
theorem serializeToPos_advance_eq_count_witness :
    (∀ c ∈ samplePair.columns, leafColumn.size c = [5, 6].length) ∧
    (serializeToPos leafColumn samplePair (fun _ => 0) [100, 200] 0 2 false).pos.getD 1 0
        + [5, 6].getD (0 + 1) 0
      = [100, 200].getD 1 0
        + (countSerializeByteSize leafColumn samplePair [5, 6]).getD (0 + 1) 0 ∧
    (countSerializeByteSize leafColumn samplePair [5, 6]).getD (0 + 1) 0
      = [5, 6].getD (0 + 1) 0
        + (samplePair.columns.map (fun c => rowByteSize leafColumn c (0 + 1))).sum :=
  ⟨by decide,
    serializeToPos_advance_eq_count leafColumn samplePair false (fun _ => 0) [100, 200]
      [5, 6] 0 2 (fun c _ => leaf_countWriteConsistent false c) (by decide) (by decide)
      (by decide) 1 (by decide)⟩

/-- C12, instance: the two-row integer/string composite, 2 bytes for the integers and 4
for the strings. -/
theorem serializeByteSize_eq_sum_witness :
    (samplePair.columns.map leafColumn.serializeByteSize).sum < sizeModulus ∧
    serializeByteSize leafColumn samplePair = 2 + 4 ∧
    serializeByteSize leafColumn samplePair
      = ((List.range 2).map
          (fun n => (serializeValueIntoArena leafColumn samplePair n [] none).2.length)).sum :=
  have h := (serializeByteSize_eq_sum leafColumn samplePair).2.2 (by decide)
  ⟨by decide, h.1.trans (by decide),
    h.2 none 2 (by decide) (fun c _ => leaf_arenaAppends none c)
      (fun c _ => leaf_serializeByteSize_exact none c)⟩

/-- C12, counterexample. Two children that each report 2^63 bytes: the sum is 2^64, the
composite reports 0. -/
theorem serializeByteSize_wraps :
    (samplePair.columns.map hugeColumn.serializeByteSize).sum = 2 ^ 64 ∧
    serializeByteSize hugeColumn samplePair = 0 ∧
    serializeByteSize hugeColumn samplePair
      ≠ (samplePair.columns.map hugeColumn.serializeByteSize).sum := by
  refine ⟨by decide, by decide, by decide⟩

/-- C13, instance: the general statement on the four-row integer/string composite. -/
theorem filter_keeps_masked_rows_witness :
    (∀ c ∈ tensPair.columns, leafColumn.size c = [1, 0, 1, 0].length) ∧
    (∀ c ∈ (filter leafColumn tensPair [1, 0, 1, 0] (-1)).columns,
      leafColumn.size c = (keptRows [1, 0, 1, 0] [1, 0, 1, 0].length).length) ∧
    ∀ k, k < (keptRows [1, 0, 1, 0] [1, 0, 1, 0].length).length →
      row leafColumn (filter leafColumn tensPair [1, 0, 1, 0] (-1)) k
        = row leafColumn tensPair ((keptRows [1, 0, 1, 0] [1, 0, 1, 0].length).getD k 0) :=
  have h := filter_keeps_masked_rows.1 Leaf LeafField leafColumn tensPair [1, 0, 1, 0] (-1)
    (fun c _ => leaf_filterKeepsMasked c) (by decide)
  ⟨by decide, h.2.1, h.2.2.1⟩

/-- C15, instance: the two-row integer/string composite skipped over in the all-zero store
from cursors 100 and 200. -/
theorem deserializeAndAdvancePos_eq_insert_cursors_witness :
    (deserializeAndAdvancePos leafColumn samplePair (fun _ => 0) [100, 200]).2
        = (deserializeAndInsertFromPos leafColumn samplePair (fun _ => 0) [100, 200] false).2 ∧
    (deserializeAndAdvancePos leafColumn samplePair (fun _ => 0) [100, 200]).1 = samplePair :=
  have h := deserializeAndAdvancePos_eq_insert_cursors leafColumn samplePair (fun _ => 0)
    [100, 200] false (fun c _ => leaf_advanceMatchesInsert false c)
  ⟨h.1, h.2.2.1⟩

/-- C17, instance: three rows requested from a one-entry index list. -/
theorem insertSelectiveRangeFrom_check_atomic_witness :
    ¬ [0].length ≥ (0 + 3) % sizeModulus ∧
    (insertSelectiveRangeFromState leafColumn samplePair samplePair [0] 0 3).state
        = samplePair ∧
    (insertSelectiveRangeFromState leafColumn samplePair samplePair [0] 0 3).calls = 0 ∧
    insertSelectiveRangeFrom leafColumn samplePair samplePair [0] 0 3 = .error .runtimeCheck :=
  have h := insertSelectiveRangeFrom_check_atomic leafColumn samplePair samplePair [0] 0 3
    (by decide)
  ⟨by decide, h.2.2.1, h.2.1, h.2.2.2.2⟩

/-- An instance of the equal-length invariant: three copies of row 1 appended to the
two-row composite. -/
theorem bulk_mutations_keep_equal_sizes_instance :
    ∀ t', insertManyFrom leafColumn samplePair samplePair 1 3 = .ok t' →
      ∀ c ∈ t'.columns, leafColumn.size c = 2 + 3 :=
  (bulk_mutations_keep_equal_sizes leafColumn Leaf.sameKind samplePair samplePair 2
    leaf_appendsGrowSize
    (List.Forall₂.cons trivial (List.Forall₂.cons trivial List.Forall₂.nil))
    (by decide)).1 1 3

end ColumnTuple

end DB

/-! ## The logical expressions optimizer: chains and IN expressions -/

namespace DB

namespace LogicalExpressionsOptimizer

variable {Field : Type}

theorem sameTypeAsFirst_iff [Inhabited Field] (E : OptimizerEnv Field) (h : ASTHeap Field)
    (first_literal : ASTPtr) :
    ∀ (fs : List ASTPtr),
      sameTypeAsFirst E h first_literal fs = true ↔
        ∀ f ∈ fs, E.getType (literalValue h ((getFunctionOperands h f).getD 1 0))
          = E.getType (literalValue h first_literal)
  | [] => by simp [sameTypeAsFirst]
  | f :: fs => by
    have ih := sameTypeAsFirst_iff E h first_literal fs
    by_cases hf : E.getType (literalValue h ((getFunctionOperands h f).getD 1 0))
        = E.getType (literalValue h first_literal)
    · simp only [sameTypeAsFirst, ne_eq, hf, not_true_eq_false, if_false, ih]
      constructor
      · intro hall g hg
        rcases List.mem_cons.mp hg with rfl | hg
        · exact hf
        · exact hall g hg
      · intro hall g hg
        exact hall g (List.mem_cons_of_mem _ hg)
    · simp only [sameTypeAsFirst, ne_eq, hf, not_false_eq_true, if_true]
      constructor
      · intro hc; cases hc
      · intro hall
        exact absurd (hall f (List.mem_cons_self _ _)) hf

/-- C18. `mayOptimizeDisjunctiveEqualityChain` returns true for a non-empty chain if and
only if the number of equalities in the chain is at least the setting
`optimize_min_equality_disjunction_chain_length` and the right-hand literal of every
equality in the chain has the same value type as the literal of the first equality. -/
theorem mayOptimizeDisjunctiveEqualityChain_iff [Inhabited Field] (E : OptimizerEnv Field)
    (h : ASTHeap Field) (optimize_min_equality_disjunction_chain_length : Nat)
    (chain : DisjunctiveEqualityChain) (hne : chain.2.functions ≠ []) :
    mayOptimizeDisjunctiveEqualityChain E h optimize_min_equality_disjunction_chain_length chain
        = true ↔
      optimize_min_equality_disjunction_chain_length ≤ chain.2.functions.length ∧
      ∀ f ∈ chain.2.functions,
        E.getType (literalValue h ((getFunctionOperands h f).getD 1 0))
          = E.getType (literalValue h
              ((getFunctionOperands h (chain.2.functions.head hne)).getD 1 0)) := by
  obtain ⟨key, fs, processed⟩ := chain
  cases fs with
  | nil => exact absurd rfl hne
  | cons f0 rest =>
    simp only [mayOptimizeDisjunctiveEqualityChain, List.getD_cons_zero, List.drop_succ_cons,
      List.drop_zero, List.head_cons, List.length_cons]
    by_cases hlen : rest.length + 1 < optimize_min_equality_disjunction_chain_length
    · simp only [hlen, if_true]
      constructor
      · intro hc; cases hc
      · rintro ⟨h1, _⟩; omega
    · simp only [hlen, if_false, sameTypeAsFirst_iff]
      constructor
      · intro hall
        refine ⟨by omega, fun f hf => ?_⟩
        rcases List.mem_cons.mp hf with rfl | hf
        · rfl
        · exact hall f hf
      · rintro ⟨_, hall⟩ f hf
        exact hall f (List.mem_cons_of_mem _ hf)

theorem node_addInExpression [Inhabited Field] (E : OptimizerEnv Field) (h : ASTHeap Field)
    (chain : DisjunctiveEqualityChain)
    (hor : chain.1.or_function < h.next)
    (hargs : operandsNode h chain.1.or_function < h.next)
    (hf0 : chain.2.functions.getD 0 0 < h.next)
    (hargs0 : operandsNode h (chain.2.functions.getD 0 0) < h.next) (q : ASTPtr) :
    (addInExpression E h chain).node q
      = if q = operandsNode h chain.1.or_function then
          ⟨(h.node q).kind, getFunctionOperands h chain.1.or_function ++ [h.next + 3]⟩
        else if q = h.next + 3 then
          ⟨.function "in" chain.1.alias_name (h.next + 2), [h.next + 2]⟩
        else if q = h.next + 2 then
          ⟨.expressionList,
            [(getFunctionOperands h (chain.2.functions.getD 0 0)).getD 0 0, h.next + 1]⟩
        else if q = h.next + 1 then ⟨.function "tuple" "" h.next, [h.next]⟩
        else if q = h.next then
          ⟨.expressionList, E.sort (literalLess E h) (chainLiterals h chain.2.functions)⟩
        else h.node q := by
  have e1 : ∀ x : Nat, x < h.next → x ≠ h.next := fun x hx => Nat.ne_of_lt hx
  have e2 : ∀ x : Nat, x < h.next → x ≠ h.next + 1 := fun x hx =>
    Nat.ne_of_lt (Nat.lt_succ_of_lt hx)
  have e3 : ∀ x : Nat, x < h.next → x ≠ h.next + 1 + 1 := fun x hx =>
    Nat.ne_of_lt (Nat.lt_succ_of_lt (Nat.lt_succ_of_lt hx))
  have e4 : ∀ x : Nat, x < h.next → x ≠ h.next + 1 + 1 + 1 := fun x hx =>
    Nat.ne_of_lt (Nat.lt_succ_of_lt (Nat.lt_succ_of_lt (Nat.lt_succ_of_lt hx)))
  have a1 : h.next + 1 + 1 = h.next + 2 := rfl
  have a2 : h.next + 1 + 1 + 1 = h.next + 3 := rfl
  have hargs' : (h.node chain.1.or_function).children.getD 0 0 < h.next := hargs
  have hargs0' : (h.node (chain.2.functions.getD 0 0)).children.getD 0 0 < h.next := hargs0
  simp only [addInExpression, makeShared, setFunctionOperands, getFunctionOperands,
    operandsNode, Function.update_apply, e1 _ hor, e2 _ hor, e3 _ hor, e4 _ hor, e1 _ hargs',
    e2 _ hargs', e3 _ hargs', e4 _ hargs', e1 _ hf0, e1 _ hargs0', if_false]
  by_cases hq : q = (h.node chain.1.or_function).children.getD 0 0
  · subst hq
    simp only [if_true, a2]
  · simp only [hq, if_false, a1, a2]

end LogicalExpressionsOptimizer

end DB

namespace DB

namespace LogicalExpressionsOptimizer

variable {Field : Type}

theorem addInExpression_nodes [Inhabited Field] (E : OptimizerEnv Field) (h : ASTHeap Field)
    (chain : DisjunctiveEqualityChain) (hch : ChainAllocated h chain) :
    (addInExpression E h chain).node chain.1.or_function = h.node chain.1.or_function ∧
    (addInExpression E h chain).node (operandsNode h chain.1.or_function)
      = ⟨(h.node (operandsNode h chain.1.or_function)).kind,
          getFunctionOperands h chain.1.or_function ++ [h.next + 3]⟩ ∧
    (addInExpression E h chain).node (h.next + 3)
      = ⟨.function "in" chain.1.alias_name (h.next + 2), [h.next + 2]⟩ ∧
    (addInExpression E h chain).node (h.next + 2)
      = ⟨.expressionList,
          [(getFunctionOperands h (chain.2.functions.getD 0 0)).getD 0 0, h.next + 1]⟩ ∧
    (addInExpression E h chain).node (h.next + 1) = ⟨.function "tuple" "" h.next, [h.next]⟩ ∧
    (addInExpression E h chain).node h.next
      = ⟨.expressionList, E.sort (literalLess E h) (chainLiterals h chain.2.functions)⟩ ∧
    ∀ p ∈ chainLiterals h chain.2.functions, (addInExpression E h chain).node p = h.node p := by
  obtain ⟨hor, hargs, hne, hf0, hargs0, hlit⟩ := hch
  have N := node_addInExpression E h chain hor hargs hf0 hargs0
  have b0 : h.next ≠ operandsNode h chain.1.or_function := (Nat.ne_of_lt hargs).symm
  have b1 : h.next + 1 ≠ operandsNode h chain.1.or_function :=
    (Nat.ne_of_lt (Nat.lt_succ_of_lt hargs)).symm
  have b2 : h.next + 2 ≠ operandsNode h chain.1.or_function :=
    (Nat.ne_of_lt (Nat.lt_succ_of_lt (Nat.lt_succ_of_lt hargs))).symm
  have b3 : h.next + 3 ≠ operandsNode h chain.1.or_function :=
    (Nat.ne_of_lt (Nat.lt_succ_of_lt (Nat.lt_succ_of_lt (Nat.lt_succ_of_lt hargs)))).symm
  have lo : ∀ x : Nat, x < h.next →
      x ≠ h.next + 3 ∧ x ≠ h.next + 2 ∧ x ≠ h.next + 1 ∧ x ≠ h.next := fun x hx =>
    ⟨Nat.ne_of_lt (Nat.lt_succ_of_lt (Nat.lt_succ_of_lt (Nat.lt_succ_of_lt hx))),
      Nat.ne_of_lt (Nat.lt_succ_of_lt (Nat.lt_succ_of_lt hx)),
      Nat.ne_of_lt (Nat.lt_succ_of_lt hx), Nat.ne_of_lt hx⟩
  have key : ∀ n : Nat, n + 2 ≠ n + 3 ∧ n + 1 ≠ n + 3 ∧ n + 1 ≠ n + 2 ∧ n ≠ n + 3 ∧
      n ≠ n + 2 ∧ n ≠ n + 1 := fun n => by omega
  obtain ⟨d23, d13, d12, d03, d02, d01⟩ := key h.next
  refine ⟨?_, ?_, ?_, ?_, ?_, ?_, ?_⟩
  · rw [N]
    obtain ⟨c3, c2, c1, c0⟩ := lo _ hor
    simp only [hne.symm, c3, c2, c1, c0, if_false]
  · rw [N]
    simp only [if_true]
  · rw [N]
    simp only [b3, if_false, if_true]
  · rw [N]
    simp only [b2, d23, if_false, if_true]
  · rw [N]
    simp only [b1, d13, d12, if_false, if_true]
  · rw [N]
    simp only [b0, d03, d02, d01, if_false, if_true]
  · intro p hp
    obtain ⟨hlt, hpa⟩ := hlit p hp
    obtain ⟨c3, c2, c1, c0⟩ := lo _ hlt
    rw [N]
    simp only [hpa, c3, c2, c1, c0, if_false]

end LogicalExpressionsOptimizer

end DB

namespace DB

namespace LogicalExpressionsOptimizer

variable {Field : Type}

theorem addInExpression_value_list [Inhabited Field] (E : OptimizerEnv Field)
    (h : ASTHeap Field) (chain : DisjunctiveEqualityChain) (hch : ChainAllocated h chain) :
    getFunctionOperands (addInExpression E h chain) (h.next + 3)
      = [(getFunctionOperands h (chain.2.functions.getD 0 0)).getD 0 0, h.next + 1] ∧
    getFunctionOperands (addInExpression E h chain) (h.next + 1)
      = E.sort (literalLess E h) (chainLiterals h chain.2.functions) := by
  obtain ⟨_, _, n3, n2, n1, n0, _⟩ := addInExpression_nodes E h chain hch
  constructor
  · simp only [getFunctionOperands, operandsNode, n3, List.getD_cons_zero, n2]
  · simp only [getFunctionOperands, operandsNode, n1, List.getD_cons_zero, n0]

theorem StrictWeakOrder.literalLess [Inhabited Field] {E : OptimizerEnv Field}
    (hless : StrictWeakOrder E.less) (h : ASTHeap Field) :
    StrictWeakOrder (literalLess E h) :=
  ⟨fun _ => hless.1 _, fun _ _ _ => hless.2.1 _ _ _, fun _ _ _ => hless.2.2 _ _ _⟩

end LogicalExpressionsOptimizer

end DB

namespace DB

namespace LogicalExpressionsOptimizer

/-- C18 on the sample: the chain of three equalities over literals of one type may be
optimized when the setting is 3 and may not when it is 4. -/
theorem mayOptimizeDisjunctiveEqualityChain_iff_witness :
    sampleChain.2.functions ≠ [] ∧
    mayOptimizeDisjunctiveEqualityChain sampleEnv sampleHeap 3 sampleChain = true ∧
    ¬ mayOptimizeDisjunctiveEqualityChain sampleEnv sampleHeap 4 sampleChain = true :=
  ⟨by decide,
    (mayOptimizeDisjunctiveEqualityChain_iff sampleEnv sampleHeap 3 sampleChain
      (by decide)).mpr ⟨by decide, by decide⟩,
    fun hc => absurd ((mayOptimizeDisjunctiveEqualityChain_iff sampleEnv sampleHeap 4
      sampleChain (by decide)).mp hc).1 (by decide)⟩

end LogicalExpressionsOptimizer

end DB

/-! ## The logical expressions optimizer: cleaning up the OR expressions -/

namespace DB

namespace LogicalExpressionsOptimizer

variable {Field : Type}

theorem any_key_iff (gm : List (ASTPtr × Nat)) (k : ASTPtr) :
    gm.any (fun e => e.1 == k) = true ↔ k ∈ gm.map Prod.fst := by
  simp only [List.any_eq_true, beq_iff_eq, List.mem_map]

theorem find_cons (e : ASTPtr × Nat) (gm : List (ASTPtr × Nat)) (k : ASTPtr) :
    find (e :: gm) k = if e.1 = k then some e.2 else find gm k := by
  by_cases hk : e.1 = k
  · simp [find, List.find?_cons, hk]
  · simp [find, List.find?_cons, hk]

theorem find_eq_none_of_not_mem :
    ∀ (gm : List (ASTPtr × Nat)) (k : ASTPtr), k ∉ gm.map Prod.fst → find gm k = none
  | [], _, _ => rfl
  | e :: gm, k, hk => by
    rw [List.map_cons, List.mem_cons, not_or] at hk
    rw [find_cons, if_neg (fun hc => hk.1 hc.symm)]
    exact find_eq_none_of_not_mem gm k hk.2

theorem find_isSome_of_mem :
    ∀ (gm : List (ASTPtr × Nat)) (k : ASTPtr), k ∈ gm.map Prod.fst → ∃ v, find gm k = some v
  | [], _, hk => by cases hk
  | e :: gm, k, hk => by
    rw [find_cons]
    by_cases he : e.1 = k
    · exact ⟨e.2, by rw [if_pos he]⟩
    · rw [if_neg he]
      rw [List.map_cons, List.mem_cons] at hk
      rcases hk with hk | hk
      · exact absurd hk.symm he
      · exact find_isSome_of_mem gm k hk

theorem mem_of_find :
    ∀ (gm : List (ASTPtr × Nat)) (k : ASTPtr) (v : Nat), find gm k = some v → (k, v) ∈ gm
  | [], _, _, hf => by cases hf
  | e :: gm, k, v, hf => by
    rw [find_cons] at hf
    by_cases he : e.1 = k
    · rw [if_pos he] at hf
      cases hf
      subst he
      exact List.mem_cons_self _ _
    · rw [if_neg he] at hf
      exact List.mem_cons_of_mem _ (mem_of_find gm k v hf)

theorem find_append_singleton :
    ∀ (gm : List (ASTPtr × Nat)) (k : ASTPtr) (v : Nat) (k1 : ASTPtr),
      find (gm ++ [(k, v)]) k1
        = match find gm k1 with
          | some x => some x
          | none => if k = k1 then some v else none
  | [], k, v, k1 => by
    rw [List.nil_append, find_cons]
    rfl
  | e :: gm, k, v, k1 => by
    rw [List.cons_append, find_cons, find_cons]
    by_cases he : e.1 = k1
    · rw [if_pos he, if_pos he]
    · rw [if_neg he, if_neg he]
      exact find_append_singleton gm k v k1

theorem keys_assign (gm : List (ASTPtr × Nat)) (k : ASTPtr) (v : Nat) :
    (assign gm k v).map Prod.fst = gm.map Prod.fst := by
  simp only [assign, List.map_map]
  refine List.map_congr_left ?_
  intro e _
  by_cases he : e.1 = k
  · simp [he]
  · simp [he]

theorem find_assign :
    ∀ (gm : List (ASTPtr × Nat)) (k : ASTPtr) (v : Nat) (k1 : ASTPtr),
      find (assign gm k v) k1
        = if k1 = k then (find gm k).map (fun _ => v) else find gm k1
  | [], k, v, k1 => by
    by_cases hk : k1 = k
    · rw [if_pos hk]; rfl
    · rw [if_neg hk]; rfl
  | e :: gm, k, v, k1 => by
    have ih := find_assign gm k v k1
    have hcons : assign (e :: gm) k v
        = (if e.1 == k then (e.1, v) else e) :: assign gm k v := rfl
    rw [hcons, find_cons, find_cons, find_cons, ih]
    by_cases he : e.1 = k
    · subst he
      by_cases hk : k1 = e.1
      · subst hk
        simp
      · have hk2 : ¬ e.1 = k1 := fun hc => hk hc.symm
        simp [hk, hk2]
    · by_cases hk : k1 = k
      · subst hk
        simp [he]
      · by_cases hek : e.1 = k1
        · simp [he, hk, hek]
        · simp [he, hk, hek]

end LogicalExpressionsOptimizer

end DB

namespace DB

namespace LogicalExpressionsOptimizer

variable {Field : Type}

theorem OperandListsOwned.operandsNode_ne {h : ASTHeap Field} {touched : ASTPtr → Prop}
    (hown : OperandListsOwned h touched) {g1 g2 : ASTPtr} (h1 : touched g1)
    (h2 : touched g2) : operandsNode h g1 ≠ g2 := by
  intro hc
  obtain ⟨⟨name, al, args, hk⟩, _⟩ := hown.1 g2 h2
  have hl := (hown.1 g1 h1).2
  rw [hc, hk] at hl
  cases hl

theorem SameOutsideOperands.operandsNode_eq {h h1 : ASTHeap Field} {touched : ASTPtr → Prop}
    (hown : OperandListsOwned h touched) (hF : SameOutsideOperands h h1 touched)
    {g : ASTPtr} (hg : touched g) : operandsNode h1 g = operandsNode h g := by
  have hn : h1.node g = h.node g := hF g (fun g1 hg1 => hown.operandsNode_ne hg1 hg)
  simp only [operandsNode, hn]

theorem setFunctionOperands_spec {h h1 : ASTHeap Field} {touched : ASTPtr → Prop}
    (hown : OperandListsOwned h touched) (hF : SameOutsideOperands h h1 touched)
    {g : ASTPtr} (hg : touched g) (operands : List ASTPtr) :
    SameOutsideOperands h (setFunctionOperands h1 g operands) touched ∧
    ((setFunctionOperands h1 g operands).node (operandsNode h g)).children = operands ∧
    ∀ q, q ≠ operandsNode h g → (setFunctionOperands h1 g operands).node q = h1.node q := by
  have ha := hF.operandsNode_eq hown hg
  have hnode : ∀ q, (setFunctionOperands h1 g operands).node q
      = if q = operandsNode h g then
          { h1.node (operandsNode h g) with children := operands }
        else h1.node q := by
    intro q
    simp only [setFunctionOperands, ha, Function.update_apply]
  refine ⟨?_, ?_, ?_⟩
  · intro q hq
    rw [hnode, if_neg (fun hc => hq g hg hc.symm)]
    exact hF q hq
  · rw [hnode, if_pos rfl]
  · intro q hq
    rw [hnode, if_neg hq]

theorem getFunctionOperands_of_same {h h1 : ASTHeap Field} {touched : ASTPtr → Prop}
    (hown : OperandListsOwned h touched) (hF : SameOutsideOperands h h1 touched)
    {g : ASTPtr} (hg : touched g) :
    getFunctionOperands h1 g = (h1.node (operandsNode h g)).children := by
  simp only [getFunctionOperands, hF.operandsNode_eq hown hg]

theorem initGarbageMap_keys (h : ASTHeap Field) :
    ∀ (chains : List DisjunctiveEqualityChain) (gm : List (ASTPtr × Nat)) (k : ASTPtr),
      k ∈ (initGarbageMap h chains gm).map Prod.fst ↔
        k ∈ gm.map Prod.fst ∨ HasProcessedChain chains k
  | [], gm, k => by
    simp [initGarbageMap, HasProcessedChain]
  | c :: chains, gm, k => by
    have hcons : HasProcessedChain (c :: chains) k ↔
        (c.2.is_processed = true ∧ c.1.or_function = k) ∨ HasProcessedChain chains k := by
      simp only [HasProcessedChain, List.exists_mem_cons_iff]
    rw [hcons]
    by_cases hp : c.2.is_processed = true
    · simp only [initGarbageMap, hp, Bool.not_true, Bool.false_eq_true, if_false]
      rw [initGarbageMap_keys h chains _ k]
      by_cases hin : c.1.or_function ∈ gm.map Prod.fst
      · rw [emplace, if_pos ((any_key_iff _ _).mpr hin)]
        constructor
        · rintro (hk | hk)
          · exact Or.inl hk
          · exact Or.inr (Or.inr hk)
        · rintro (hk | ⟨_, hk⟩ | hk)
          · exact Or.inl hk
          · exact Or.inl (hk ▸ hin)
          · exact Or.inr hk
      · rw [emplace, if_neg (fun hc => hin ((any_key_iff _ _).mp hc))]
        simp only [List.map_append, List.map_cons, List.map_nil, List.mem_append,
          List.mem_singleton, hp, true_and]
        constructor
        · rintro ((hk | hk) | hk)
          · exact Or.inl hk
          · exact Or.inr (Or.inl hk.symm)
          · exact Or.inr (Or.inr hk)
        · rintro (hk | hk | hk)
          · exact Or.inl (Or.inl hk)
          · exact Or.inl (Or.inr hk.symm)
          · exact Or.inr hk
    · have hp2 : c.2.is_processed = false := by simpa using hp
      simp only [initGarbageMap, hp2, Bool.not_false, if_true, Bool.false_eq_true, false_and,
        false_or]
      exact initGarbageMap_keys h chains gm k

theorem initGarbageMap_nodup (h : ASTHeap Field) :
    ∀ (chains : List DisjunctiveEqualityChain) (gm : List (ASTPtr × Nat)),
      (gm.map Prod.fst).Nodup → ((initGarbageMap h chains gm).map Prod.fst).Nodup
  | [], gm, hnd => hnd
  | c :: chains, gm, hnd => by
    by_cases hp : c.2.is_processed = true
    · simp only [initGarbageMap, hp, Bool.not_true, Bool.false_eq_true, if_false]
      refine initGarbageMap_nodup h chains _ ?_
      by_cases hin : c.1.or_function ∈ gm.map Prod.fst
      · rw [emplace, if_pos ((any_key_iff _ _).mpr hin)]
        exact hnd
      · rw [emplace, if_neg (fun hc => hin ((any_key_iff _ _).mp hc))]
        rw [List.map_append, List.map_cons, List.map_nil]
        exact List.Nodup.append hnd (List.nodup_singleton _)
          (List.disjoint_singleton.mpr hin)
    · have hp2 : c.2.is_processed = false := by simpa using hp
      simp only [initGarbageMap, hp2, Bool.not_false, if_true]
      exact initGarbageMap_nodup h chains gm hnd

theorem initGarbageMap_find (h : ASTHeap Field) (f : ASTPtr) :
    ∀ (chains : List DisjunctiveEqualityChain) (gm : List (ASTPtr × Nat)),
      (find gm f = some (getFunctionOperands h f).length
        ∨ (f ∉ gm.map Prod.fst ∧ HasProcessedChain chains f)) →
      find (initGarbageMap h chains gm) f = some (getFunctionOperands h f).length
  | [], gm, hyp => by
    rcases hyp with hf | ⟨_, c, hc, _⟩
    · exact hf
    · cases hc
  | c :: chains, gm, hyp => by
    by_cases hp : c.2.is_processed = true
    · simp only [initGarbageMap, hp, Bool.not_true, Bool.false_eq_true, if_false]
      refine initGarbageMap_find h f chains _ ?_
      by_cases hin : c.1.or_function ∈ gm.map Prod.fst
      · rw [emplace, if_pos ((any_key_iff _ _).mpr hin)]
        rcases hyp with hf | ⟨hnot, c1, hc1, hp1, hf1⟩
        · exact Or.inl hf
        · rcases List.mem_cons.mp hc1 with rfl | hc1
          · exact absurd (hf1 ▸ hin) hnot
          · exact Or.inr ⟨hnot, c1, hc1, hp1, hf1⟩
      · rw [emplace, if_neg (fun hc => hin ((any_key_iff _ _).mp hc))]
        rw [find_append_singleton]
        rcases hyp with hf | ⟨hnot, c1, hc1, hp1, hf1⟩
        · rw [hf]; exact Or.inl rfl
        · rw [find_eq_none_of_not_mem gm f hnot]
          by_cases hcf : c.1.or_function = f
          · left
            simp only [hcf, if_true]
          · right
            refine ⟨?_, ?_⟩
            · rw [List.map_append, List.mem_append, not_or]
              exact ⟨hnot, by simpa using fun hc => hcf hc.symm⟩
            · rcases List.mem_cons.mp hc1 with rfl | hc1
              · exact absurd hf1 hcf
              · exact ⟨c1, hc1, hp1, hf1⟩
    · have hp2 : c.2.is_processed = false := by simpa using hp
      simp only [initGarbageMap, hp2, Bool.not_false, if_true]
      refine initGarbageMap_find h f chains gm ?_
      rcases hyp with hf | ⟨hnot, c1, hc1, hp1, hf1⟩
      · exact Or.inl hf
      · rcases List.mem_cons.mp hc1 with rfl | hc1
        · exact absurd hp1 hp
        · exact Or.inr ⟨hnot, c1, hc1, hp1, hf1⟩

end LogicalExpressionsOptimizer

end DB

namespace DB

namespace LogicalExpressionsOptimizer

variable {Field : Type}

theorem isReplacedEquality_cons (c : DisjunctiveEqualityChain)
    (cs : List DisjunctiveEqualityChain) (f op : ASTPtr) :
    isReplacedEquality (c :: cs) f op
      = ((c.2.is_processed && c.1.or_function == f && c.2.functions.contains op)
          || isReplacedEquality cs f op) := by
  simp only [isReplacedEquality, List.any_cons]

theorem removeIf_take (E : OptimizerEnv Field) (pred : ASTPtr → Bool) (xs rest : List ASTPtr) :
    ((removeIf E pred xs).1 ++ rest).take (removeIf E pred xs).2
      = xs.filter (fun x => !pred x) := by
  simp only [removeIf, List.append_assoc]
  exact List.take_left _ _

theorem collectGarbage_spec (E : OptimizerEnv Field) (h : ASTHeap Field)
    (touched : ASTPtr → Prop) (hown : OperandListsOwned h touched) :
    ∀ (cs : List DisjunctiveEqualityChain) (h1 : ASTHeap Field) (gm : List (ASTPtr × Nat)),
      (∀ c ∈ cs, c.2.is_processed = true → touched c.1.or_function) →
      (∀ c ∈ cs, c.2.is_processed = true →
        ∀ x, E.binary_search c.2.functions x = true ↔ x ∈ c.2.functions) →
      SameOutsideOperands h h1 touched →
      (∀ g, touched g → g ∈ gm.map Prod.fst) →
      ∃ h2 gm2, collectGarbage E cs h1 gm = .ok (h2, gm2) ∧
        SameOutsideOperands h h2 touched ∧ gm2.map Prod.fst = gm.map Prod.fst ∧
        ∀ f, touched f → ∀ fe, find gm f = some fe →
          ∃ fe2, find gm2 f = some fe2 ∧
            ((h2.node (operandsNode h f)).children).take fe2
              = (((h1.node (operandsNode h f)).children).take fe).filter
                  (fun op => !isReplacedEquality cs f op)
  | [], h1, gm, _, _, hF, _ => by
    refine ⟨h1, gm, rfl, hF, rfl, ?_⟩
    intro f _ fe hfe
    refine ⟨fe, hfe, ?_⟩
    simp [isReplacedEquality]
  | c :: cs, h1, gm, htouched, hbs, hF, hkeys => by
    have htouched2 : ∀ c1 ∈ cs, c1.2.is_processed = true → touched c1.1.or_function :=
      fun c1 hc1 => htouched c1 (List.mem_cons_of_mem _ hc1)
    have hbs2 : ∀ c1 ∈ cs, c1.2.is_processed = true →
        ∀ x, E.binary_search c1.2.functions x = true ↔ x ∈ c1.2.functions :=
      fun c1 hc1 => hbs c1 (List.mem_cons_of_mem _ hc1)
    by_cases hp : c.2.is_processed = true
    · have hg : touched c.1.or_function := htouched c (List.mem_cons_self _ _) hp
      obtain ⟨feg, hfeg⟩ := find_isSome_of_mem gm _ (hkeys _ hg)
      obtain ⟨hF1, hchild, hother⟩ := setFunctionOperands_spec hown hF hg
        ((removeIf E (fun operand => E.binary_search c.2.functions operand)
            ((getFunctionOperands h1 c.1.or_function).take feg)).1
          ++ (getFunctionOperands h1 c.1.or_function).drop feg)
      have hkeys1 : ∀ g, touched g →
          g ∈ (assign gm c.1.or_function
            (removeIf E (fun operand => E.binary_search c.2.functions operand)
              ((getFunctionOperands h1 c.1.or_function).take feg)).2).map Prod.fst := by
        intro g hgt
        rw [keys_assign]
        exact hkeys g hgt
      obtain ⟨h2, gm2, heq, hF2, hk2, hper⟩ :=
        collectGarbage_spec E h touched hown cs _ _ htouched2 hbs2 hF1 hkeys1
      refine ⟨h2, gm2, ?_, hF2, ?_, ?_⟩
      · simp only [collectGarbage, hp, Bool.not_true, Bool.false_eq_true, if_false, hfeg]
        exact heq
      · rw [hk2, keys_assign]
      · intro f hf fe hfe
        by_cases hfg : f = c.1.or_function
        · subst hfg
          have hfe2 : fe = feg := Option.some.inj (hfe.symm.trans hfeg)
          subst hfe2
          obtain ⟨fe2, hfind2, htake2⟩ := hper _ hf _
            (by rw [find_assign, if_pos rfl, hfeg]; rfl)
          refine ⟨fe2, hfind2, ?_⟩
          rw [htake2, hchild, removeIf_take, getFunctionOperands_of_same hown hF hf,
            List.filter_filter]
          refine List.filter_congr ?_
          intro op _
          rw [isReplacedEquality_cons, hp]
          have hc : c.2.functions.contains op
              = E.binary_search c.2.functions op := by
            rw [Bool.eq_iff_iff, hbs c (List.mem_cons_self _ _) hp op]
            simp
          rw [hc]
          simp only [Bool.true_and, beq_self_eq_true, Bool.not_or]
          exact Bool.and_comm _ _
        · have hne : operandsNode h f ≠ operandsNode h c.1.or_function :=
            fun hc => hfg (hown.2 _ _ hf hg hc)
          obtain ⟨fe2, hfind2, htake2⟩ := hper f hf fe
            (by rw [find_assign, if_neg hfg]; exact hfe)
          refine ⟨fe2, hfind2, ?_⟩
          rw [htake2, hother _ hne]
          refine List.filter_congr ?_
          intro op _
          rw [isReplacedEquality_cons]
          have hb : (c.1.or_function == f) = false := by
            simpa using fun hc => hfg hc.symm
          simp only [hb, Bool.and_false, Bool.false_and, Bool.false_or]
    · have hp2 : c.2.is_processed = false := by simpa using hp
      obtain ⟨h2, gm2, heq, hF2, hk2, hper⟩ :=
        collectGarbage_spec E h touched hown cs h1 gm htouched2 hbs2 hF hkeys
      refine ⟨h2, gm2, ?_, hF2, hk2, ?_⟩
      · simp only [collectGarbage, hp2, Bool.not_false, if_true]
        exact heq
      · intro f hf fe hfe
        obtain ⟨fe2, hfind2, htake2⟩ := hper f hf fe hfe
        refine ⟨fe2, hfind2, ?_⟩
        rw [htake2]
        refine List.filter_congr ?_
        intro op _
        rw [isReplacedEquality_cons, hp2]
        simp only [Bool.false_and, Bool.false_or]

theorem deleteGarbage_spec (h : ASTHeap Field) (touched : ASTPtr → Prop)
    (hown : OperandListsOwned h touched) :
    ∀ (entries : List (ASTPtr × Nat)) (h1 : ASTHeap Field),
      SameOutsideOperands h h1 touched →
      (∀ g ∈ entries.map Prod.fst, touched g) →
      (entries.map Prod.fst).Nodup →
      SameOutsideOperands h (deleteGarbage h1 entries) touched ∧
      (∀ f, touched f → f ∉ entries.map Prod.fst →
        (deleteGarbage h1 entries).node (operandsNode h f) = h1.node (operandsNode h f)) ∧
      ∀ f fe, (f, fe) ∈ entries →
        ((deleteGarbage h1 entries).node (operandsNode h f)).children
          = ((h1.node (operandsNode h f)).children).take fe
  | [], h1, hF, _, _ => ⟨hF, fun _ _ _ => rfl, fun _ _ hm => by cases hm⟩
  | e :: entries, h1, hF, hkeys, hnd => by
    have hg : touched e.1 := hkeys e.1 (List.mem_cons_self _ _)
    obtain ⟨hF1, hchild, hother⟩ := setFunctionOperands_spec hown hF hg
      ((getFunctionOperands h1 e.1).take e.2)
    rw [List.map_cons, List.nodup_cons] at hnd
    obtain ⟨hF2, hskip, htake⟩ := deleteGarbage_spec h touched hown entries _ hF1
      (fun g hgm => hkeys g (List.mem_cons_of_mem _ hgm)) hnd.2
    refine ⟨hF2, ?_, ?_⟩
    · intro f hf hnot
      rw [List.map_cons, List.mem_cons, not_or] at hnot
      have hne : operandsNode h f ≠ operandsNode h e.1 :=
        fun hc => hnot.1 (hown.2 _ _ hf hg hc)
      show (deleteGarbage _ entries).node _ = _
      rw [hskip f hf hnot.2, hother _ hne]
    · intro f fe hm
      show ((deleteGarbage _ entries).node _).children = _
      rcases List.mem_cons.mp hm with heq | hm
      · subst heq
        rw [hskip _ hg hnd.1, hchild, getFunctionOperands_of_same hown hF hg]
      · have hfk : f ∈ entries.map Prod.fst := List.mem_map.mpr ⟨(f, fe), hm, rfl⟩
        have hfe : f ≠ e.1 := fun hc => hnd.1 (hc ▸ hfk)
        have hf : touched f := hkeys f (List.mem_cons_of_mem _ hfk)
        have hne : operandsNode h f ≠ operandsNode h e.1 :=
          fun hc => hfe (hown.2 _ _ hf hg hc)
        rw [htake f fe hm, hother _ hne]

end LogicalExpressionsOptimizer

end DB

namespace DB

namespace LogicalExpressionsOptimizer

variable {Field : Type}

/-- The last loop of `collectDisjunctiveEqualityChains` leaves the equality functions of
every chain ordered by address, which is what `std::binary_search` in
`cleanupOrExpressions` relies on. -/
theorem sortEqualityFunctions_sorted (E : OptimizerEnv Field)
    (hsort : ∀ l, SortsBy E.sort (fun a b => decide (a < b)) l) :
    ∀ (chains : List DisjunctiveEqualityChain),
      ∀ c ∈ sortEqualityFunctions E chains, c.2.functions.Pairwise (· ≤ ·)
  | [], c, hc => by cases hc
  | chain :: chains, c, hc => by
    rcases List.mem_cons.mp hc with rfl | hc
    · refine (hsort chain.2.functions).2.imp ?_
      intro a b hab
      have : ¬ b < a := by simpa using hab
      exact Nat.le_of_not_lt this
    · exact sortEqualityFunctions_sorted E hsort chains c hc

/-- C20. `cleanupOrExpressions` succeeds and removes from the operand list of each OR
function that has a processed chain exactly the operands that are equality functions of a
processed chain of that OR function, keeping the other operands in their order; every
other node, and so the operand list of every OR function without a processed chain, is
unchanged. -/
theorem cleanupOrExpressions_removes_equalities (E : OptimizerEnv Field)
    (h : ASTHeap Field) (chains : List DisjunctiveEqualityChain)
    (hown : OperandListsOwned h (HasProcessedChain chains))
    (hbs : BinarySearchFinds E.binary_search)
    (hsorted : ∀ c ∈ chains, c.2.is_processed = true → c.2.functions.Pairwise (· ≤ ·))
    (hiter : ∀ l, (E.unordered_order l).Perm l) :
    ∃ h1, cleanupOrExpressions E h chains = .ok h1 ∧
      (∀ f, HasProcessedChain chains f →
        getFunctionOperands h1 f
          = (getFunctionOperands h f).filter (fun op => !isReplacedEquality chains f op)) ∧
      SameOutsideOperands h h1 (HasProcessedChain chains) ∧
      ∀ g, (∀ f, HasProcessedChain chains f →
          operandsNode h f ≠ g ∧ operandsNode h f ≠ operandsNode h g) →
        getFunctionOperands h1 g = getFunctionOperands h g := by
  have hkeys0 : ∀ g, HasProcessedChain chains g →
      g ∈ (initGarbageMap h chains []).map Prod.fst :=
    fun g hg => (initGarbageMap_keys h chains [] g).mpr (Or.inr hg)
  obtain ⟨h2, gm2, heq, hF2, hk2, hper⟩ :=
    collectGarbage_spec E h (HasProcessedChain chains) hown chains h
      (initGarbageMap h chains []) (fun c hc hp => ⟨c, hc, hp, rfl⟩)
      (fun c hc hp x => hbs _ x (hsorted c hc hp)) (fun _ _ => rfl) hkeys0
  have hpk : ((E.unordered_order gm2).map Prod.fst).Perm
      ((initGarbageMap h chains []).map Prod.fst) := by
    rw [← hk2]
    exact (hiter gm2).map _
  have hnd : ((E.unordered_order gm2).map Prod.fst).Nodup :=
    hpk.nodup_iff.mpr (initGarbageMap_nodup h chains [] List.nodup_nil)
  have hsub : ∀ g ∈ (E.unordered_order gm2).map Prod.fst, HasProcessedChain chains g := by
    intro g hg
    rcases (initGarbageMap_keys h chains [] g).mp (hpk.subset hg) with hc | hc
    · cases hc
    · exact hc
  obtain ⟨hF3, _, htake⟩ := deleteGarbage_spec h (HasProcessedChain chains) hown
    (E.unordered_order gm2) h2 hF2 hsub hnd
  refine ⟨deleteGarbage h2 (E.unordered_order gm2), ?_, ?_, hF3, ?_⟩
  · simp only [cleanupOrExpressions, heq]
  · intro f hf
    have hfind0 := initGarbageMap_find h f chains []
      (Or.inr ⟨by simp, hf⟩)
    obtain ⟨fe2, hfind2, htake2⟩ := hper f hf _ hfind0
    have hmem : (f, fe2) ∈ E.unordered_order gm2 :=
      (hiter gm2).symm.subset (mem_of_find gm2 f fe2 hfind2)
    rw [getFunctionOperands_of_same hown hF3 hf, htake f fe2 hmem, htake2]
    have hops : (h.node (operandsNode h f)).children = getFunctionOperands h f := rfl
    rw [hops, List.take_length]
  · intro g hg
    have hn1 : (deleteGarbage h2 (E.unordered_order gm2)).node g = h.node g :=
      hF3 g (fun f hf => (hg f hf).1)
    have hn2 : (deleteGarbage h2 (E.unordered_order gm2)).node (operandsNode h g)
        = h.node (operandsNode h g) :=
      hF3 _ (fun f hf => (hg f hf).2)
    simp only [getFunctionOperands, operandsNode, hn1]
    exact congrArg IAST.children hn2

theorem sampleChains_owned : OperandListsOwned sampleHeap (HasProcessedChain sampleChains) := by
  have hone : ∀ g, HasProcessedChain sampleChains g → g = 1 := by
    rintro g ⟨c, hc, _, rfl⟩
    simp only [sampleChains, List.mem_cons, List.mem_singleton, List.not_mem_nil,
      or_false] at hc
    rcases hc with hc | hc
    · rw [hc]
    · rw [hc]
  refine ⟨?_, ?_⟩
  · intro g hg
    rw [hone g hg]
    exact ⟨⟨"or", "x", 2, rfl⟩, rfl⟩
  · intro g1 g2 h1 h2 _
    rw [hone g1 h1, hone g2 h2]

theorem sampleEnv_binarySearchFinds : BinarySearchFinds sampleEnv.binary_search := by
  intro l x _
  simp [sampleEnv]

/-- C20 on the sample: the equalities at 10, 20 and 40 leave the operands of the OR
function at address 1, the equality at 30 stays. -/
theorem cleanupOrExpressions_removes_equalities_witness :
    OperandListsOwned sampleHeap (HasProcessedChain sampleChains) ∧
    BinarySearchFinds sampleEnv.binary_search ∧
    ∃ h1, cleanupOrExpressions sampleEnv sampleHeap sampleChains = .ok h1 ∧
      getFunctionOperands h1 1 = [30] := by
  obtain ⟨h1, heq, hops, -, -⟩ := cleanupOrExpressions_removes_equalities sampleEnv sampleHeap
    sampleChains sampleChains_owned sampleEnv_binarySearchFinds
    (by decide) (fun l => List.Perm.refl l)
  refine ⟨sampleChains_owned, sampleEnv_binarySearchFinds, h1, heq, ?_⟩
  rw [hops 1 ⟨_, List.mem_cons_self _ _, rfl, rfl⟩]
  decide

end LogicalExpressionsOptimizer

end DB

/-! ## The column declaration parser: accepted declarations -/

namespace DB

namespace IParserColumnDeclaration

variable {Pos Node : Type}

theorem ignoreSpecifier_eq (P : Parsers Pos Node) (hP : ParsersLawful P) (pos : Pos) :
    ignoreSpecifier P pos
      = match specifierAt P pos with
        | some q => (true, q)
        | none => (false, pos) := by
  obtain ⟨_, _, hd, hm, ha, _⟩ := hP
  have d := hd pos
  have m := hm pos
  have a := ha pos
  simp only [ignoreSpecifier, specifierAt, d.2.1]
  by_cases h1 : (P.s_default.parse pos).ok = true
  · simp only [h1, if_true]
  · have h1f : (P.s_default.parse pos).ok = false := by simpa using h1
    have e1 := (d.1 h1f).1
    simp only [h1f, Bool.false_eq_true, if_false, e1, m.2.1]
    by_cases h2 : (P.s_materialized.parse pos).ok = true
    · simp only [h2, if_true]
    · have h2f : (P.s_materialized.parse pos).ok = false := by simpa using h2
      have e2 := (m.1 h2f).1
      simp only [h2f, Bool.false_eq_true, if_false, e2, a.2.1]
      by_cases h3 : (P.s_alias.parse pos).ok = true
      · simp only [h3, if_true]
      · have h3f : (P.s_alias.parse pos).ok = false := by simpa using h3
        simp only [h3f, Bool.false_eq_true, if_false, (a.1 h3f).1]

theorem noSpecifierCheck_eq (P : Parsers Pos Node) (hP : ParsersLawful P) (pos : Pos) :
    (noSpecifierCheck P pos).1 = (specifierAt P pos).isNone ∧
    (specifierAt P pos = none → (noSpecifierCheck P pos).2 = pos) := by
  obtain ⟨_, _, hd, hm, ha, _⟩ := hP
  have d := hd pos
  have m := hm pos
  have a := ha pos
  simp only [noSpecifierCheck, specifierAt, d.2.2]
  by_cases h1 : (P.s_default.parse pos).ok = true
  · simp [h1]
  · have h1f : (P.s_default.parse pos).ok = false := by simpa using h1
    simp only [h1f, Bool.false_eq_true, if_false, m.2.2]
    by_cases h2 : (P.s_materialized.parse pos).ok = true
    · simp [h2]
    · have h2f : (P.s_materialized.parse pos).ok = false := by simpa using h2
      simp only [h2f, Bool.false_eq_true, if_false, a.2.2]
      by_cases h3 : (P.s_alias.parse pos).ok = true
      · simp [h3]
      · have h3f : (P.s_alias.parse pos).ok = false := by simpa using h3
        simp [h3f]

theorem makeDeclaration_ok (P : Parsers Pos Node) (pos : Pos) (n : Node) (s : String)
    (hn : P.identifierName n = some s) (type : Option Node) (default_specifier : String)
    (default_expression : Option Node) :
    ∃ r, makeDeclaration P pos (some n) type default_specifier default_expression = .ok r ∧
      r.ok = true := by
  simp only [makeDeclaration, hn]
  exact ⟨_, rfl, rfl⟩

end IParserColumnDeclaration

end DB

namespace DB

namespace IParserColumnDeclaration

variable {Pos Node : Type}

theorem parseImpl_flag (P : Parsers Pos Node) (hP : ParsersLawful P) (pos : Pos) :
    ∃ r, parseImpl P pos = .ok r ∧ (r.ok = true ↔ WellFormed P pos) := by
  have hig := ignoreSpecifier_eq P hP
  have hno := noSpecifierCheck_eq P hP
  obtain ⟨_, htl, _, _, _, _, hname, htype⟩ := hP
  by_cases hn : (P.nameParser.parse pos).ok = true
  · obtain ⟨n, s, hnode, hid⟩ := hname pos hn
    cases hs1 : specifierAt P (P.nameParser.parse pos).pos with
    | some q =>
      have hc : (noSpecifierCheck P (P.nameParser.parse pos).pos).1 = false := by
        rw [(hno _).1, hs1]; rfl
      have hi := hig (P.nameParser.parse pos).pos
      rw [hs1] at hi
      by_cases he : (P.exprParser.parse q).ok = true
      · obtain ⟨r, hr, hok⟩ := makeDeclaration_ok P (P.exprParser.parse q).pos n s hid none
          (P.upperTokenText (P.nameParser.parse pos).pos) (P.exprParser.parse q).node
        refine ⟨r, ?_, ?_⟩
        · simp only [parseImpl, hn, hc, hi, he, hnode, Bool.not_true, Bool.false_eq_true,
            if_false, if_true]
          exact hr
        · simp [WellFormed, hok, hn, hs1, he]
      · have hef : (P.exprParser.parse q).ok = false := by simpa using he
        refine ⟨⟨false, (P.exprParser.parse q).pos, none⟩, ?_, ?_⟩
        · simp only [parseImpl, hn, hc, hi, hef, Bool.not_true, Bool.not_false,
            Bool.false_eq_true, if_false, if_true]
        · simp [WellFormed, hn, hs1, hef]
    | none =>
      have hc : (noSpecifierCheck P (P.nameParser.parse pos).pos).1 = true := by
        rw [(hno _).1, hs1]; rfl
      have hcp := (hno _).2 hs1
      by_cases ht : (P.typeParser.parse (P.nameParser.parse pos).pos).ok = true
      · have htn := htype _ ht
        obtain ⟨tn, htn2⟩ := Option.isSome_iff_exists.mp htn
        have hi := hig (P.typeParser.parse (P.nameParser.parse pos).pos).pos
        cases hs2 : specifierAt P (P.typeParser.parse (P.nameParser.parse pos).pos).pos with
        | some q =>
          rw [hs2] at hi
          by_cases he : (P.exprParser.parse q).ok = true
          · obtain ⟨r, hr, hok⟩ := makeDeclaration_ok P (P.exprParser.parse q).pos n s hid
              (P.typeParser.parse (P.nameParser.parse pos).pos).node
              (P.upperTokenText (P.typeParser.parse (P.nameParser.parse pos).pos).pos)
              (P.exprParser.parse q).node
            refine ⟨r, ?_, ?_⟩
            · simp only [parseImpl, hn, hc, hcp, hi, he, hnode, Bool.not_true,
                Bool.false_eq_true, if_false, if_true]
              exact hr
            · simp [WellFormed, hok, hn, hs1, ht, hs2, he]
          · have hef : (P.exprParser.parse q).ok = false := by simpa using he
            refine ⟨⟨false, (P.exprParser.parse q).pos, none⟩, ?_, ?_⟩
            · simp only [parseImpl, hn, hc, hcp, hi, hef, Bool.not_true, Bool.not_false,
                Bool.false_eq_true, if_false, if_true]
            · simp [WellFormed, hn, hs1, ht, hs2, hef]
        | none =>
          rw [hs2] at hi
          obtain ⟨r, hr, hok⟩ := makeDeclaration_ok P
            (P.typeParser.parse (P.nameParser.parse pos).pos).pos n s hid
            (P.typeParser.parse (P.nameParser.parse pos).pos).node "" none
          refine ⟨r, ?_, ?_⟩
          · simp only [parseImpl, hn, hc, hcp, hi, hnode, htn2, Option.isNone_some,
              Bool.not_true, Bool.false_eq_true, if_false, if_true]
            rw [htn2] at hr
            exact hr
          · simp [WellFormed, hok, hn, hs1, ht, hs2]
      · have htf : (P.typeParser.parse (P.nameParser.parse pos).pos).ok = false := by
          simpa using ht
        obtain ⟨htp, htnode⟩ := (htl _).1 htf
        have hi := hig (P.nameParser.parse pos).pos
        rw [hs1] at hi
        refine ⟨⟨false, (P.nameParser.parse pos).pos, none⟩, ?_, ?_⟩
        · simp only [parseImpl, hn, hc, hcp, htp, hi, htnode, Option.isNone_none,
            Bool.not_true, Bool.false_eq_true, if_false, if_true]
        · simp [WellFormed, hn, hs1, htf]
  · have hnf : (P.nameParser.parse pos).ok = false := by simpa using hn
    refine ⟨⟨false, (P.nameParser.parse pos).pos, none⟩, ?_, ?_⟩
    · simp only [parseImpl, hnf, Bool.not_false, if_true]
    · simp [WellFormed, hnf]

end IParserColumnDeclaration

end DB

namespace DB

namespace IParserColumnDeclaration

variable {Pos Node : Type}

/-- C24. `IParserColumnDeclaration::parseImpl` accepts exactly the well-formed
declarations: it returns, and it returns true if and only if the column name parses and
either (a) one of the keywords DEFAULT, MATERIALIZED or ALIAS follows, immediately after
the name or after a successfully parsed type, and an expression parses after that
keyword, or (b) no such keyword follows and a type was parsed after the name. In
particular a sole column name with neither a type nor a specifier is rejected, and a
specifier keyword that is not followed by an expression is rejected. -/
theorem parseImpl_accepts_iff_wellFormed (P : Parsers Pos Node) (hP : ParsersLawful P)
    (pos : Pos) :
    ∃ r, parseImpl P pos = .ok r ∧ (r.ok = true ↔ WellFormed P pos) ∧
      ((P.nameParser.parse pos).ok = true →
        specifierAt P (P.nameParser.parse pos).pos = none →
        (P.typeParser.parse (P.nameParser.parse pos).pos).ok = false → r.ok = false) ∧
      ∀ q, (specifierAt P (P.nameParser.parse pos).pos = some q ∨
          (specifierAt P (P.nameParser.parse pos).pos = none ∧
            (P.typeParser.parse (P.nameParser.parse pos).pos).ok = true ∧
            specifierAt P (P.typeParser.parse (P.nameParser.parse pos).pos).pos = some q)) →
        (P.exprParser.parse q).ok = false → r.ok = false := by
  obtain ⟨r, hr, hiff⟩ := parseImpl_flag P hP pos
  refine ⟨r, hr, hiff, ?_, ?_⟩
  · intro _ hs ht
    rw [Bool.eq_false_iff]
    intro hok
    have hw := hiff.mp hok
    simp [WellFormed, hs, ht] at hw
  · intro q hq he
    rw [Bool.eq_false_iff]
    intro hok
    have hw := hiff.mp hok
    rcases hq with hq | ⟨hq1, hq2, hq3⟩
    · simp [WellFormed, hq, he] at hw
    · simp [WellFormed, hq1, hq2, hq3, he] at hw

theorem wordParser_lawful (accept : String → Bool) : (wordParser accept).Lawful := by
  intro pos
  cases pos with
  | nil => exact ⟨fun _ => ⟨rfl, rfl⟩, rfl, rfl⟩
  | cons w rest =>
    by_cases ha : accept w = true
    · simp [wordParser, ha]
    · have haf : accept w = false := by simpa using ha
      simp [wordParser, haf]

theorem sampleParsers_lawful : ParsersLawful sampleParsers := by
  refine ⟨wordParser_lawful _, wordParser_lawful _, wordParser_lawful _, wordParser_lawful _,
    wordParser_lawful _, wordParser_lawful _, ?_, ?_⟩
  · intro pos hok
    cases pos with
    | nil => cases hok
    | cons w rest => exact ⟨w, w, rfl, rfl⟩
  · intro pos hok
    cases pos with
    | nil => cases hok
    | cons w rest => rfl

/-- C24 on word parsers: `x UInt8 DEFAULT 5` and `x UInt8` are accepted, the sole name
`x` and `x DEFAULT` are rejected. -/
theorem parseImpl_accepts_iff_wellFormed_witness :
    ParsersLawful sampleParsers ∧
    (∃ r, parseImpl sampleParsers ["x", "UInt8", "DEFAULT", "5"] = .ok r ∧ r.ok = true) ∧
    (∃ r, parseImpl sampleParsers ["x", "UInt8"] = .ok r ∧ r.ok = true) ∧
    (∃ r, parseImpl sampleParsers ["x"] = .ok r ∧ r.ok = false) ∧
    (∃ r, parseImpl sampleParsers ["x", "DEFAULT"] = .ok r ∧ r.ok = false) := by
  refine ⟨sampleParsers_lawful, ?_, ?_, ?_, ?_⟩
  · obtain ⟨r, hr, hiff, -, -⟩ := parseImpl_accepts_iff_wellFormed sampleParsers
      sampleParsers_lawful ["x", "UInt8", "DEFAULT", "5"]
    exact ⟨r, hr, hiff.mpr ⟨rfl, Or.inl ⟨["5"], Or.inr ⟨rfl, rfl, rfl⟩, rfl⟩⟩⟩
  · obtain ⟨r, hr, hiff, -, -⟩ := parseImpl_accepts_iff_wellFormed sampleParsers
      sampleParsers_lawful ["x", "UInt8"]
    exact ⟨r, hr, hiff.mpr ⟨rfl, Or.inr ⟨rfl, rfl, rfl⟩⟩⟩
  · obtain ⟨r, hr, -, hsole, -⟩ := parseImpl_accepts_iff_wellFormed sampleParsers
      sampleParsers_lawful ["x"]
    exact ⟨r, hr, hsole rfl rfl rfl⟩
  · obtain ⟨r, hr, -, -, hkey⟩ := parseImpl_accepts_iff_wellFormed sampleParsers
      sampleParsers_lawful ["x", "DEFAULT"]
    exact ⟨r, hr, hkey [] (Or.inl rfl) rfl⟩

end IParserColumnDeclaration

end DB

/-! ## The logical expressions optimizer: restoring the order of the columns -/

namespace DB

namespace LogicalExpressionsOptimizer

variable {Field : Type}

theorem swapAt_length (l : List ASTPtr) (i j : Nat) : (swapAt l i j).length = l.length := by
  simp [swapAt]

theorem swapAt_getD (l : List ASTPtr) (i j k : Nat) (hi : i < l.length) (hj : j < l.length) :
    (swapAt l i j).getD k 0
      = if k = j then l.getD i 0 else if k = i then l.getD j 0 else l.getD k 0 := by
  simp only [swapAt, List.getD_eq_getElem?_getD, List.getElem?_set, List.length_set]
  by_cases hkj : k = j
  · subst hkj
    simp [hj]
  · have hjk : ¬ j = k := fun hc => hkj hc.symm
    simp only [hjk, hkj, if_false]
    by_cases hki : k = i
    · subst hki
      simp [hi]
    · have hik : ¬ i = k := fun hc => hki hc.symm
      simp only [hik, hki, if_false]

theorem swapAt_perm (l : List ASTPtr) (i j : Nat) (hi : i < l.length) (hj : j < l.length) :
    (swapAt l i j).Perm l := by
  rw [List.perm_iff_count]
  intro b
  have hj2 : j < (l.set i (l.getD j 0)).length := by simpa using hj
  have hle : (if l[i] == b then 1 else 0) ≤ l.count b := by
    have := List.boole_getElem_le_countP (fun x => x == b) l i hi
    simpa [List.count_eq_countP] using this
  have hmid : (l.set i (l.getD j 0))[j] = l[j] := by
    rw [List.getElem_set]
    split
    · rename_i h
      subst h
      rw [List.getD_eq_getElem _ _ hj]
    · rfl
  rw [swapAt, List.count_set _ _ _ _ hj2, List.count_set _ _ _ _ hi, hmid,
    List.getD_eq_getElem _ _ hi, List.getD_eq_getElem _ _ hj]
  by_cases h1 : (l[i] == b) = true <;> by_cases h2 : (l[j] == b) = true <;>
    simp only [h1, h2, if_true, if_false] at hle ⊢ <;> omega

end LogicalExpressionsOptimizer

end DB

namespace DB

namespace LogicalExpressionsOptimizer

variable {Field : Type}

theorem reorderLoop_done (ctp : List (ASTPtr × Nat)) (l : List ASTPtr) (cur : Nat)
    (hcur : ¬ cur < l.length) (fuel : Nat) (hf : 1 ≤ fuel) :
    reorderLoop ctp fuel l cur = (.returned, l) := by
  obtain ⟨f, rfl⟩ : ∃ f, fuel = f + 1 := ⟨fuel - 1, by omega⟩
  simp only [reorderLoop, hcur, if_false]

theorem reorderLoop_spec (ctp : List (ASTPtr × Nat)) (cols0 : List ASTPtr)
    (hnd : cols0.Nodup)
    (hpos : ∀ c ∈ cols0, ∃ p, p < cols0.length ∧ find ctp c = some p)
    (hinj : ∀ c1 ∈ cols0, ∀ c2 ∈ cols0, find ctp c1 = find ctp c2 → c1 = c2) :
    ∀ (m : Nat) (l : List ASTPtr) (cur : Nat),
      l.Perm cols0 → cur ≤ l.length →
      (∀ i, i < cur → find ctp (l.getD i 0) = some i) →
      ((Finset.range l.length).filter
          (fun i => find ctp (l.getD i 0) ≠ some i)).card + (l.length - cur) ≤ m →
      ∃ result, result.Perm cols0 ∧
        (∀ p, p < cols0.length → find ctp (result.getD p 0) = some p) ∧
        ∀ fuel, m + 1 ≤ fuel → reorderLoop ctp fuel l cur = (.returned, result) := by
  intro m
  induction m with
  | zero =>
    intro l cur hperm hcur hpre hmeas
    have hnot : ¬ cur < l.length := by omega
    have hcl : cur = l.length := by omega
    refine ⟨l, hperm, fun p hp => hpre p ?_, fun fuel hf => reorderLoop_done ctp l cur hnot fuel hf⟩
    rw [hcl, hperm.length_eq]
    exact hp
  | succ m ih =>
    intro l cur hperm hcur hpre hmeas
    have hlen : l.length = cols0.length := hperm.length_eq
    by_cases hlt : cur < l.length
    · have hmem : l.getD cur 0 ∈ cols0 := by
        rw [List.getD_eq_getElem _ _ hlt]
        exact hperm.subset (List.getElem_mem hlt)
      obtain ⟨e, he, hfe⟩ := hpos _ hmem
      by_cases hce : cur = e
      · subst hce
        obtain ⟨result, hr1, hr2, hr3⟩ := ih l (cur + 1) hperm (by omega)
          (fun i hi => by
            rcases Nat.lt_succ_iff_lt_or_eq.mp hi with h | h
            · exact hpre i h
            · rw [h]; exact hfe)
          (by omega)
        refine ⟨result, hr1, hr2, fun fuel hf => ?_⟩
        obtain ⟨f, rfl⟩ : ∃ f, fuel = f + 1 := ⟨fuel - 1, by omega⟩
        simp only [reorderLoop, hlt, if_true, hfe, ne_eq, not_true_eq_false, if_false]
        exact hr3 f (by omega)
      · have hel : e < l.length := by omega
        have hlnd : l.Nodup := hperm.nodup_iff.mpr hnd
        have hidx : ∀ a b, a < l.length → b < l.length →
            find ctp (l.getD a 0) = find ctp (l.getD b 0) → a = b := by
          intro a b ha hb hab
          rw [List.getD_eq_getElem _ _ ha, List.getD_eq_getElem _ _ hb] at hab
          have := hinj _ (hperm.subset (List.getElem_mem ha)) _
            (hperm.subset (List.getElem_mem hb)) hab
          exact (List.Nodup.getElem_inj_iff hlnd).mp this
        have hgt : cur < e := by
          rcases Nat.lt_or_ge e cur with h | h
          · exact absurd (hidx cur e hlt hel (by rw [hfe, hpre e h])) hce
          · omega
        have hne_e : find ctp (l.getD e 0) ≠ some e := by
          intro hc
          exact hce (hidx cur e hlt hel (by rw [hfe, hc]))
        have hsub : (Finset.range l.length).filter
              (fun i => find ctp ((swapAt l cur e).getD i 0) ≠ some i)
            ⊂ (Finset.range l.length).filter (fun i => find ctp (l.getD i 0) ≠ some i) := by
          rw [Finset.ssubset_iff_of_subset]
          · refine ⟨e, ?_, ?_⟩
            · simp only [Finset.mem_filter, Finset.mem_range]
              exact ⟨hel, hne_e⟩
            · simp only [Finset.mem_filter, Finset.mem_range, not_and, not_not]
              intro _
              rw [swapAt_getD l cur e e hlt hel, if_pos rfl]
              exact hfe
          · intro k
            simp only [Finset.mem_filter, Finset.mem_range]
            rintro ⟨hk, hkne⟩
            refine ⟨hk, ?_⟩
            rw [swapAt_getD l cur e k hlt hel] at hkne
            by_cases hke : k = e
            · rw [if_pos hke] at hkne
              exact absurd (hke ▸ hfe) hkne
            · rw [if_neg hke] at hkne
              by_cases hkc : k = cur
              · rw [hkc, hfe]
                intro hc
                exact hce (Option.some.inj hc).symm
              · rw [if_neg hkc] at hkne
                exact hkne
        have hcard := Finset.card_lt_card hsub
        obtain ⟨result, hr1, hr2, hr3⟩ := ih (swapAt l cur e) cur
          ((swapAt_perm l cur e hlt hel).trans hperm)
          (by rw [swapAt_length]; exact hcur)
          (fun i hi => by
            rw [swapAt_getD l cur e i hlt hel, if_neg (by omega), if_neg (by omega)]
            exact hpre i hi)
          (by rw [swapAt_length]; omega)
        refine ⟨result, hr1, hr2, fun fuel hf => ?_⟩
        obtain ⟨f, rfl⟩ : ∃ f, fuel = f + 1 := ⟨fuel - 1, by omega⟩
        simp only [reorderLoop, hlt, if_true, hfe, ne_eq, hce, not_false_eq_true, hel]
        exact hr3 f (by omega)
    · have hcl : cur = l.length := by omega
      refine ⟨l, hperm, fun p hp => hpre p ?_, fun fuel hf =>
        reorderLoop_done ctp l cur hlt fuel (by omega)⟩
      rw [hcl, hlen]
      exact hp

end LogicalExpressionsOptimizer

end DB

namespace DB

namespace LogicalExpressionsOptimizer

variable {Field : Type}

theorem setChildren_kind (h : ASTHeap Field) (p : ASTPtr) (cs : List ASTPtr) (q : ASTPtr) :
    ((setChildren h p cs).node q).kind = (h.node q).kind := by
  simp only [setChildren, Function.update_apply]
  split
  · rename_i hq
    rw [hq]
  · rfl

theorem setChildren_children (h : ASTHeap Field) (p : ASTPtr) (cs : List ASTPtr) :
    ((setChildren h p cs).node p).children = cs := by
  simp only [setChildren, Function.update_apply, if_true]

theorem selectExpressionList_setChildren (h : ASTHeap Field) (p : ASTPtr)
    (cs : List ASTPtr) (q : ASTPtr) :
    selectExpressionList (setChildren h p cs) q = selectExpressionList h q := by
  unfold selectExpressionList
  rw [setChildren_kind]

theorem columns_setChildren (s : Optimizer Field) (cs : List ASTPtr) :
    columns { s with ast := setChildren s.ast (selectExpressionList s.ast s.select_query) cs }
      = cs := by
  show ((setChildren s.ast (selectExpressionList s.ast s.select_query) cs).node
    (selectExpressionList (setChildren s.ast (selectExpressionList s.ast s.select_query) cs)
      s.select_query)).children = cs
  rw [selectExpressionList_setChildren, setChildren_children]

/-- C21. `reorderColumns` restores the recorded order of the select list: if
`column_to_position` maps the n distinct nodes of the select expression list one-to-one
into the positions 0..n-1, the swap loop terminates (2n + 1 tests of its condition are
enough), and on exit the list is a permutation of the list on entry in which, for every
index p < n, the node at index p has recorded position p. -/
theorem reorderColumns_restores_order (s : Optimizer Field)
    (hnd : (columns s).Nodup)
    (hpos : ∀ c ∈ columns s,
      ∃ p, p < (columns s).length ∧ find s.column_to_position c = some p)
    (hinj : ∀ c1 ∈ columns s, ∀ c2 ∈ columns s,
      find s.column_to_position c1 = find s.column_to_position c2 → c1 = c2) :
    ∃ result, result.Perm (columns s) ∧
      (∀ p, p < (columns s).length → find s.column_to_position (result.getD p 0) = some p) ∧
      ∀ fuel, 2 * (columns s).length + 1 ≤ fuel →
        (reorderColumns fuel s).ending = .returned ∧
        columns (reorderColumns fuel s).state = result := by
  have hcard : ((Finset.range (columns s).length).filter
      (fun i => find s.column_to_position ((columns s).getD i 0) ≠ some i)).card
      ≤ (columns s).length := by
    have := Finset.card_filter_le (Finset.range (columns s).length)
      (fun i => find s.column_to_position ((columns s).getD i 0) ≠ some i)
    simpa using this
  obtain ⟨result, hr1, hr2, hr3⟩ := reorderLoop_spec s.column_to_position (columns s) hnd hpos
    hinj (2 * (columns s).length) (columns s) 0 (List.Perm.refl _) (Nat.zero_le _)
    (fun i hi => absurd hi (Nat.not_lt_zero i)) (by omega)
  refine ⟨result, hr1, hr2, fun fuel hf => ?_⟩
  have hloop := hr3 fuel hf
  constructor
  · simp only [reorderColumns, hloop]
  · simp only [reorderColumns, hloop]
    exact columns_setChildren s result

/-- C21 on the sample: the select list `[102, 103, 104]` with recorded positions 2, 0 and 1
becomes `[103, 104, 102]`. -/
theorem reorderColumns_restores_order_witness :
    (columns shuffledOptimizer).Nodup ∧
    (reorderColumns 7 shuffledOptimizer).ending = .returned ∧
    columns (reorderColumns 7 shuffledOptimizer).state = [103, 104, 102] := by
  obtain ⟨result, -, -, hrun⟩ := reorderColumns_restores_order shuffledOptimizer
    (by decide) (by decide) (by decide)
  exact ⟨by decide, (hrun 7 (by decide)).1, by decide⟩

end LogicalExpressionsOptimizer

end DB

/-! ## The logical expressions optimizer: chains that are left alone -/

namespace DB

namespace LogicalExpressionsOptimizer

variable {Field : Type}

theorem collectLoop_frame (getTreeHash : ASTHeap Field → ASTPtr → Nat × Nat) :
    ∀ (fuel : Nat) (s : Optimizer Field) (to_visit : List Edge),
      (collectLoop getTreeHash fuel s to_visit).state.ast = s.ast ∧
      (collectLoop getTreeHash fuel s to_visit).state.processed_count = s.processed_count ∧
      (collectLoop getTreeHash fuel s to_visit).state.select_query = s.select_query ∧
      (collectLoop getTreeHash fuel s to_visit).state.column_to_position
        = s.column_to_position
  | 0, s, [] => by simp [collectLoop]
  | _ + 1, s, [] => by simp [collectLoop]
  | 0, s, _ :: _ => by simp [collectLoop]
  | fuel + 1, s, edge :: to_visit => by
    simp only [collectLoop]
    split
    · split
      · split
        · exact ⟨rfl, rfl, rfl, rfl⟩
        · exact collectLoop_frame getTreeHash fuel _ to_visit
      · exact collectLoop_frame getTreeHash fuel _ to_visit
    · exact collectLoop_frame getTreeHash fuel _ _

theorem collectDisjunctiveEqualityChains_frame (E : OptimizerEnv Field)
    (getTreeHash : ASTHeap Field → ASTPtr → Nat × Nat) (fuel : Nat) (s : Optimizer Field) :
    (collectDisjunctiveEqualityChains E getTreeHash fuel s).state.ast = s.ast ∧
    (collectDisjunctiveEqualityChains E getTreeHash fuel s).state.processed_count
      = s.processed_count ∧
    (collectDisjunctiveEqualityChains E getTreeHash fuel s).state.select_query
      = s.select_query := by
  have hf := collectLoop_frame getTreeHash fuel s [(0, s.select_query)]
  by_cases hv : s.visited_nodes.contains s.select_query = true
  · simp only [collectDisjunctiveEqualityChains, hv, if_true, and_self]
  · cases hend : (collectLoop getTreeHash fuel s [(0, s.select_query)]).ending <;>
      simp only [collectDisjunctiveEqualityChains, hv, hend, if_false, Bool.false_eq_true] <;>
      exact ⟨hf.1, hf.2.1, hf.2.2.1⟩

theorem replaceChains_none [Inhabited Field] (E : OptimizerEnv Field) (min_len : Nat)
    (h : ASTHeap Field) (processed_count : Nat) :
    ∀ (chains : List DisjunctiveEqualityChain),
      (∀ chain ∈ chains, mayOptimizeDisjunctiveEqualityChain E h min_len chain = false) →
      replaceChains E min_len chains h processed_count = (chains, h, processed_count)
  | [], _ => rfl
  | chain :: chains, hnone => by
    have h1 := hnone chain (List.mem_cons_self _ _)
    have h2 := replaceChains_none E min_len h processed_count chains
      (fun c hc => hnone c (List.mem_cons_of_mem _ hc))
    simp only [replaceChains, h1, Bool.not_false, if_true, h2]

/-- C22. Too-short or mixed-type chains are left alone: if the optimizer has processed no
chain before (or has visited the select query before) and no collected disjunctive
equality chain satisfies
`mayOptimizeDisjunctiveEqualityChain`, then `perform` leaves the query tree unchanged at
whatever point it stops: every node, so every node's children list, the order of the
select list and the WHERE and HAVING roots are the same as before the call; and `perform`
returns whenever `collectDisjunctiveEqualityChains` does. -/
theorem perform_leaves_tree_unchanged [Inhabited Field] (E : OptimizerEnv Field)
    (getTreeHash : ASTHeap Field → ASTPtr → Nat × Nat)
    (optimize_min_equality_disjunction_chain_length : Nat) (fuel : Nat)
    (s : Optimizer Field)
    (hcount : s.processed_count = 0 ∨ s.visited_nodes.contains s.select_query = true)
    (hnone : ∀ chain ∈ collectedChains E getTreeHash fuel s,
      mayOptimizeDisjunctiveEqualityChain E s.ast
        optimize_min_equality_disjunction_chain_length chain = false) :
    (perform E getTreeHash optimize_min_equality_disjunction_chain_length fuel s).state.ast
      = s.ast ∧
    (∀ q, ((perform E getTreeHash optimize_min_equality_disjunction_chain_length fuel
      s).state.ast.node q).children = (s.ast.node q).children) ∧
    columns (perform E getTreeHash optimize_min_equality_disjunction_chain_length fuel s).state
      = columns s ∧
    whereExpression
        (perform E getTreeHash optimize_min_equality_disjunction_chain_length fuel s).state.ast
        s.select_query
      = whereExpression s.ast s.select_query ∧
    havingExpression
        (perform E getTreeHash optimize_min_equality_disjunction_chain_length fuel s).state.ast
        s.select_query
      = havingExpression s.ast s.select_query ∧
    ((collectDisjunctiveEqualityChains E getTreeHash fuel (withPositions s)).ending = .returned →
      (perform E getTreeHash optimize_min_equality_disjunction_chain_length fuel s).ending
        = .returned) := by
  have hfr := collectDisjunctiveEqualityChains_frame E getTreeHash fuel (withPositions s)
  have hast : (collectDisjunctiveEqualityChains E getTreeHash fuel (withPositions s)).state.ast
      = s.ast := hfr.1
  have hpc : ¬ s.visited_nodes.contains s.select_query = true →
      (collectDisjunctiveEqualityChains E getTreeHash fuel
        (withPositions s)).state.processed_count = 0 := fun hv =>
    hfr.2.1.trans (hcount.resolve_right hv)
  have hsq : (collectDisjunctiveEqualityChains E getTreeHash fuel
      (withPositions s)).state.select_query = s.select_query := hfr.2.2
  have hrep := replaceChains_none E optimize_min_equality_disjunction_chain_length s.ast 0
    (collectedChains E getTreeHash fuel s) hnone
  have hmain : ((perform E getTreeHash optimize_min_equality_disjunction_chain_length fuel
        s).state.ast = s.ast ∧
      (perform E getTreeHash optimize_min_equality_disjunction_chain_length fuel
        s).state.select_query = s.select_query) ∧
      ((collectDisjunctiveEqualityChains E getTreeHash fuel (withPositions s)).ending
          = .returned →
        (perform E getTreeHash optimize_min_equality_disjunction_chain_length fuel s).ending
          = .returned) := by
    by_cases h0 : s.select_query = 0
    · simp only [perform, h0, if_true, implies_true, and_self]
    by_cases hv : s.visited_nodes.contains s.select_query = true
    · simp only [perform, h0, hv, if_true, if_false, implies_true, and_self]
    by_cases hp : (!(recordPositions (columns s) s.column_to_position 0).2) = true
    · simp only [perform, h0, hv, hp, if_true, if_false, Bool.false_eq_true]
      exact ⟨⟨rfl, rfl⟩, fun _ => trivial⟩
    unfold collectedChains at hrep
    have hpc0 := hpc hv
    cases hend : (collectDisjunctiveEqualityChains E getTreeHash fuel
        (withPositions s)).ending <;>
      simp only [perform, h0, hv, hp, hend, if_false, hast, hpc0, hsq, hrep, gt_iff_lt,
        Nat.lt_irrefl, implies_true, and_self, Bool.false_eq_true, false_implies,
        and_true, reduceCtorEq]
  obtain ⟨⟨hm1, hm3⟩, hm2⟩ := hmain
  refine ⟨hm1, fun q => by rw [hm1], ?_, by rw [hm1], by rw [hm1], hm2⟩
  show ((perform E getTreeHash optimize_min_equality_disjunction_chain_length fuel
    s).state.ast.node (selectExpressionList (perform E getTreeHash
      optimize_min_equality_disjunction_chain_length fuel s).state.ast
      (perform E getTreeHash optimize_min_equality_disjunction_chain_length fuel
        s).state.select_query)).children = _
  rw [hm1, hm3]
  rfl

end LogicalExpressionsOptimizer

end DB

namespace DB

namespace LogicalExpressionsOptimizer

/-- C22 on the sample: with the setting 4 neither the chain of three equalities on `a` nor
the chain of one equality on `b` may be optimized, and `perform` returns with every node
as it was. -/
theorem perform_leaves_tree_unchanged_witness :
    sampleOptimizer.processed_count = 0 ∧
    (∀ chain ∈ collectedChains sampleEnv sampleTreeHash 30 sampleOptimizer,
      mayOptimizeDisjunctiveEqualityChain sampleEnv sampleOptimizer.ast 4 chain = false) ∧
    (perform sampleEnv sampleTreeHash 4 30 sampleOptimizer).state.ast = sampleOptimizer.ast ∧
    (perform sampleEnv sampleTreeHash 4 30 sampleOptimizer).ending = .returned :=
  have h := perform_leaves_tree_unchanged sampleEnv sampleTreeHash 4 30 sampleOptimizer
    (Or.inl rfl) (by decide)
  ⟨rfl, by decide, h.1, h.2.2.2.2.2 (by decide)⟩

end LogicalExpressionsOptimizer

end DB

namespace DB

namespace LogicalExpressionsOptimizer

variable {Field : Type}

theorem collectGarbage_ok (E : OptimizerEnv Field) :
    ∀ (cs : List DisjunctiveEqualityChain) (h : ASTHeap Field) (gm : List (ASTPtr × Nat)),
      (∀ c ∈ cs, c.2.is_processed = true → c.1.or_function ∈ gm.map Prod.fst) →
      ∃ r, collectGarbage E cs h gm = .ok r
  | [], h, gm, _ => ⟨(h, gm), rfl⟩
  | c :: cs, h, gm, hkeys => by
    have hkeys2 : ∀ g : List (ASTPtr × Nat), g.map Prod.fst = gm.map Prod.fst →
        ∀ c1 ∈ cs, c1.2.is_processed = true → c1.1.or_function ∈ g.map Prod.fst :=
      fun g hg c1 hc1 hp => hg ▸ hkeys c1 (List.mem_cons_of_mem _ hc1) hp
    by_cases hp : c.2.is_processed = true
    · obtain ⟨fe, hfe⟩ := find_isSome_of_mem gm _ (hkeys c (List.mem_cons_self _ _) hp)
      simp only [collectGarbage, hp, Bool.not_true, Bool.false_eq_true, if_false, hfe]
      exact collectGarbage_ok E cs _ _ (hkeys2 _ (keys_assign _ _ _))
    · have hp2 : c.2.is_processed = false := by simpa using hp
      simp only [collectGarbage, hp2, Bool.not_false, if_true]
      exact collectGarbage_ok E cs h gm (hkeys2 gm rfl)

/-- The exception "garbage map is corrupted" is never raised: `cleanupOrExpressions`
returns for every AST and every map of chains. -/
theorem cleanupOrExpressions_returns (E : OptimizerEnv Field) (h : ASTHeap Field)
    (chains : List DisjunctiveEqualityChain) :
    ∃ h1, cleanupOrExpressions E h chains = .ok h1 := by
  obtain ⟨r, hr⟩ := collectGarbage_ok E chains h (initGarbageMap h chains [])
    (fun c hc hp => (initGarbageMap_keys h chains [] _).mpr (Or.inr ⟨c, hc, hp, rfl⟩))
  exact ⟨deleteGarbage r.1 (E.unordered_order r.2), by simp only [cleanupOrExpressions, hr]⟩

end LogicalExpressionsOptimizer

end DB

/-! ## The logical expressions optimizer: the traversal of a tree -/

namespace DB

namespace LogicalExpressionsOptimizer

variable {Field : Type}

theorem followPath_snoc (h : ASTHeap Field) :
    ∀ (path : List Nat) (p : ASTPtr) (i : Nat),
      followPath h p (path ++ [i])
        = (followPath h p path).bind (fun q => (h.node q).children[i]?)
  | [], p, i => by
    simp only [List.nil_append, followPath, Option.bind]
    cases (h.node p).children[i]? <;> rfl
  | j :: path, p, i => by
    simp only [List.cons_append, followPath]
    cases (h.node p).children[j]? with
    | none => rfl
    | some c => exact followPath_snoc h path c i

theorem reachable_child (h : ASTHeap Field) (root q c : ASTPtr) (path : List Nat)
    (hq : followPath h root path = some q) (hc : c ∈ (h.node q).children) :
    ∃ i, (h.node q).children[i]? = some c ∧ followPath h root (path ++ [i]) = some c := by
  obtain ⟨i, hi⟩ := List.mem_iff_getElem?.mp hc
  exact ⟨i, hi, by rw [followPath_snoc, hq]; exact hi⟩

theorem IsTree.not_child_root {h : ASTHeap Field} {root : ASTPtr} (ht : IsTree h root)
    {q : ASTPtr} {path : List Nat} (hq : followPath h root path = some q)
    (hc : root ∈ (h.node q).children) : False := by
  obtain ⟨i, _, hp⟩ := reachable_child h root q root path hq hc
  have := ht (path ++ [i]) [] root hp rfl
  simp at this

theorem IsTree.not_child_self {h : ASTHeap Field} {root : ASTPtr} (ht : IsTree h root)
    {q : ASTPtr} {path : List Nat} (hq : followPath h root path = some q)
    (hc : q ∈ (h.node q).children) : False := by
  obtain ⟨i, _, hp⟩ := reachable_child h root q q path hq hc
  have := ht (path ++ [i]) path q hp hq
  simp at this

theorem IsTree.parent_unique {h : ASTHeap Field} {root : ASTPtr} (ht : IsTree h root)
    {q1 q2 c : ASTPtr} {path1 path2 : List Nat} (h1 : followPath h root path1 = some q1)
    (h2 : followPath h root path2 = some q2) (hc1 : c ∈ (h.node q1).children)
    (hc2 : c ∈ (h.node q2).children) : q1 = q2 := by
  obtain ⟨i, _, hp1⟩ := reachable_child h root q1 c path1 h1 hc1
  obtain ⟨j, _, hp2⟩ := reachable_child h root q2 c path2 h2 hc2
  have heq := ht _ _ c hp1 hp2
  have hpath : path1 = path2 := (List.append_inj' heq rfl).1
  rw [hpath] at h1
  exact Option.some.inj (h1.symm.trans h2)

theorem IsTree.children_nodup {h : ASTHeap Field} {root : ASTPtr} (ht : IsTree h root)
    {q : ASTPtr} {path : List Nat} (hq : followPath h root path = some q) :
    (h.node q).children.Nodup := by
  rw [List.nodup_iff_getElem?_ne_getElem?]
  intro i j hij hj hc
  have hi : i < (h.node q).children.length := by omega
  have hpi : followPath h root (path ++ [i]) = some (h.node q).children[i] := by
    rw [followPath_snoc, hq]
    exact List.getElem?_eq_getElem hi
  have hpj : followPath h root (path ++ [j]) = some (h.node q).children[i] := by
    rw [followPath_snoc, hq]
    show (h.node q).children[j]? = _
    rw [← hc]
    exact List.getElem?_eq_getElem hi
  have heq := ht _ _ _ hpi hpj
  have : i = j := by simpa using heq
  omega

end LogicalExpressionsOptimizer

end DB

namespace DB

namespace LogicalExpressionsOptimizer

variable {Field : Type}

theorem pushEquality_keys :
    ∀ (m : List DisjunctiveEqualityChain) (key : OrWithExpression) (equals : ASTPtr)
      (c : DisjunctiveEqualityChain), c ∈ pushEquality m key equals →
      c.1.or_function = key.or_function ∨ ∃ c0 ∈ m, c0.1.or_function = c.1.or_function
  | [], key, equals, c, hc => by
    simp only [pushEquality, List.mem_singleton] at hc
    left
    rw [hc]
  | c0 :: cs, key, equals, c, hc => by
    simp only [pushEquality] at hc
    split at hc
    · rcases List.mem_cons.mp hc with rfl | hc
      · exact Or.inl rfl
      · exact Or.inr ⟨c, hc, rfl⟩
    · split at hc
      · rcases List.mem_cons.mp hc with rfl | hc
        · exact Or.inr ⟨c, List.mem_cons_self _ _, rfl⟩
        · rcases pushEquality_keys cs key equals c hc with h | ⟨c1, hc1, h⟩
          · exact Or.inl h
          · exact Or.inr ⟨c1, List.mem_cons_of_mem _ hc1, h⟩
      · rcases List.mem_cons.mp hc with rfl | hc
        · exact Or.inr ⟨c0, List.mem_cons_self _ _, rfl⟩
        · exact Or.inr ⟨c, List.mem_cons_of_mem _ hc, rfl⟩

theorem collectEqualities_spec (getTreeHash : ASTHeap Field → ASTPtr → Nat × Nat)
    (h : ASTHeap Field) (function : ASTPtr) :
    ∀ (cs : List ASTPtr) (m : List DisjunctiveEqualityChain) (found : Bool),
      (∀ c ∈ (collectEqualities getTreeHash h function cs m found).1,
        c.1.or_function = function ∨ ∃ c0 ∈ m, c0.1.or_function = c.1.or_function) ∧
      (found = true → (collectEqualities getTreeHash h function cs m found).2 = true) ∧
      ((collectEqualities getTreeHash h function cs m found).2 = false →
        (collectEqualities getTreeHash h function cs m found).1 = m)
  | [], m, found => ⟨fun c hc => Or.inr ⟨c, hc, rfl⟩, fun hf => hf, fun _ => rfl⟩
  | child :: cs, m, found => by
    by_cases he : isEqualityWithLiteral h child = true
    · simp only [collectEqualities, he, if_true]
      obtain ⟨h1, h2, _⟩ := collectEqualities_spec getTreeHash h function cs
        (pushEquality m ⟨function, getTreeHash h ((getFunctionOperands h child).getD 0 0),
          tryGetAlias h function⟩ child) true
      refine ⟨fun c hc => ?_, fun _ => h2 rfl, fun hf => ?_⟩
      · rcases h1 c hc with hl | ⟨c1, hc1, hr⟩
        · exact Or.inl hl
        · rcases pushEquality_keys m _ child c1 hc1 with hk | ⟨c2, hc2, hk⟩
          · exact Or.inl (hr ▸ hk)
          · exact Or.inr ⟨c2, hc2, hk.trans hr⟩
      · rw [h2 rfl] at hf
        cases hf
    · have hef : isEqualityWithLiteral h child = false := by simpa using he
      simp only [collectEqualities, hef, Bool.false_eq_true, if_false]
      exact collectEqualities_spec getTreeHash h function cs m found

theorem isFunctionNamed_not_selectQuery (h : ASTHeap Field) (p : ASTPtr) (name : String)
    (hf : isFunctionNamed h p name = true) : isSelectQuery h p = false := by
  unfold isFunctionNamed at hf
  unfold isSelectQuery
  cases hk : (h.node p).kind <;> simp_all

theorem findChain_spec (getTreeHash : ASTHeap Field → ASTPtr → Nat × Nat)
    (h : ASTHeap Field) (m : List DisjunctiveEqualityChain) (p : ASTPtr) :
    (∀ c ∈ (findChain getTreeHash h m p).1,
      c.1.or_function = p ∨ ∃ c0 ∈ m, c0.1.or_function = c.1.or_function) ∧
    ((findChain getTreeHash h m p).2 = true → isSelectQuery h p = false) ∧
    ((findChain getTreeHash h m p).2 = false → (findChain getTreeHash h m p).1 = m) := by
  by_cases hc : (isFunctionNamed h p "or" && isExpressionList h (operandsNode h p)) = true
  · simp only [findChain, hc, if_true]
    obtain ⟨h1, _, h3⟩ := collectEqualities_spec getTreeHash h p (getFunctionOperands h p) m false
    refine ⟨h1, fun _ => ?_, h3⟩
    rw [Bool.and_eq_true] at hc
    exact isFunctionNamed_not_selectQuery h p "or" hc.1
  · have hcf : (isFunctionNamed h p "or" && isExpressionList h (operandsNode h p)) = false := by
      simpa using hc
    have hfc : findChain getTreeHash h m p = (m, false) := by
      simp only [findChain, hcf, Bool.false_eq_true, if_false]
    rw [hfc]
    exact ⟨fun c hc => Or.inr ⟨c, hc, rfl⟩, fun hf => absurd hf (by simp), fun _ => rfl⟩

theorem mem_insertVisited (visited : List ASTPtr) (t p : ASTPtr) :
    p ∈ insertVisited visited t ↔ p ∈ visited ∨ p = t := by
  unfold insertVisited
  by_cases hc : visited.contains t = true
  · rw [if_pos hc]
    constructor
    · exact Or.inl
    · rintro (hp | rfl)
      · exact hp
      · simpa using hc
  · rw [if_neg hc]
    simp

theorem findParents_cons (e : ASTPtr × List ASTPtr) (m : List (ASTPtr × List ASTPtr))
    (k : ASTPtr) : findParents (e :: m) k = if e.1 = k then some e.2 else findParents m k := by
  by_cases hk : e.1 = k
  · simp [findParents, List.find?_cons, hk]
  · simp [findParents, List.find?_cons, hk]

theorem findParents_eq_none :
    ∀ (m : List (ASTPtr × List ASTPtr)) (k : ASTPtr), k ∉ m.map Prod.fst →
      findParents m k = none
  | [], _, _ => rfl
  | e :: m, k, hk => by
    rw [List.map_cons, List.mem_cons, not_or] at hk
    rw [findParents_cons, if_neg (fun hc => hk.1 hc.symm)]
    exact findParents_eq_none m k hk.2

theorem findParents_of_mem :
    ∀ (m : List (ASTPtr × List ASTPtr)) (k : ASTPtr), k ∈ m.map Prod.fst →
      ∃ ps, findParents m k = some ps ∧ (k, ps) ∈ m
  | [], _, hk => by cases hk
  | e :: m, k, hk => by
    rw [findParents_cons]
    by_cases he : e.1 = k
    · rw [if_pos he]
      exact ⟨e.2, rfl, by rw [← he]; exact List.mem_cons_self _ _⟩
    · rw [if_neg he]
      rw [List.map_cons, List.mem_cons] at hk
      rcases hk with hk | hk
      · exact absurd hk.symm he
      · obtain ⟨ps, h1, h2⟩ := findParents_of_mem m k hk
        exact ⟨ps, h1, List.mem_cons_of_mem _ h2⟩

theorem visitChildren_fresh (h : ASTHeap Field) (visited : List ASTPtr) (to_node : ASTPtr) :
    ∀ (cs : List ASTPtr) (to_visit : List Edge) (opm : List (ASTPtr × List ASTPtr)),
      (∀ c ∈ cs, c ∉ visited) →
      visitChildren h visited to_node cs to_visit opm
        = (((cs.filter (fun c => !isSelectQuery h c)).reverse.map (fun c => (to_node, c)))
            ++ to_visit, opm)
  | [], _, _, _ => rfl
  | c :: cs, to_visit, opm, hfresh => by
    have hrest : ∀ c1 ∈ cs, c1 ∉ visited := fun c1 hc1 => hfresh c1 (List.mem_cons_of_mem _ hc1)
    by_cases hs : isSelectQuery h c = true
    · simp only [visitChildren, hs, if_true, List.filter_cons, Bool.not_true,
        Bool.false_eq_true, if_false]
      exact visitChildren_fresh h visited to_node cs to_visit opm hrest
    · have hsf : isSelectQuery h c = false := by simpa using hs
      have hv : visited.contains c = false := by
        simpa using hfresh c (List.mem_cons_self _ _)
      simp only [visitChildren, hsf, hv, Bool.false_eq_true, if_false, Bool.not_false, if_true,
        List.filter_cons, List.reverse_cons, List.map_append, List.map_cons, List.map_nil,
        List.append_assoc, List.singleton_append]
      exact visitChildren_fresh h visited to_node cs ((to_node, c) :: to_visit) opm hrest

end LogicalExpressionsOptimizer

end DB

namespace DB

namespace LogicalExpressionsOptimizer

variable {Field : Type}

theorem TraversalInvariant.head_reachable {h : ASTHeap Field} {root : ASTPtr}
    {s : Optimizer Field} {from_node to_node : ASTPtr} {rest : List Edge}
    (hinv : TraversalInvariant h root s ((from_node, to_node) :: rest)) :
    ∃ path, followPath h root path = some to_node := by
  rcases hinv.stack_edge (from_node, to_node) (List.mem_cons_self _ _) with ⟨_, h2⟩ | ⟨_, h2, h3⟩
  · exact ⟨[], by rw [show to_node = root from h2]; rfl⟩
  · obtain ⟨path, hp⟩ := hinv.log_reachable from_node h2
    obtain ⟨i, _, hpi⟩ := reachable_child h root from_node to_node path hp h3
    exact ⟨_, hpi⟩

theorem TraversalInvariant.visit {h : ASTHeap Field} {root : ASTPtr}
    {s : Optimizer Field} {from_node to_node : ASTPtr} {rest : List Edge}
    (hinv : TraversalInvariant h root s ((from_node, to_node) :: rest)) (s2 : Optimizer Field)
    (hlog : s2.visit_log = s.visit_log ++ [to_node])
    (hvis : s2.visited_nodes = insertVisited s.visited_nodes to_node) :
    s2.visit_log.Nodup ∧ (∀ p, p ∈ s2.visited_nodes ↔ p ∈ s2.visit_log) ∧
    (∀ p ∈ s2.visit_log, ∃ path, followPath h root path = some p) ∧
    (∀ p ∈ s2.visit_log, p = root ∨ ∃ q ∈ s2.visit_log, p ∈ (h.node q).children) ∧
    (rest.map Prod.snd).Nodup ∧ (∀ e ∈ rest, e.2 ∉ s2.visit_log) ∧
    (∀ e ∈ rest, (e.1 = 0 ∧ e.2 = root) ∨
      (e.1 ≠ 0 ∧ e.1 ∈ s2.visit_log ∧ e.2 ∈ (h.node e.1).children)) := by
  have hfresh : to_node ∉ s.visit_log :=
    hinv.stack_fresh (from_node, to_node) (List.mem_cons_self _ _)
  have hnd := hinv.stack_nodup
  rw [List.map_cons, List.nodup_cons] at hnd
  have hmono : ∀ p, p ∈ s.visit_log → p ∈ s2.visit_log := fun p hp => by
    rw [hlog]; exact List.mem_append_left _ hp
  have hto : to_node ∈ s2.visit_log := by
    rw [hlog]; exact List.mem_append_right _ (List.mem_singleton.mpr rfl)
  refine ⟨?_, ?_, ?_, ?_, hnd.2, ?_, ?_⟩
  · rw [hlog]
    exact List.Nodup.append hinv.log_nodup (List.nodup_singleton _)
      (List.disjoint_singleton.mpr hfresh)
  · intro p
    rw [hvis, hlog, mem_insertVisited, List.mem_append, List.mem_singleton, hinv.visited_iff]
  · intro p hp
    rw [hlog, List.mem_append, List.mem_singleton] at hp
    rcases hp with hp | rfl
    · exact hinv.log_reachable p hp
    · exact hinv.head_reachable
  · intro p hp
    rw [hlog, List.mem_append, List.mem_singleton] at hp
    rcases hp with hp | rfl
    · rcases hinv.log_parent p hp with hr | ⟨q, hq, hc⟩
      · exact Or.inl hr
      · exact Or.inr ⟨q, hmono q hq, hc⟩
    · rcases hinv.stack_edge (from_node, p) (List.mem_cons_self _ _) with
        ⟨_, h2⟩ | ⟨_, h2, h3⟩
      · exact Or.inl h2
      · exact Or.inr ⟨from_node, hmono _ h2, h3⟩
  · intro e he
    rw [hlog, List.mem_append, List.mem_singleton, not_or]
    refine ⟨hinv.stack_fresh e (List.mem_cons_of_mem _ he), fun hc => hnd.1 ?_⟩
    exact List.mem_map.mpr ⟨e, he, hc⟩
  · intro e he
    rcases hinv.stack_edge e (List.mem_cons_of_mem _ he) with h1 | ⟨h1, h2, h3⟩
    · exact Or.inl h1
    · exact Or.inr ⟨h1, hmono _ h2, h3⟩

theorem TraversalInvariant.found {h : ASTHeap Field} {root : ASTPtr}
    {s : Optimizer Field} {from_node to_node : ASTPtr} {rest : List Edge}
    (hinv : TraversalInvariant h root s ((from_node, to_node) :: rest))
    (hroot : isSelectQuery h root = true)
    (getTreeHash : ASTHeap Field → ASTPtr → Nat × Nat)
    (hf : (findChain getTreeHash h s.disjunctive_equality_chains_map to_node).2 = true)
    (s2 : Optimizer Field) (hast : s2.ast = h)
    (hlog : s2.visit_log = s.visit_log ++ [to_node])
    (hvis : s2.visited_nodes = insertVisited s.visited_nodes to_node)
    (hopm : s2.or_parent_map = s.or_parent_map ++ [(to_node, [from_node])])
    (hch : s2.disjunctive_equality_chains_map
      = (findChain getTreeHash h s.disjunctive_equality_chains_map to_node).1) :
    from_node ≠ 0 ∧ findParents s.or_parent_map to_node = none ∧
      TraversalInvariant h root s2 rest := by
  have hfresh : to_node ∉ s.visit_log :=
    hinv.stack_fresh (from_node, to_node) (List.mem_cons_self _ _)
  obtain ⟨h1, h2, h3, h4, h5, h6, h7⟩ := hinv.visit s2 hlog hvis
  have hspec := findChain_spec getTreeHash h s.disjunctive_equality_chains_map to_node
  have hedge : from_node ≠ 0 ∧ from_node ∈ s.visit_log ∧
      to_node ∈ (h.node from_node).children := by
    rcases hinv.stack_edge (from_node, to_node) (List.mem_cons_self _ _) with
      ⟨_, hr⟩ | hr
    · have hns := hspec.2.1 hf
      rw [show to_node = root from hr, hroot] at hns
      cases hns
    · exact hr
  have hmono : ∀ p, p ∈ s.visit_log → p ∈ s2.visit_log := fun p hp => by
    rw [hlog]; exact List.mem_append_left _ hp
  have hto : to_node ∈ s2.visit_log := by
    rw [hlog]; exact List.mem_append_right _ (List.mem_singleton.mpr rfl)
  refine ⟨hedge.1, ?_, ⟨hast, h1, h2, h3, h4, h5, h6, h7, ?_, ?_⟩⟩
  · apply findParents_eq_none
    intro hk
    obtain ⟨e, he, hek⟩ := List.mem_map.mp hk
    exact hfresh (hek ▸ (hinv.parents e he).1)
  · intro e he
    rw [hopm, List.mem_append, List.mem_singleton] at he
    rcases he with he | rfl
    · obtain ⟨ha, parent, hb, hc, hd⟩ := hinv.parents e he
      exact ⟨hmono _ ha, parent, hb, hc, hmono _ hd⟩
    · exact ⟨hto, from_node, rfl, hedge.2.2, hmono _ hedge.2.1⟩
  · intro c hc
    rw [hch] at hc
    rw [hopm, List.map_append, List.mem_append]
    rcases hspec.1 c hc with hk | ⟨c0, hc0, hk⟩
    · right
      rw [hk]
      exact List.mem_singleton.mpr rfl
    · left
      rw [← hk]
      exact hinv.chains c0 hc0

theorem TraversalInvariant.not_found {h : ASTHeap Field} {root : ASTPtr}
    {s : Optimizer Field} {from_node to_node : ASTPtr} {rest : List Edge}
    (hinv : TraversalInvariant h root s ((from_node, to_node) :: rest))
    (htree : IsTree h root) (halloc : ReachableAllocated h root)
    (getTreeHash : ASTHeap Field → ASTPtr → Nat × Nat)
    (hf : (findChain getTreeHash h s.disjunctive_equality_chains_map to_node).2 = false)
    (s2 : Optimizer Field) (hast : s2.ast = h)
    (hlog : s2.visit_log = s.visit_log ++ [to_node])
    (hvis : s2.visited_nodes = insertVisited s.visited_nodes to_node)
    (hopm : s2.or_parent_map = s.or_parent_map)
    (hch : s2.disjunctive_equality_chains_map
      = (findChain getTreeHash h s.disjunctive_equality_chains_map to_node).1) :
    visitChildren h (insertVisited s.visited_nodes to_node) to_node
        (h.node to_node).children rest s.or_parent_map
      = ((((h.node to_node).children.filter (fun c => !isSelectQuery h c)).reverse.map
          (fun c => (to_node, c))) ++ rest, s.or_parent_map) ∧
    TraversalInvariant h root s2
      ((((h.node to_node).children.filter (fun c => !isSelectQuery h c)).reverse.map
          (fun c => (to_node, c))) ++ rest) := by
  have hfresh : to_node ∉ s.visit_log :=
    hinv.stack_fresh (from_node, to_node) (List.mem_cons_self _ _)
  obtain ⟨h1, h2, h3, h4, h5, h6, h7⟩ := hinv.visit s2 hlog hvis
  obtain ⟨path, hpath⟩ := hinv.head_reachable
  have hspec := findChain_spec getTreeHash h s.disjunctive_equality_chains_map to_node
  have hto : to_node ∈ s2.visit_log := by
    rw [hlog]; exact List.mem_append_right _ (List.mem_singleton.mpr rfl)
  have hchild : ∀ c ∈ (h.node to_node).children, c ∉ s2.visit_log := by
    intro c hc hin
    rw [hlog, List.mem_append, List.mem_singleton] at hin
    rcases hin with hin | rfl
    · rcases hinv.log_parent c hin with hr | ⟨q, hq, hcq⟩
      · exact htree.not_child_root hpath (hr ▸ hc)
      · obtain ⟨pq, hpq⟩ := hinv.log_reachable q hq
        have := htree.parent_unique hpq hpath hcq hc
        exact hfresh (this ▸ hq)
    · exact htree.not_child_self hpath hc
  have hmemP : ∀ e, e ∈ ((h.node to_node).children.filter
      (fun c => !isSelectQuery h c)).reverse.map (fun c => (to_node, c)) →
      e.1 = to_node ∧ e.2 ∈ (h.node to_node).children := by
    intro e he
    obtain ⟨c, hc, rfl⟩ := List.mem_map.mp he
    exact ⟨rfl, (List.mem_filter.mp (List.mem_reverse.mp hc)).1⟩
  refine ⟨?_, ⟨hast, h1, h2, h3, h4, ?_, ?_, ?_, ?_, ?_⟩⟩
  · apply visitChildren_fresh
    intro c hc hin
    exact hchild c hc ((h2 c).mp (hvis ▸ hin))
  · rw [List.map_append, List.map_map]
    have hid : (Prod.snd ∘ fun c => (to_node, c)) = (id : ASTPtr → ASTPtr) := rfl
    rw [hid, List.map_id]
    refine List.Nodup.append ?_ h5 ?_
    · exact List.nodup_reverse.mpr ((htree.children_nodup hpath).filter _)
    · intro c hc1 hc2
      have hcc : c ∈ (h.node to_node).children :=
        (List.mem_filter.mp (List.mem_reverse.mp hc1)).1
      obtain ⟨e, he, rfl⟩ := List.mem_map.mp hc2
      rcases hinv.stack_edge e (List.mem_cons_of_mem _ he) with ⟨_, hr⟩ | ⟨_, hr2, hr3⟩
      · exact htree.not_child_root hpath (hr ▸ hcc)
      · obtain ⟨pq, hpq⟩ := hinv.log_reachable e.1 hr2
        have := htree.parent_unique hpq hpath hr3 hcc
        exact hfresh (this ▸ hr2)
  · intro e he
    rcases List.mem_append.mp he with he | he
    · exact hchild e.2 (hmemP e he).2
    · exact h6 e he
  · intro e he
    rcases List.mem_append.mp he with he | he
    · obtain ⟨e1, e2⟩ := hmemP e he
      right
      rw [e1]
      exact ⟨(halloc path to_node hpath).1, hto, e1 ▸ e2⟩
    · exact h7 e he
  · intro e he
    rw [hopm] at he
    obtain ⟨ha, parent, hb, hc, hd⟩ := hinv.parents e he
    have hmono : ∀ p, p ∈ s.visit_log → p ∈ s2.visit_log := fun p hp => by
      rw [hlog]; exact List.mem_append_left _ hp
    exact ⟨hmono _ ha, parent, hb, hc, hmono _ hd⟩
  · intro c hc
    rw [hch, hspec.2.2 hf] at hc
    rw [hopm]
    exact hinv.chains c hc

end LogicalExpressionsOptimizer

end DB

namespace DB

namespace LogicalExpressionsOptimizer

variable {Field : Type}

theorem TraversalInvariant.log_bound {h : ASTHeap Field} {root : ASTPtr}
    {s : Optimizer Field} {e : Edge} {rest : List Edge}
    (hinv : TraversalInvariant h root s (e :: rest)) (halloc : ReachableAllocated h root) :
    s.visit_log.length + 1 ≤ h.next := by
  obtain ⟨from_node, to_node⟩ := e
  obtain ⟨h1, -, h3, -⟩ := hinv.visit
    { s with
      visit_log := s.visit_log ++ [to_node]
      visited_nodes := insertVisited s.visited_nodes to_node } rfl rfl
  have hsub : s.visit_log ++ [to_node] ⊆ List.range h.next := by
    intro p hp
    obtain ⟨path, hpath⟩ := h3 p hp
    exact List.mem_range.mpr (halloc path p hpath).2
  have hlen := (List.Nodup.subperm h1 hsub).length_le
  simpa using hlen

theorem collectLoop_nil (getTreeHash : ASTHeap Field → ASTPtr → Nat × Nat) (fuel : Nat)
    (s : Optimizer Field) : collectLoop getTreeHash fuel s [] = ⟨s, .returned⟩ := by
  cases fuel <;> rfl

theorem collectLoop_spec (getTreeHash : ASTHeap Field → ASTPtr → Nat × Nat)
    (root : ASTPtr) :
    ∀ (fuel : Nat) (s : Optimizer Field) (to_visit : List Edge),
      TraversalInvariant s.ast root s to_visit → isSelectQuery s.ast root = true →
      IsTree s.ast root → ReachableAllocated s.ast root →
      ∃ rest, TraversalInvariant s.ast root (collectLoop getTreeHash fuel s to_visit).state rest ∧
        ((collectLoop getTreeHash fuel s to_visit).ending = .returned ∨
          (collectLoop getTreeHash fuel s to_visit).ending = .unfinished) ∧
        (fuel + s.visit_log.length ≥ s.ast.next →
          (collectLoop getTreeHash fuel s to_visit).ending = .returned)
  | fuel, s, [], hinv, _, _, _ => by
    rw [collectLoop_nil]
    exact ⟨[], hinv, Or.inl rfl, fun _ => rfl⟩
  | 0, s, e :: rest, hinv, _, _, halloc => by
    have hb := hinv.log_bound halloc
    refine ⟨e :: rest, hinv, Or.inr rfl, fun hc => ?_⟩
    omega
  | fuel + 1, s, (from_node, to_node) :: rest, hinv, hroot, htree, halloc => by
    have hb := hinv.log_bound halloc
    by_cases hf : (findChain getTreeHash s.ast s.disjunctive_equality_chains_map to_node).2
        = true
    · obtain ⟨hne, hnone, hinv2⟩ := hinv.found hroot getTreeHash hf
        { s with
          disjunctive_equality_chains_map :=
            (findChain getTreeHash s.ast s.disjunctive_equality_chains_map to_node).1
          visited_nodes := insertVisited s.visited_nodes to_node
          visit_log := s.visit_log ++ [to_node]
          or_parent_map := s.or_parent_map ++ [(to_node, [from_node])] }
        rfl rfl rfl rfl rfl
      have hstep : collectLoop getTreeHash (fuel + 1) s ((from_node, to_node) :: rest)
          = collectLoop getTreeHash fuel
              { s with
                disjunctive_equality_chains_map :=
                  (findChain getTreeHash s.ast s.disjunctive_equality_chains_map to_node).1
                visited_nodes := insertVisited s.visited_nodes to_node
                visit_log := s.visit_log ++ [to_node]
                or_parent_map := s.or_parent_map ++ [(to_node, [from_node])] } rest := by
        simp only [collectLoop, hf, if_true, ne_eq, hne, not_false_eq_true, hnone]
      rw [hstep]
      obtain ⟨rest2, r1, r2, r3⟩ := collectLoop_spec getTreeHash root fuel
        { s with
          disjunctive_equality_chains_map :=
            (findChain getTreeHash s.ast s.disjunctive_equality_chains_map to_node).1
          visited_nodes := insertVisited s.visited_nodes to_node
          visit_log := s.visit_log ++ [to_node]
          or_parent_map := s.or_parent_map ++ [(to_node, [from_node])] }
        rest hinv2 hroot htree halloc
      refine ⟨rest2, r1, r2, fun hc => r3 ?_⟩
      show fuel + (s.visit_log ++ [to_node]).length ≥ s.ast.next
      rw [List.length_append, List.length_singleton]
      omega
    · have hff : (findChain getTreeHash s.ast s.disjunctive_equality_chains_map to_node).2
          = false := by simpa using hf
      obtain ⟨hvc, hinv2⟩ := hinv.not_found htree halloc getTreeHash hff
        { s with
          disjunctive_equality_chains_map :=
            (findChain getTreeHash s.ast s.disjunctive_equality_chains_map to_node).1
          visited_nodes := insertVisited s.visited_nodes to_node
          visit_log := s.visit_log ++ [to_node]
          or_parent_map := s.or_parent_map }
        rfl rfl rfl rfl rfl
      have hstep : collectLoop getTreeHash (fuel + 1) s ((from_node, to_node) :: rest)
          = collectLoop getTreeHash fuel
              { s with
                disjunctive_equality_chains_map :=
                  (findChain getTreeHash s.ast s.disjunctive_equality_chains_map to_node).1
                visited_nodes := insertVisited s.visited_nodes to_node
                visit_log := s.visit_log ++ [to_node]
                or_parent_map := s.or_parent_map }
              ((((s.ast.node to_node).children.filter
                (fun c => !isSelectQuery s.ast c)).reverse.map (fun c => (to_node, c)))
                ++ rest) := by
        simp only [collectLoop, hff, Bool.false_eq_true, if_false, hvc]
      rw [hstep]
      obtain ⟨rest2, r1, r2, r3⟩ := collectLoop_spec getTreeHash root fuel
        { s with
          disjunctive_equality_chains_map :=
            (findChain getTreeHash s.ast s.disjunctive_equality_chains_map to_node).1
          visited_nodes := insertVisited s.visited_nodes to_node
          visit_log := s.visit_log ++ [to_node]
          or_parent_map := s.or_parent_map }
        _ hinv2 hroot htree halloc
      refine ⟨rest2, r1, r2, fun hc => r3 ?_⟩
      show fuel + (s.visit_log ++ [to_node]).length ≥ s.ast.next
      rw [List.length_append, List.length_singleton]
      omega

end LogicalExpressionsOptimizer

end DB

namespace DB

namespace LogicalExpressionsOptimizer

variable {Field : Type}

theorem sortEqualityFunctions_keys (E : OptimizerEnv Field) :
    ∀ (m : List DisjunctiveEqualityChain) (c : DisjunctiveEqualityChain),
      c ∈ sortEqualityFunctions E m → ∃ c0 ∈ m, c0.1 = c.1
  | [], _, hc => by cases hc
  | c0 :: m, c, hc => by
    simp only [sortEqualityFunctions] at hc
    rcases List.mem_cons.mp hc with rfl | hc
    · exact ⟨c0, List.mem_cons_self _ _, rfl⟩
    · obtain ⟨c1, hc1, hk⟩ := sortEqualityFunctions_keys E m c hc
      exact ⟨c1, List.mem_cons_of_mem _ hc1, hk⟩

theorem Optimizer.Fresh.invariant {s : Optimizer Field} (hfresh : s.Fresh) :
    TraversalInvariant s.ast s.select_query s [(0, s.select_query)] := by
  obtain ⟨hv, ho, hc, hl⟩ := hfresh
  refine ⟨rfl, ?_, ?_, ?_, ?_, ?_, ?_, ?_, ?_, ?_⟩
  · rw [hl]; exact List.nodup_nil
  · intro p; rw [hv, hl]
  · intro p hp; rw [hl] at hp; cases hp
  · intro p hp; rw [hl] at hp; cases hp
  · exact List.nodup_singleton _
  · intro e _; rw [hl]; exact List.not_mem_nil _
  · intro e he
    rw [List.mem_singleton] at he
    rw [he]
    exact Or.inl ⟨rfl, rfl⟩
  · intro e he; rw [ho] at he; cases he
  · intro c hc'; rw [hc] at hc'; cases hc'

theorem collectDisjunctiveEqualityChains_eq (E : OptimizerEnv Field)
    (getTreeHash : ASTHeap Field → ASTPtr → Nat × Nat) (fuel : Nat) (s : Optimizer Field)
    (hv : s.visited_nodes = []) :
    ((collectLoop getTreeHash fuel s [(0, s.select_query)]).ending = .returned →
      collectDisjunctiveEqualityChains E getTreeHash fuel s
        = ⟨{ (collectLoop getTreeHash fuel s [(0, s.select_query)]).state with
            disjunctive_equality_chains_map := sortEqualityFunctions E
              (collectLoop getTreeHash fuel s
                [(0, s.select_query)]).state.disjunctive_equality_chains_map },
          .returned⟩) ∧
    ((collectLoop getTreeHash fuel s [(0, s.select_query)]).ending ≠ .returned →
      collectDisjunctiveEqualityChains E getTreeHash fuel s
        = collectLoop getTreeHash fuel s [(0, s.select_query)]) := by
  have hc : s.visited_nodes.contains s.select_query = false := by rw [hv]; rfl
  constructor
  · intro hend
    simp only [collectDisjunctiveEqualityChains, hc, Bool.false_eq_true, if_false, hend]
  · intro hend
    cases hend2 : (collectLoop getTreeHash fuel s [(0, s.select_query)]).ending <;>
      simp only [collectDisjunctiveEqualityChains, hc, Bool.false_eq_true, if_false, hend2]
    exact absurd hend2 hend

end LogicalExpressionsOptimizer

end DB

namespace DB

namespace LogicalExpressionsOptimizer

variable {Field : Type}

/-- C23. For every query AST that is a tree (no node is reachable from the select query
along two different child paths), `collectDisjunctiveEqualityChains` of a newly constructed
optimizer visits each node at most once and never raises the "parent node information is
corrupted" logical error, however far the traversal has come; it returns (as many
iterations as there are addresses are enough), and then it has recorded for every OR node
in which a chain was found exactly one parent, the one reachable node whose children list
contains it. -/
theorem collectDisjunctiveEqualityChains_on_tree (E : OptimizerEnv Field)
    (getTreeHash : ASTHeap Field → ASTPtr → Nat × Nat) (s : Optimizer Field)
    (hfresh : s.Fresh) (hroot : isSelectQuery s.ast s.select_query = true)
    (htree : IsTree s.ast s.select_query)
    (halloc : ReachableAllocated s.ast s.select_query) :
    (∀ fuel,
      (collectDisjunctiveEqualityChains E getTreeHash fuel s).state.visit_log.Nodup ∧
      (collectDisjunctiveEqualityChains E getTreeHash fuel s).ending
        ≠ .threw .parentNodeCorrupted) ∧
    ∀ fuel, fuel ≥ s.ast.next →
      (collectDisjunctiveEqualityChains E getTreeHash fuel s).ending = .returned ∧
      ∀ chain ∈ (collectDisjunctiveEqualityChains E getTreeHash fuel
          s).state.disjunctive_equality_chains_map,
        ∃ parent,
          findParents (collectDisjunctiveEqualityChains E getTreeHash fuel s).state.or_parent_map
            chain.1.or_function = some [parent] ∧
          chain.1.or_function ∈ (s.ast.node parent).children ∧
          ∀ path q, followPath s.ast s.select_query path = some q →
            chain.1.or_function ∈ (s.ast.node q).children → q = parent := by
  have hspec : ∀ fuel, _ := fun fuel =>
    collectLoop_spec getTreeHash s.select_query fuel s [(0, s.select_query)]
      hfresh.invariant hroot htree halloc
  have heq := fun fuel => collectDisjunctiveEqualityChains_eq E getTreeHash fuel s hfresh.1
  constructor
  · intro fuel
    obtain ⟨rest, hinv, hend, -⟩ := hspec fuel
    by_cases hr : (collectLoop getTreeHash fuel s [(0, s.select_query)]).ending = .returned
    · rw [(heq fuel).1 hr]
      exact ⟨hinv.log_nodup, by simp⟩
    · rw [(heq fuel).2 hr]
      refine ⟨hinv.log_nodup, ?_⟩
      rcases hend with he | he
      · exact absurd he hr
      · rw [he]; simp
  · intro fuel hfuel
    obtain ⟨rest, hinv, -, hret⟩ := hspec fuel
    have hr := hret (by rw [hfresh.2.2.2]; exact hfuel)
    rw [(heq fuel).1 hr]
    refine ⟨rfl, ?_⟩
    intro chain hchain
    obtain ⟨c0, hc0, hk⟩ := sortEqualityFunctions_keys E _ chain hchain
    have hkey := hinv.chains c0 hc0
    rw [hk] at hkey
    obtain ⟨ps, hfind, hmem⟩ := findParents_of_mem _ _ hkey
    obtain ⟨-, parent, hps, hchild, hplog⟩ := hinv.parents _ hmem
    obtain ⟨ppath, hppath⟩ := hinv.log_reachable parent hplog
    refine ⟨parent, ?_, hchild, ?_⟩
    · show findParents (collectLoop getTreeHash fuel s [(0, s.select_query)]).state.or_parent_map
        chain.1.or_function = some [parent]
      rw [hfind]
      exact congrArg some hps
    · intro path q hq hcq
      exact htree.parent_unique hq hppath hcq hchild

end LogicalExpressionsOptimizer

end DB

namespace DB

namespace LogicalExpressionsOptimizer

variable {Field : Type}

theorem followPath_of_pathOf (h : ASTHeap Field) (root : ASTPtr) (nodes : List ASTPtr)
    (pathOf : ASTPtr → List Nat) (hroot : root ∈ nodes ∧ pathOf root = [])
    (hstep : ∀ q ∈ nodes, ∀ i, i < (h.node q).children.length →
      (h.node q).children.getD i 0 ∈ nodes ∧
        pathOf ((h.node q).children.getD i 0) = pathOf q ++ [i]) :
    ∀ (path : List Nat) (p : ASTPtr), followPath h root path = some p →
      p ∈ nodes ∧ pathOf p = path := by
  intro path
  induction path using List.reverseRecOn with
  | nil =>
    intro p hp
    have : root = p := Option.some.inj hp
    rw [← this]
    exact hroot
  | append_singleton path i ih =>
    intro p hp
    rw [followPath_snoc] at hp
    cases hq : followPath h root path with
    | none => rw [hq] at hp; cases hp
    | some q =>
      rw [hq] at hp
      have hp2 : (h.node q).children[i]? = some p := hp
      obtain ⟨hi, hget⟩ := List.getElem?_eq_some_iff.mp hp2
      obtain ⟨hqn, hqp⟩ := ih q hq
      have hd : (h.node q).children.getD i 0 = p := by
        rw [List.getD_eq_getElem _ _ hi, hget]
      have := hstep q hqn i hi
      rw [hd, hqp] at this
      exact this

theorem sampleQueryHeap_paths :
    ∀ (path : List Nat) (p : ASTPtr), followPath sampleQueryHeap 100 path = some p →
      p ∈ sampleNodes ∧ samplePathOf p = path :=
  followPath_of_pathOf sampleQueryHeap 100 sampleNodes samplePathOf (by decide) (by decide)

theorem sampleQueryHeap_isTree : IsTree sampleQueryHeap 100 := by
  intro path1 path2 p h1 h2
  rw [← (sampleQueryHeap_paths path1 p h1).2, ← (sampleQueryHeap_paths path2 p h2).2]

theorem sampleQueryHeap_allocated : ReachableAllocated sampleQueryHeap 100 := by
  intro path p hp
  have hall : ∀ q ∈ sampleNodes, q ≠ 0 ∧ q < sampleQueryHeap.next := by decide
  exact hall p (sampleQueryHeap_paths path p hp).1

/-- C23 on the sample: the traversal of the query at 100 returns, has visited no node
twice, and has recorded the select query as the one parent of the OR function at 1. -/
theorem collectDisjunctiveEqualityChains_on_tree_witness :
    sampleOptimizer.Fresh ∧ IsTree sampleOptimizer.ast sampleOptimizer.select_query ∧
    (collectDisjunctiveEqualityChains sampleEnv sampleTreeHash 105
      sampleOptimizer).ending = .returned ∧
    (collectDisjunctiveEqualityChains sampleEnv sampleTreeHash 105
      sampleOptimizer).state.visit_log.Nodup ∧
    findParents (collectDisjunctiveEqualityChains sampleEnv sampleTreeHash 105
      sampleOptimizer).state.or_parent_map 1 = some [100] := by
  have hfresh : sampleOptimizer.Fresh := ⟨rfl, rfl, rfl, rfl⟩
  obtain ⟨hall, hret⟩ := collectDisjunctiveEqualityChains_on_tree sampleEnv sampleTreeHash
    sampleOptimizer hfresh rfl sampleQueryHeap_isTree sampleQueryHeap_allocated
  exact ⟨hfresh, sampleQueryHeap_isTree, (hret 105 (by decide)).1, (hall 105).1, by decide⟩

end LogicalExpressionsOptimizer

end DB

/-! ## The logical expressions optimizer: the alias stored in the key of a chain -/

namespace DB

namespace LogicalExpressionsOptimizer

variable {Field : Type}

theorem pushEquality_key :
    ∀ (m : List DisjunctiveEqualityChain) (key : OrWithExpression) (equals : ASTPtr)
      (c : DisjunctiveEqualityChain), c ∈ pushEquality m key equals →
      c.1 = key ∨ ∃ c0 ∈ m, c0.1 = c.1
  | [], key, equals, c, hc => by
    simp only [pushEquality, List.mem_singleton] at hc
    left
    rw [hc]
  | c0 :: cs, key, equals, c, hc => by
    simp only [pushEquality] at hc
    split at hc
    · rcases List.mem_cons.mp hc with rfl | hc
      · exact Or.inl rfl
      · exact Or.inr ⟨c, hc, rfl⟩
    · split at hc
      · rcases List.mem_cons.mp hc with rfl | hc
        · exact Or.inr ⟨c, List.mem_cons_self _ _, rfl⟩
        · rcases pushEquality_key cs key equals c hc with h | ⟨c1, hc1, h⟩
          · exact Or.inl h
          · exact Or.inr ⟨c1, List.mem_cons_of_mem _ hc1, h⟩
      · rcases List.mem_cons.mp hc with rfl | hc
        · exact Or.inr ⟨c0, List.mem_cons_self _ _, rfl⟩
        · exact Or.inr ⟨c, List.mem_cons_of_mem _ hc, rfl⟩

theorem collectEqualities_alias (getTreeHash : ASTHeap Field → ASTPtr → Nat × Nat)
    (h : ASTHeap Field) (function : ASTPtr) :
    ∀ (cs : List ASTPtr) (m : List DisjunctiveEqualityChain) (found : Bool),
      (∀ c ∈ m, c.1.alias_name = tryGetAlias h c.1.or_function) →
      ∀ c ∈ (collectEqualities getTreeHash h function cs m found).1,
        c.1.alias_name = tryGetAlias h c.1.or_function
  | [], _, _, hm => hm
  | child :: cs, m, found, hm => by
    by_cases he : isEqualityWithLiteral h child = true
    · simp only [collectEqualities, he, if_true]
      refine collectEqualities_alias getTreeHash h function cs _ true ?_
      intro c hc
      rcases pushEquality_key m _ child c hc with hk | ⟨c0, hc0, hk⟩
      · rw [hk]
      · rw [← hk]
        exact hm c0 hc0
    · have hef : isEqualityWithLiteral h child = false := by simpa using he
      simp only [collectEqualities, hef, Bool.false_eq_true, if_false]
      exact collectEqualities_alias getTreeHash h function cs m found hm

theorem findChain_alias (getTreeHash : ASTHeap Field → ASTPtr → Nat × Nat)
    (h : ASTHeap Field) (m : List DisjunctiveEqualityChain) (p : ASTPtr)
    (hm : ∀ c ∈ m, c.1.alias_name = tryGetAlias h c.1.or_function) :
    ∀ c ∈ (findChain getTreeHash h m p).1, c.1.alias_name = tryGetAlias h c.1.or_function := by
  unfold findChain
  split
  · exact collectEqualities_alias getTreeHash h p _ m false hm
  · exact hm

theorem collectLoop_alias (getTreeHash : ASTHeap Field → ASTPtr → Nat × Nat) :
    ∀ (fuel : Nat) (s : Optimizer Field) (to_visit : List Edge),
      (∀ c ∈ s.disjunctive_equality_chains_map,
        c.1.alias_name = tryGetAlias s.ast c.1.or_function) →
      ∀ c ∈ (collectLoop getTreeHash fuel s to_visit).state.disjunctive_equality_chains_map,
        c.1.alias_name = tryGetAlias s.ast c.1.or_function
  | 0, s, [], hs => by simpa [collectLoop] using hs
  | _ + 1, s, [], hs => by simpa [collectLoop] using hs
  | 0, s, _ :: _, hs => by simpa [collectLoop] using hs
  | fuel + 1, s, edge :: to_visit, hs => by
    have hf := findChain_alias getTreeHash s.ast s.disjunctive_equality_chains_map edge.2 hs
    simp only [collectLoop]
    split
    · split
      · split
        · exact hf
        · exact collectLoop_alias getTreeHash fuel _ to_visit hf
      · exact collectLoop_alias getTreeHash fuel _ to_visit hf
    · exact collectLoop_alias getTreeHash fuel _ _ hf

/-- The key of every chain that `collectDisjunctiveEqualityChains` collects holds the alias
of its OR function: the key is made with `function->tryGetAlias()`. -/
theorem collectDisjunctiveEqualityChains_alias (E : OptimizerEnv Field)
    (getTreeHash : ASTHeap Field → ASTPtr → Nat × Nat) (fuel : Nat) (s : Optimizer Field)
    (hs : ∀ c ∈ s.disjunctive_equality_chains_map,
      c.1.alias_name = tryGetAlias s.ast c.1.or_function) :
    ∀ c ∈ (collectDisjunctiveEqualityChains E getTreeHash fuel
        s).state.disjunctive_equality_chains_map,
      c.1.alias_name = tryGetAlias s.ast c.1.or_function := by
  have hl := collectLoop_alias getTreeHash fuel s [(0, s.select_query)] hs
  by_cases hv : s.visited_nodes.contains s.select_query = true
  · simpa only [collectDisjunctiveEqualityChains, hv, if_true] using hs
  · cases hend : (collectLoop getTreeHash fuel s [(0, s.select_query)]).ending <;>
      simp only [collectDisjunctiveEqualityChains, hv, hend, if_false, Bool.false_eq_true] <;>
      try exact hl
    intro c hc
    obtain ⟨c0, hc0, hk⟩ := sortEqualityFunctions_keys E _ c hc
    rw [← hk]
    exact hl c0 hc0

/-- A call of `addInExpression` leaves the alias of every node allocated before it as it
was, so the alias in the key of a chain stays the alias of its OR function over the loop
of `perform`. -/
theorem addInExpression_tryGetAlias [Inhabited Field] (E : OptimizerEnv Field)
    (h : ASTHeap Field) (chain : DisjunctiveEqualityChain) (hch : ChainAllocated h chain)
    (f : ASTPtr) (hf : f < h.next) :
    tryGetAlias (addInExpression E h chain) f = tryGetAlias h f := by
  obtain ⟨hor, hargs, _, hf0, hargs0, _⟩ := hch
  have N := node_addInExpression E h chain hor hargs hf0 hargs0 f
  have c3 : f ≠ h.next + 3 :=
    Nat.ne_of_lt (Nat.lt_succ_of_lt (Nat.lt_succ_of_lt (Nat.lt_succ_of_lt hf)))
  have c2 : f ≠ h.next + 2 := Nat.ne_of_lt (Nat.lt_succ_of_lt (Nat.lt_succ_of_lt hf))
  have c1 : f ≠ h.next + 1 := Nat.ne_of_lt (Nat.lt_succ_of_lt hf)
  have c0 : f ≠ h.next := Nat.ne_of_lt hf
  unfold tryGetAlias
  rw [N]
  by_cases hq : f = operandsNode h chain.1.or_function
  · rw [if_pos hq]
  · rw [if_neg hq, if_neg c3, if_neg c2, if_neg c1, if_neg c0]

/-- The alias of the sample: the key of every chain collected from the query at 100 holds
the alias "x" of the OR function at 1. -/
theorem collectDisjunctiveEqualityChains_alias_instance :
    ∀ c ∈ collectedChains sampleEnv sampleTreeHash 30 sampleOptimizer,
      c.1.alias_name = tryGetAlias sampleQueryHeap c.1.or_function :=
  collectDisjunctiveEqualityChains_alias sampleEnv sampleTreeHash 30
    (withPositions sampleOptimizer) (fun _ hc => by cases hc)

end LogicalExpressionsOptimizer

end DB
